import Mathlib

/-!
# CPlayground: digest engine and credential record store

A shallow embedding of `src/main.c` (the SHA-256 routines, the user database
`load_users` / `save_users` / `find_user_index`) together with theorems about it.

Conventions of the embedding.

* A C `char` / `uint8_t` is a natural number (its unsigned byte value); a C string is the
  `List Nat` of its bytes without the terminating NUL.
* `uint32_t` arithmetic is `Nat` arithmetic reduced `% 4294967296`; the
  `unsigned long long` bit counter is reduced `% 18446744073709551616`.
* An array is a list; `a[i] = v` is `List.set`, `a[i]` is `List.getD _ i 0`.
* An `int` is an `Int`; a loop is a structural recursion, on the data it walks or on a
  bound on its number of iterations.
* A definition named `spec_...` is a reference notion written from the words of the
  specification, to compare the code with; the other definitions follow the source.
-/

namespace CPlayground

/-! ## Text helpers -/

/-- The bytes of a string literal (used to write C string literals). -/
def ascii (s : String) : List Nat := s.toList.map Char.toNat

/-! ## SHA-256 -/

/-- The struct `SHA256_CTX`: pending block, number of buffered bytes, bit counter, state words. -/
structure SHA256_CTX where
  data : List Nat
  datalen : Nat
  bitlen : Nat
  state : List Nat
  deriving DecidableEq, Repr

/-- Macro `ROTRIGHT(a,b)` on a `uint32_t`. -/
def ROTRIGHT (a b : Nat) : Nat := (a >>> b) ||| ((a <<< (32 - b)) % 4294967296)

/-- Macro `CH(x,y,z)`; `~x` on a `uint32_t` is `x ^ 0xffffffff`. -/
def CH (x y z : Nat) : Nat := (x &&& y) ^^^ ((x ^^^ 4294967295) &&& z)

/-- Macro `MAJ(x,y,z)`. -/
def MAJ (x y z : Nat) : Nat := (x &&& y) ^^^ (x &&& z) ^^^ (y &&& z)

/-- Macro `EP0(x)`. -/
def EP0 (x : Nat) : Nat := ROTRIGHT x 2 ^^^ ROTRIGHT x 13 ^^^ ROTRIGHT x 22

/-- Macro `EP1(x)`. -/
def EP1 (x : Nat) : Nat := ROTRIGHT x 6 ^^^ ROTRIGHT x 11 ^^^ ROTRIGHT x 25

/-- Macro `SIG0(x)`. -/
def SIG0 (x : Nat) : Nat := ROTRIGHT x 7 ^^^ ROTRIGHT x 18 ^^^ (x >>> 3)

/-- Macro `SIG1(x)`. -/
def SIG1 (x : Nat) : Nat := ROTRIGHT x 17 ^^^ ROTRIGHT x 19 ^^^ (x >>> 10)

/-- The table `k256` of round constants, one list per source line. -/
def k256 : List Nat :=
  [0x428a2f98, 0x71374491, 0xb5c0fbcf, 0xe9b5dba5, 0x3956c25b, 0x59f111f1, 0x923f82a4, 0xab1c5ed5] ++
  [0xd807aa98, 0x12835b01, 0x243185be, 0x550c7dc3, 0x72be5d74, 0x80deb1fe, 0x9bdc06a7, 0xc19bf174] ++
  [0xe49b69c1, 0xefbe4786, 0x0fc19dc6, 0x240ca1cc, 0x2de92c6f, 0x4a7484aa, 0x5cb0a9dc, 0x76f988da] ++
  [0x983e5152, 0xa831c66d, 0xb00327c8, 0xbf597fc7, 0xc6e00bf3, 0xd5a79147, 0x06ca6351, 0x14292967] ++
  [0x27b70a85, 0x2e1b2138, 0x4d2c6dfc, 0x53380d13, 0x650a7354, 0x766a0abb, 0x81c2c92e, 0x92722c85] ++
  [0xa2bfe8a1, 0xa81a664b, 0xc24b8b70, 0xc76c51a3, 0xd192e819, 0xd6990624, 0xf40e3585, 0x106aa070] ++
  [0x19a4c116, 0x1e376c08, 0x2748774c, 0x34b0bcb5, 0x391c0cb3, 0x4ed8aa4a, 0x5b9cca4f, 0x682e6ff3] ++
  [0x748f82ee, 0x78a5636f, 0x84c87814, 0x8cc70208, 0x90befffa, 0xa4506ceb, 0xbef9a3f7, 0xc67178f2]

/-- First loop of `sha256_transform`: `m[i]` for `i < 16`, the big-endian word at `data[4*i..]`. -/
def load_words (data : List Nat) : List Nat :=
  (List.range 16).map fun i =>
    ((data.getD (4 * i) 0 <<< 24) ||| (data.getD (4 * i + 1) 0 <<< 16) |||
      (data.getD (4 * i + 2) 0 <<< 8) ||| data.getD (4 * i + 3) 0) % 4294967296

/-- Second loop of `sha256_transform`: `for ( ; i < 64; ++i) m[i] = ...`, run for `fuel`
iterations from index `i`; the list `m` holds the words written so far. -/
def expand_words : Nat → Nat → List Nat → List Nat
  | 0, _, m => m
  | fuel + 1, i, m =>
    expand_words fuel (i + 1)
      (m ++ [(SIG1 (m.getD (i - 2) 0) + m.getD (i - 7) 0 + SIG0 (m.getD (i - 15) 0)
        + m.getD (i - 16) 0) % 4294967296])

/-- The eight working variables `a..h` of `sha256_transform`. -/
structure Regs where
  a : Nat
  b : Nat
  c : Nat
  d : Nat
  e : Nat
  f : Nat
  g : Nat
  h : Nat
  deriving DecidableEq, Repr

/-- One iteration of the round loop of `sha256_transform`. -/
def round (m : List Nat) (r : Regs) (i : Nat) : Regs :=
  let t1 := (r.h + EP1 r.e + CH r.e r.f r.g + k256.getD i 0 + m.getD i 0) % 4294967296
  let t2 := (EP0 r.a + MAJ r.a r.b r.c) % 4294967296
  { h := r.g, g := r.f, f := r.e, e := (r.d + t1) % 4294967296,
    d := r.c, c := r.b, b := r.a, a := (t1 + t2) % 4294967296 }

/-- The function `sha256_transform`, on the state words: the new `ctx->state`. -/
def sha256_transform (state : List Nat) (data : List Nat) : List Nat :=
  let m := expand_words 48 16 (load_words data)
  let r0 : Regs :=
    { a := state.getD 0 0, b := state.getD 1 0, c := state.getD 2 0, d := state.getD 3 0,
      e := state.getD 4 0, f := state.getD 5 0, g := state.getD 6 0, h := state.getD 7 0 }
  let r := (List.range 64).foldl (round m) r0
  [(state.getD 0 0 + r.a) % 4294967296, (state.getD 1 0 + r.b) % 4294967296,
   (state.getD 2 0 + r.c) % 4294967296, (state.getD 3 0 + r.d) % 4294967296,
   (state.getD 4 0 + r.e) % 4294967296, (state.getD 5 0 + r.f) % 4294967296,
   (state.getD 6 0 + r.g) % 4294967296, (state.getD 7 0 + r.h) % 4294967296]

/-- The function `sha256_init`: sets the counters and the state words, leaves `data` as it is. -/
def sha256_init (ctx : SHA256_CTX) : SHA256_CTX :=
  { ctx with
    datalen := 0, bitlen := 0,
    state := [0x6a09e667, 0xbb67ae85, 0x3c6ef372, 0xa54ff53a,
              0x510e527f, 0x9b05688c, 0x1f83d9ab, 0x5be0cd19] }

/-- Body of the loop of `sha256_update` for one input byte. -/
def sha256_update_byte (ctx : SHA256_CTX) (byte : Nat) : SHA256_CTX :=
  let data := ctx.data.set ctx.datalen (byte % 256)
  let datalen := (ctx.datalen + 1) % 4294967296
  if datalen = 64 then
    { data := data, datalen := 0,
      bitlen := (ctx.bitlen + 512) % 18446744073709551616,
      state := sha256_transform ctx.state data }
  else
    { ctx with data := data, datalen := datalen }

/-- The function `sha256_update`; the list `data` is the `len` bytes read. -/
def sha256_update (ctx : SHA256_CTX) (data : List Nat) : SHA256_CTX :=
  data.foldl sha256_update_byte ctx

/-- The loop `while (i < stop) data[i++] = 0x00`, run for `fuel` iterations. -/
def zero_fill_loop : Nat → List Nat → Nat → List Nat
  | 0, data, _ => data
  | fuel + 1, data, i => zero_fill_loop fuel (data.set i 0) (i + 1)

/-- The loop `while (i < stop) data[i++] = 0x00`: it runs `stop - i` times. -/
def zero_fill (data : List Nat) (i stop : Nat) : List Nat :=
  zero_fill_loop (stop - i) data i

/-- The call `memset(ctx->data, 0, 56)`. -/
def memset56 (data : List Nat) : List Nat :=
  List.replicate (min 56 data.length) 0 ++ data.drop 56

/-- The eight stores `ctx->data[63] = ctx->bitlen; ... ctx->data[56] = ctx->bitlen >> 56`. -/
def store_bitlen (data : List Nat) (bitlen : Nat) : List Nat :=
  (((((((data.set 63 (bitlen % 256)).set 62 ((bitlen >>> 8) % 256)).set 61
    ((bitlen >>> 16) % 256)).set 60 ((bitlen >>> 24) % 256)).set 59
    ((bitlen >>> 32) % 256)).set 58 ((bitlen >>> 40) % 256)).set 57
    ((bitlen >>> 48) % 256)).set 56 ((bitlen >>> 56) % 256)

/-- The output loop of `sha256_final`: `hash[i + 4*w] = (state[w] >> (24 - i*8)) & 0xff`. -/
def hash_bytes (state : List Nat) : List Nat :=
  (List.range 32).map fun p => (state.getD (p / 4) 0 >>> (24 - (p % 4) * 8)) &&& 255

/-- The function `sha256_final`: the final context and the 32 bytes written to `hash`. -/
def sha256_final (ctx : SHA256_CTX) : SHA256_CTX × List Nat :=
  let i := ctx.datalen
  let padded : SHA256_CTX :=
    if ctx.datalen < 56 then
      { ctx with data := zero_fill (ctx.data.set i 128) (i + 1) 56 }
    else
      let data := zero_fill (ctx.data.set i 128) (i + 1) 64
      { ctx with data := memset56 data, state := sha256_transform ctx.state data }
  let bitlen := (padded.bitlen + (padded.datalen * 8) % 4294967296) % 18446744073709551616
  let data := store_bitlen padded.data bitlen
  let state := sha256_transform padded.state data
  ({ padded with data := data, bitlen := bitlen, state := state }, hash_bytes state)

/-- The conversion `%x` of one nibble: a lowercase hexadecimal digit. -/
def hex_digit (d : Nat) : Nat := if d < 10 then 48 + d else 87 + d

/-- The call `sprintf(_, "%02x", b)` for a byte `b`: two lowercase hexadecimal digits. -/
def hex02 (b : Nat) : List Nat := [hex_digit (b / 16 % 16), hex_digit (b % 16)]

/-- The function `strlen`: the number of bytes before the first NUL. -/
def strlen (s : List Nat) : Nat := (s.takeWhile (· ≠ 0)).length

/-- The function `sha256_hex` run on a given content `ctx` of the local variable `ctx`
(which the C code leaves uninitialised before `sha256_init`). -/
def sha256_hex_from (ctx : SHA256_CTX) (input : List Nat) : List Nat :=
  let ctx1 := sha256_init ctx
  let ctx2 := sha256_update ctx1 (input.take (strlen input))
  let hash := (sha256_final ctx2).2
  hash.flatMap hex02

/-- The function `sha256_hex`, the local `ctx` starting zero-filled (the result does not
depend on that content, see `sha256_hex_from_eq`). -/
def sha256_hex (input : List Nat) : List Nat :=
  sha256_hex_from ⟨List.replicate 64 0, 0, 0, List.replicate 8 0⟩ input

/-! ## User database

The C library calls used by `load_users` and `save_users` (`fgets`, `sscanf`, `fprintf`,
`fopen`, `remove`, `rename`) are modelled after ISO C, and after the C library of the program
where ISO C leaves the result open (the value `%d` stores for a numeral out of range). The
file system holds the two files the program touches; `ensure_data_dir` only decides whether
the following `fopen` can succeed and is covered by `Env.tmp_opens`. Memory exhaustion
(`realloc` returning `NULL`) is not modelled.
-/

/-- The struct `User`; a `char` array field is the C string it holds, an `int` is an `Int`. -/
structure User where
  username : List Nat
  hash : List Nat
  games_played : Int
  games_won : Int
  quizzes : Int
  last_login : List Nat
  deriving DecidableEq, Repr

/-- The C string held in a buffer: the bytes before the first NUL. -/
def cstr (buf : List Nat) : List Nat := buf.takeWhile (· ≠ 0)

/-- The function `isspace` in the C locale: space, `\t`, `\n`, `\v`, `\f`, `\r`. -/
def isspace (c : Nat) : Bool := c == 32 || (decide (9 ≤ c) && decide (c ≤ 13))

/-- The function `isdigit`. -/
def isdigit (c : Nat) : Bool := decide (48 ≤ c) && decide (c ≤ 57)

/-- Number of bytes one `fgets` call takes from the stream when `room` bytes fit in the
buffer: up to and including the first newline. -/
def fgets_count : Nat → List Nat → Nat
  | 0, _ => 0
  | _, [] => 0
  | room + 1, c :: rest => if c = 10 then 1 else 1 + fgets_count room rest

/-- The call `fgets(line, size, f)`: `none` at end of file, else the bytes read and the rest
of the stream. -/
def fgets (size : Nat) (stream : List Nat) : Option (List Nat × List Nat) :=
  if stream = [] then none
  else
    let n := fgets_count (size - 1) stream
    some (stream.take n, stream.drop n)

/-- The conversion `%Ns` of `sscanf`: skip white space, then take at most `width`
non-white-space bytes; `none` when the input ends first. Returns the token and the rest. -/
def scan_s (width : Nat) (inp : List Nat) : Option (List Nat × List Nat) :=
  let s := inp.dropWhile isspace
  let tok := (s.takeWhile fun c => !isspace c).take width
  if tok = [] then none else some (tok, s.drop tok.length)

/-- The decimal digits read by `%d`: accumulates the value, returns it with the rest. -/
def scan_digits : List Nat → Nat → Nat × List Nat
  | [], acc => (acc, [])
  | c :: rest, acc =>
    if isdigit c then scan_digits rest (10 * acc + (c - 48)) else (acc, c :: rest)

/-- Conversion of a value to `int`: the value modulo `2^32` in the range of `int`. It is the
result of an `int` increment and of storing a `long` into an `int` on the platform of the
program (two's complement; ISO C leaves the overflowing increment undefined). -/
def to_int (v : Int) : Int := (v + 2147483648) % 4294967296 - 2147483648

/-- The `long` that the C library gets from a numeral of value `v`, as `strtol` does: the
value itself within the range of a 64-bit `long`, else `LONG_MAX` or `LONG_MIN`. -/
def strtol_value (v : Int) : Int :=
  max (-9223372036854775808) (min v 9223372036854775807)

/-- The optional sign read by `%d`: whether it is a minus sign, and the rest. -/
def scan_sign (s : List Nat) : Bool × List Nat :=
  match s with
  | 45 :: t => (true, t)
  | 43 :: t => (false, t)
  | _ => (false, s)

/-- The conversion `%d` of `sscanf`: skip white space, an optional sign, at least one digit;
`none` on a matching or input failure. All the digits are read. ISO C leaves the stored value
undefined when the numeral is out of the range of `int`; the value here is the one the C
library of the program stores: the numeral converted to a `long` as by `strtol`, and that
`long` stored into the `int`. -/
def scan_d (inp : List Nat) : Option (Int × List Nat) :=
  let signed := scan_sign (inp.dropWhile isspace)
  match signed.2 with
  | [] => none
  | c :: _ =>
    if isdigit c then
      let r := scan_digits signed.2 0
      some (to_int (strtol_value (if signed.1 then -(r.1 : Int) else (r.1 : Int))), r.2)
    else none

/-- What `sscanf(line, "%63s %64s %d %d %d %31s", user, hash, &gp, &gw, &q, last_login)`
returns and stores; `gp`, `gw`, `q` keep their initial `0` when not assigned, a buffer that is
not assigned is never read by `load_users` and is left empty here. -/
structure ScanResult where
  items : Int
  user : List Nat
  hash : List Nat
  gp : Int
  gw : Int
  q : Int
  last_login : List Nat
  deriving DecidableEq, Repr

/-- The `sscanf` call of `load_users`. The return value is `EOF` (`-1`) when the input ends
before the first conversion, else the number of fields assigned. -/
def sscanf_user (line : List Nat) : ScanResult :=
  match scan_s 63 line with
  | none => ⟨-1, [], [], 0, 0, 0, []⟩
  | some (user, r1) =>
    match scan_s 64 r1 with
    | none => ⟨1, user, [], 0, 0, 0, []⟩
    | some (hash, r2) =>
      match scan_d r2 with
      | none => ⟨2, user, hash, 0, 0, 0, []⟩
      | some (gp, r3) =>
        match scan_d r3 with
        | none => ⟨3, user, hash, gp, 0, 0, []⟩
        | some (gw, r4) =>
          match scan_d r4 with
          | none => ⟨4, user, hash, gp, gw, 0, []⟩
          | some (q, r5) =>
            match scan_s 31 r5 with
            | none => ⟨5, user, hash, gp, gw, q, []⟩
            | some (last_login, _) => ⟨6, user, hash, gp, gw, q, last_login⟩

/-- The record built by the body of the `load_users` loop from the result of `sscanf`;
`strncpy(dst, src, n)` into a zeroed buffer keeps the first `n` bytes of the string. -/
def user_of_scan (r : ScanResult) : User :=
  { username := r.user.take 63,
    hash := r.hash.take 64,
    games_played := if 3 ≤ r.items then r.gp else 0,
    games_won := if 4 ≤ r.items then r.gw else 0,
    quizzes := if 5 ≤ r.items then r.q else 0,
    last_login := if 6 ≤ r.items then r.last_login.take 31 else [] }

/-- The loop `while (fgets(line, sizeof line, f)) { ... }` of `load_users`, for at most `fuel`
lines; `arr` holds the records stored so far. -/
def load_loop : Nat → List Nat → List User → List User
  | 0, _, arr => arr
  | fuel + 1, stream, arr =>
    match fgets 512 stream with
    | none => arr
    | some (line, rest) =>
      let r := sscanf_user (cstr line)
      if r.items < 2 then load_loop fuel rest arr
      else load_loop fuel rest (arr ++ [user_of_scan r])

/-- The two files of the program: `data/users.db` and `data/users.db.tmp`, each absent or
holding bytes. -/
structure FS where
  db : Option (List Nat)
  tmp : Option (List Nat)
  deriving DecidableEq, Repr

/-- The function `load_users`: the records stored in `*arr_out` (the returned `n` is their
number). Every `fgets` call takes at least one byte, so the length of the file bounds the
number of iterations. -/
def load_users (fs : FS) : List User :=
  match fs.db with
  | none => []
  | some content => load_loop content.length content []

/-- Decimal digits of `n`, most significant first, by repeated division (at most `fuel`
digits). -/
def dec_digits : Nat → Nat → List Nat
  | 0, _ => []
  | fuel + 1, n => if n < 10 then [48 + n] else dec_digits fuel (n / 10) ++ [48 + n % 10]

/-- The conversion `%d` of `fprintf`. -/
def fmt_d (v : Int) : List Nat :=
  if v < 0 then 45 :: dec_digits ((-v).toNat + 1) (-v).toNat
  else dec_digits (v.toNat + 1) v.toNat

/-- The text written by `fprintf(f, "%s %s %d %d %d %s\n", ...)` for one record. -/
def user_line (u : User) : List Nat :=
  u.username ++ [32] ++ u.hash ++ [32] ++ fmt_d u.games_played ++ [32] ++ fmt_d u.games_won
    ++ [32] ++ fmt_d u.quizzes ++ [32]
    ++ (if u.last_login ≠ [] then u.last_login else ascii "-") ++ [10]

/-- What can go wrong with the temporary file: whether `fopen(USERS_DB ".tmp", "w")`
succeeds, and how many bytes can be written to it (`none`: no limit). -/
structure Env where
  tmp_opens : Bool
  tmp_room : Option Nat
  deriving DecidableEq, Repr

/-- One `fprintf` to the temporary file: the bytes are appended as far as there is room; the
program does not look at the result of the call. -/
def fprintf_tmp (env : Env) (fs : FS) (bytes : List Nat) : FS :=
  match fs.tmp with
  | none => fs
  | some written =>
    match env.tmp_room with
    | none => { fs with tmp := some (written ++ bytes) }
    | some room => { fs with tmp := some ((written ++ bytes).take room) }

/-- The function `save_users`: the file system afterwards and the returned `int`. -/
def save_users (env : Env) (fs : FS) (arr : List User) : FS × Int :=
  if env.tmp_opens then
    let fs1 : FS := { fs with tmp := some [] }
    let fs2 := arr.foldl (fun fs u => fprintf_tmp env fs (user_line u)) fs1
    let fs3 : FS := { fs2 with db := none }
    let fs4 : FS := { db := fs3.tmp, tmp := none }
    (fs4, 1)
  else (fs, 0)

/-- The loop of `find_user_index`, from index `i`. -/
def find_loop : List User → Nat → List Nat → Int
  | [], _, _ => -1
  | u :: rest, i, username =>
    if u.username = username then (i : Int) else find_loop rest (i + 1) username

/-- The function `find_user_index`; a `NULL` array is the empty list. -/
def find_user_index (arr : List User) (username : List Nat) : Int :=
  find_loop arr 0 username

/-! ## Authentication workflow

The flows read their input from `stdin` and print on `stdout`; both are byte lists. The result
of a flow records, besides what the C function returns, what it printed, what is left of
`stdin`, the file system afterwards, and two observations of the calls it made: the records
`load_users` returned and the records passed to `save_users` (`none` when the call was not
made). The failure of `realloc` (the `Memory error.` path of `signup_flow`) is not modelled.
-/

/-- The function `read_line(prompt, buf, n)` without its `printf`: the C string left in `buf`
and the rest of `stdin`. At end of file the string is empty; a final newline is removed. -/
def read_line (n : Nat) (stdin : List Nat) : List Nat × List Nat :=
  match fgets n stdin with
  | none => ([], stdin)
  | some (buf, rest) =>
    if 0 < strlen buf ∧ (cstr buf).getLast? = some 10 then ((cstr buf).dropLast, rest)
    else (cstr buf, rest)

/-- The broken-down local time that `localtime(&t)` yields, as calendar values: the year
(`tm_year + 1900`), the month from 1 (`tm_mon + 1`), the day, hour, minute and second. -/
structure Tm where
  year : Nat
  mon : Nat
  mday : Nat
  hour : Nat
  min : Nat
  sec : Nat
  deriving DecidableEq, Repr

/-- A two-digit field of `strftime` (`%m`, `%d`, `%H`, `%M`, `%S`). -/
def two_digits (v : Nat) : List Nat := [48 + v / 10 % 10, 48 + v % 10]

/-- The function `now_iso`, on the broken-down time it reads:
`strftime(out, n, "%Y-%m-%dT%H:%M:%S", tm)`. With a year of at most 16 digits the text fits
the 32-byte buffers it is written to. -/
def now_iso (tm : Tm) : List Nat :=
  dec_digits (tm.year + 1) tm.year ++ ascii "-" ++ two_digits tm.mon ++ ascii "-"
    ++ two_digits tm.mday ++ ascii "T" ++ two_digits tm.hour ++ ascii ":" ++ two_digits tm.min
    ++ ascii ":" ++ two_digits tm.sec

/-- The result of `signup_flow` or `login_flow`. -/
structure Outcome where
  ret : Int
  out : List Nat
  stdin : List Nat
  user : Option (List Nat)
  fs : FS
  loaded : Option (List User)
  saved : Option (List User)
  deriving DecidableEq, Repr

/-- The result of `increment_games_played` or `increment_quiz` (which return nothing). -/
structure Effect where
  fs : FS
  loaded : Option (List User)
  saved : Option (List User)
  deriving DecidableEq, Repr

/-- The assignment `arr[i] = f(arr[i])`. -/
def modify_at (f : User → User) : List User → Nat → List User
  | [], _ => []
  | u :: rest, 0 => f u :: rest
  | u :: rest, i + 1 => u :: modify_at f rest i

/-- The function `signup_flow`. -/
def signup_flow (env : Env) (fs : FS) (stdin : List Nat) : Outcome :=
  let r1 := read_line 64 stdin
  let username := r1.1
  let out1 := ascii "Choose a username: "
  if strlen username = 0 then
    { ret := 0, out := out1 ++ ascii "Username cannot be empty.\n", stdin := r1.2, user := none,
      fs := fs, loaded := none, saved := none }
  else
    let r2 := read_line 128 r1.2
    let password := r2.1
    let out2 := out1 ++ ascii "Choose a password: "
    if strlen password = 0 then
      { ret := 0, out := out2 ++ ascii "Password cannot be empty.\n", stdin := r2.2,
        user := none, fs := fs, loaded := none, saved := none }
    else
      let hash := sha256_hex password
      let arr := load_users fs
      let idx := find_user_index arr username
      if idx ≠ -1 then
        { ret := 0, out := out2 ++ ascii "User already exists.\n", stdin := r2.2, user := none,
          fs := fs, loaded := some arr, saved := none }
      else
        let u : User :=
          { username := username.take 63, hash := hash.take 64, games_played := 0,
            games_won := 0, quizzes := 0, last_login := ascii "-" }
        let newarr := arr ++ [u]
        let s := save_users env fs newarr
        if s.2 = 0 then
          { ret := 0, out := out2 ++ ascii "Error saving user.\n", stdin := r2.2, user := none,
            fs := s.1, loaded := some arr, saved := some newarr }
        else
          { ret := 1, out := out2 ++ ascii "Signup successful! You can now log in.\n",
            stdin := r2.2, user := none, fs := s.1, loaded := some arr, saved := some newarr }

/-- The function `login_flow`; `user` is what it copies to `out_username`. The index that
`find_user_index` returned is inside the array, the default record of `getD` is never read. -/
def login_flow (env : Env) (tm : Tm) (fs : FS) (stdin : List Nat) : Outcome :=
  let r1 := read_line 64 stdin
  let username := r1.1
  let r2 := read_line 128 r1.2
  let password := r2.1
  let out := ascii "Enter username: " ++ ascii "Enter password: "
  let hash := sha256_hex password
  let arr := load_users fs
  if arr.length = 0 then
    { ret := 0, out := out ++ ascii "No users. Please sign up first.\n", stdin := r2.2,
      user := none, fs := fs, loaded := some arr, saved := none }
  else
    let idx := find_user_index arr username
    if idx = -1 then
      { ret := 0, out := out ++ ascii "User not found.\n", stdin := r2.2, user := none,
        fs := fs, loaded := some arr, saved := none }
    else if (arr.getD idx.toNat ⟨[], [], 0, 0, 0, []⟩).hash ≠ hash then
      { ret := 0, out := out ++ ascii "Authentication failed.\n", stdin := r2.2, user := none,
        fs := fs, loaded := some arr, saved := none }
    else
      let arr1 := modify_at (fun u => { u with last_login := (now_iso tm).take 31 }) arr
        idx.toNat
      let s := save_users env fs arr1
      { ret := 1,
        out := out ++ ascii "Login successful. Welcome, " ++ username ++ ascii "!\n",
        stdin := r2.2, user := some (username.take 63), fs := s.1, loaded := some arr,
        saved := some arr1 }

/-- The function `increment_games_played`. The increment of an `int` that holds `INT_MAX` is
undefined in ISO C; the model wraps it (`to_int`). -/
def increment_games_played (env : Env) (fs : FS) (username : List Nat) (won : Int) : Effect :=
  let arr := load_users fs
  if arr.length = 0 then { fs := fs, loaded := some arr, saved := none }
  else
    let idx := find_user_index arr username
    if idx ≠ -1 then
      let arr1 := modify_at (fun u =>
        { u with
          games_played := to_int (u.games_played + 1),
          games_won := if won ≠ 0 then to_int (u.games_won + 1) else u.games_won }) arr
        idx.toNat
      { fs := (save_users env fs arr1).1, loaded := some arr, saved := some arr1 }
    else { fs := fs, loaded := some arr, saved := none }

/-- The function `increment_quiz`. -/
def increment_quiz (env : Env) (fs : FS) (username : List Nat) : Effect :=
  let arr := load_users fs
  if arr.length = 0 then { fs := fs, loaded := some arr, saved := none }
  else
    let idx := find_user_index arr username
    if idx ≠ -1 then
      let arr1 := modify_at (fun u => { u with quizzes := to_int (u.quizzes + 1) }) arr
        idx.toNat
      { fs := (save_users env fs arr1).1, loaded := some arr, saved := some arr1 }
    else { fs := fs, loaded := some arr, saved := none }

/-- The record `signup_flow` appends for a username and a password. -/
def new_user (username password : List Nat) : User :=
  { username := username, hash := sha256_hex password, games_played := 0, games_won := 0,
    quizzes := 0, last_login := ascii "-" }

/-! ## Tic-tac-toe

The global `char ttt_board[9]` is a list of nine cells (`0` for an empty cell, `88` for `'X'`,
`79` for `'O'`); the functions that write to it return the board they leave. A row of the
table `ttt_lines` is the triple of its three entries.
-/

/-- The table `ttt_lines`. -/
def ttt_lines : List (Nat × Nat × Nat) :=
  [(0, 1, 2), (3, 4, 5), (6, 7, 8), (0, 3, 6), (1, 4, 7), (2, 5, 8), (0, 4, 8), (2, 4, 6)]

/-- The test of `ttt_winner` on one row of `ttt_lines`:
`ttt_board[a] && ttt_board[a]==ttt_board[b] && ttt_board[b]==ttt_board[c]`. -/
def ttt_line_done (board : List Nat) (l : Nat × Nat × Nat) : Bool :=
  board.getD l.1 0 ≠ 0 ∧ board.getD l.1 0 = board.getD l.2.1 0
    ∧ board.getD l.2.1 0 = board.getD l.2.2 0

/-- The first loop of `ttt_winner`, over the rows `lines` still to visit: the value returned
from inside the loop, if any. -/
def ttt_winner_lines : List (Nat × Nat × Nat) → List Nat → Option Int
  | [], _ => none
  | l :: rest, board =>
    if ttt_line_done board l then some (if board.getD l.1 0 = 88 then -1 else 1)
    else ttt_winner_lines rest board

/-- The second loop of `ttt_winner`, from cell `i` for `fuel` cells: whether it returns. -/
def ttt_has_empty : Nat → Nat → List Nat → Bool
  | 0, _, _ => false
  | fuel + 1, i, board => if board.getD i 0 = 0 then true else ttt_has_empty fuel (i + 1) board

/-- The function `ttt_winner`. -/
def ttt_winner (board : List Nat) : Int :=
  match ttt_winner_lines ttt_lines board with
  | some w => w
  | none => if ttt_has_empty 9 0 board then 2 else 0

/-- Either of the first two loops of `ttt_ai_move`, from cell `p` for `fuel` cells: an empty
cell gets `mark`, `ttt_winner` is compared with `want`, and the cell is emptied again. The
result is the cell returned from inside the loop, if any, and the board left. The first loop
has `mark = 'O'` and `want = 1`, the second `mark = 'X'` and `want = -1`. -/
def ttt_ai_try (mark : Nat) (want : Int) : Nat → Nat → List Nat → Option Nat × List Nat
  | 0, _, board => (none, board)
  | fuel + 1, p, board =>
    if board.getD p 0 = 0 then
      let placed := board.set p mark
      if ttt_winner placed = want then (some p, placed.set p 0)
      else ttt_ai_try mark want fuel (p + 1) (placed.set p 0)
    else ttt_ai_try mark want fuel (p + 1) board

/-- The third loop of `ttt_ai_move`, from cell `p` for `fuel` cells: the first empty cell. -/
def ttt_ai_free : Nat → Nat → List Nat → Option Nat
  | 0, _, _ => none
  | fuel + 1, p, board => if board.getD p 0 = 0 then some p else ttt_ai_free fuel (p + 1) board

/-- The function `ttt_ai_move`: the value returned and the board left. -/
def ttt_ai_move (board : List Nat) : Int × List Nat :=
  match ttt_ai_try 79 1 9 0 board with
  | (some p, b1) => ((p : Int), b1)
  | (none, b1) =>
    match ttt_ai_try 88 (-1) 9 0 b1 with
    | (some p, b2) => ((p : Int), b2)
    | (none, b2) =>
      match ttt_ai_free 9 0 b2 with
      | some p => ((p : Int), b2)
      | none => (-1, b2)

/-! ## Reference definition of the digest (pad, split into blocks, compress, serialise) -/

/-- Reference: the fewest zero bytes `k` such that a message of `n` bytes followed by the byte
`0x80` and `k` zero bytes has a length congruent to 56 modulo 64. -/
def spec_zero_count (n : Nat) : Nat :=
  ((List.range 64).find? fun k => (n + 1 + k) % 64 = 56).getD 0

/-- Reference: the 64-bit big-endian encoding of `v`. -/
def spec_be64 (v : Nat) : List Nat :=
  [v / 2 ^ 56 % 256, v / 2 ^ 48 % 256, v / 2 ^ 40 % 256, v / 2 ^ 32 % 256,
   v / 2 ^ 24 % 256, v / 2 ^ 16 % 256, v / 2 ^ 8 % 256, v % 256]

/-- Reference: the padded message. -/
def spec_pad (x : List Nat) : List Nat :=
  x ++ [128] ++ List.replicate (spec_zero_count x.length) 0 ++ spec_be64 (8 * x.length)

/-- Reference: the first `n` consecutive 64-byte blocks of a message. -/
def spec_blocks : Nat → List Nat → List (List Nat)
  | 0, _ => []
  | n + 1, l => l.take 64 :: spec_blocks n (l.drop 64)

/-- Reference: the eight initial words. -/
def spec_initial_words : List Nat :=
  [0x6a09e667, 0xbb67ae85, 0x3c6ef372, 0xa54ff53a, 0x510e527f, 0x9b05688c, 0x1f83d9ab, 0x5be0cd19]

/-- Reference: the words serialised most-significant byte first. -/
def spec_serialise (words : List Nat) : List Nat :=
  words.flatMap fun w => [w / 2 ^ 24 % 256, w / 2 ^ 16 % 256, w / 2 ^ 8 % 256, w % 256]

/-- Reference: pad, fold `sha256_transform` over the blocks, serialise. -/
def spec_digest (x : List Nat) : List Nat :=
  let padded := spec_pad x
  spec_serialise ((spec_blocks (padded.length / 64) padded).foldl sha256_transform
    spec_initial_words)

/-- Reference: the lowercase hexadecimal rendering of a byte sequence. -/
def spec_hex (bytes : List Nat) : List Nat :=
  bytes.flatMap fun b =>
    [(ascii "0123456789abcdef").getD (b / 16) 0, (ascii "0123456789abcdef").getD (b % 16) 0]

/-! ## Reference notions for the user database -/

/-- Reference: the value of a decimal numeral with an optional leading minus sign. -/
def spec_decimal_value : List Nat → Int
  | 45 :: ds => -((ds.foldl (fun a c => 10 * a + (c - 48)) 0 : Nat) : Int)
  | ds => ((ds.foldl (fun a c => 10 * a + (c - 48)) 0 : Nat) : Int)

/-- Reference: a lowercase hexadecimal digit. -/
def is_lower_hex (c : Nat) : Bool :=
  (decide (48 ≤ c) && decide (c ≤ 57)) || (decide (97 ≤ c) && decide (c ≤ 102))

/-- Reference: a byte that may occur in a stored field: neither NUL nor white space. -/
def is_field_byte (c : Nat) : Bool := c != 0 && !isspace c

/-- Reference: a valid record: a username of 1 to 63 non-white-space bytes, a hash of exactly
64 lowercase hexadecimal characters, three counters in `0 .. INT_MAX`, and a `last_login` that
is `-` or a non-empty white-space-free timestamp of at most 31 bytes. -/
def valid_user (u : User) : Bool :=
  decide (1 ≤ u.username.length) && decide (u.username.length ≤ 63) &&
  u.username.all is_field_byte &&
  decide (u.hash.length = 64) && u.hash.all is_lower_hex &&
  decide (0 ≤ u.games_played) && decide (u.games_played ≤ 2147483647) &&
  decide (0 ≤ u.games_won) && decide (u.games_won ≤ 2147483647) &&
  decide (0 ≤ u.quizzes) && decide (u.quizzes ≤ 2147483647) &&
  (decide (u.last_login = ascii "-") ||
    (decide (1 ≤ u.last_login.length) && decide (u.last_login.length ≤ 31) &&
      u.last_login.all is_field_byte))

/-- A record used in examples: user `alice` with the digest of `abc` and the given counters
and last login. -/
def example_alice (games_played games_won quizzes : Int) (last_login : List Nat) : User :=
  { username := ascii "alice",
    hash := ascii "ba7816bf8f01cfea414140de5dae2223b00361a396177a9cb410ff61f20015ad",
    games_played := games_played, games_won := games_won, quizzes := quizzes,
    last_login := last_login }

/-- What is known of a context after absorbing the complete blocks `bs` and the pending bytes
`pend`. -/
structure Absorbed (ctx : SHA256_CTX) (bs : List (List Nat)) (pend : List Nat) : Prop where
  len : ctx.data.length = 64
  pend_lt : pend.length < 64
  datalen : ctx.datalen = pend.length
  buf : ctx.data.take pend.length = pend
  state : ctx.state = bs.foldl sha256_transform spec_initial_words
  bitlen : ctx.bitlen = (512 * bs.length) % 18446744073709551616

/-- A record whose line `load_users` reads back: non-empty username and hash of at most 63 and
64 bytes, counters in the range of `int`, a `last_login` of at most 31 bytes, and no NUL or
white space in the three strings. -/
structure Storable (u : User) : Prop where
  name_ne : u.username ≠ []
  name_len : u.username.length ≤ 63
  name_bytes : ∀ c ∈ u.username, is_field_byte c = true
  hash_ne : u.hash ≠ []
  hash_len : u.hash.length ≤ 64
  hash_bytes : ∀ c ∈ u.hash, is_field_byte c = true
  gp_range : -2147483648 ≤ u.games_played ∧ u.games_played ≤ 2147483647
  gw_range : -2147483648 ≤ u.games_won ∧ u.games_won ≤ 2147483647
  q_range : -2147483648 ≤ u.quizzes ∧ u.quizzes ≤ 2147483647
  login_len : u.last_login.length ≤ 31
  login_bytes : ∀ c ∈ u.last_login, is_field_byte c = true

/-- The `last_login` field as `save_users` writes it. -/
def written_login (u : User) : List Nat :=
  if u.last_login ≠ [] then u.last_login else ascii "-"

/-- The record `load_users` reads back from the line of `u`: an empty `last_login` comes back
as `-`. -/
def reloaded (u : User) : User := { u with last_login := written_login u }

/-- The records one line adds in the loop of `load_users`: none when `sscanf` returns less
than 2, else the record built from what it assigned. -/
def line_records (line : List Nat) : List User :=
  if (sscanf_user (cstr line)).items < 2 then [] else [user_of_scan (sscanf_user (cstr line))]

/-- The records `load_users` reads from a file with the given content. -/
def load_text (content : List Nat) : List User := load_loop content.length content []

/-- Reference: the white-space-delimited tokens of a text (at most `fuel` of them). -/
def spec_tokens_aux : Nat → List Nat → List (List Nat)
  | 0, _ => []
  | fuel + 1, s =>
    match s.dropWhile isspace with
    | [] => []
    | c :: rest =>
      ((c :: rest).takeWhile fun x => !isspace x)
        :: spec_tokens_aux fuel ((c :: rest).dropWhile fun x => !isspace x)

/-- Reference: the white-space-delimited tokens of a text. -/
def spec_tokens (s : List Nat) : List (List Nat) := spec_tokens_aux s.length s

/-- Reference: a line that is empty, white-space-only, or holds exactly one token, that token
having at most 63 bytes. -/
def skipped_line (l : List Nat) : Bool :=
  decide ((spec_tokens l).length ≤ 1) && (spec_tokens l).all fun t => decide (t.length ≤ 63)

/-- Reference: the text made of the newline-terminated lines `ls` followed by `last`, a last
line without newline (empty when the text ends with a newline). -/
def text_of_lines (ls : List (List Nat)) (last : List Nat) : List Nat :=
  (ls.map fun l => l ++ [10]).flatten ++ last

/-- Reference: the lines of a text: the newline-terminated lines (without their newline) and
the last line, which has no newline (empty when the text ends with a newline). -/
def spec_lines : List Nat → List (List Nat) × List Nat
  | [] => ([], [])
  | c :: rest =>
    if c = 10 then ([] :: (spec_lines rest).1, (spec_lines rest).2)
    else
      match (spec_lines rest).1 with
      | [] => ([], c :: (spec_lines rest).2)
      | l :: ls => ((c :: l) :: ls, (spec_lines rest).2)

/-- Reference: the line of a record without its newline:
`username hash games_played games_won quizzes last_login`, separated by single spaces, the
counters as `%d` prints them, `-` in place of an empty `last_login`. -/
def spec_line (u : User) : List Nat :=
  u.username ++ ascii " " ++ u.hash ++ ascii " " ++ fmt_d u.games_played ++ ascii " "
    ++ fmt_d u.games_won ++ ascii " " ++ fmt_d u.quizzes ++ ascii " "
    ++ (if u.last_login = [] then ascii "-" else u.last_login)

/-- A text made of white space, at most 63 bytes that are not white space, and white space. -/
def OneToken (s : List Nat) : Prop :=
  ∃ a b c, s = a ++ (b ++ c) ∧ (∀ x ∈ a, isspace x = true) ∧ (∀ x ∈ b, isspace x = false) ∧
    b.length ≤ 63 ∧ (∀ x ∈ c, isspace x = true)

/-- A text that is empty or ends with a newline. -/
def EndsNL (s : List Nat) : Prop := s = [] ∨ ∃ q, s = q ++ [10]

/-- Reference: the text that follows the first white-space-delimited token of a text. -/
def spec_after_token (s : List Nat) : List Nat :=
  (s.dropWhile isspace).dropWhile fun c => !isspace c

/-- Reference: a text without its leading white space and the one sign, `-` or `+`, that may
follow it. -/
def spec_unsigned (s : List Nat) : List Nat :=
  match s.dropWhile isspace with
  | 45 :: t => t
  | 43 :: t => t
  | t => t

/-- Reference: whether the first byte of a text after its leading white space is `-`. -/
def spec_negative (s : List Nat) : Bool := (s.dropWhile isspace).head? = some 45

/-- Reference: the digits of the numeral at the start of a text: the decimal digits that
follow the leading white space and the optional sign. -/
def spec_digits (s : List Nat) : List Nat := (spec_unsigned s).takeWhile isdigit

/-- Reference: the text that follows the numeral at the start of a text. -/
def spec_after_numeral (s : List Nat) : List Nat := (spec_unsigned s).dropWhile isdigit

/-- Reference: the number that a string of decimal digits denotes, in positional notation:
the first digit counts `10 ^ (number of digits that follow)`. -/
def spec_digits_value : List Nat → Nat
  | [] => 0
  | c :: ds => (c - 48) * 10 ^ ds.length + spec_digits_value ds

/-- Reference: the integer that the numeral at the start of a text denotes. -/
def spec_numeral_value (s : List Nat) : Int :=
  if spec_negative s then -(spec_digits_value (spec_digits s) : Int)
  else (spec_digits_value (spec_digits s) : Int)

/-- Reference: the `int` that `%d` stores for a numeral that denotes `v`: `v` itself when it is
in the range of `int`; out of that range, what the C library of the program stores (where
ISO C leaves the result undefined): `-1` above `LONG_MAX`, `0` below `LONG_MIN`, and else `v`
modulo `2^32`. -/
def spec_stored_int (v : Int) : Int :=
  if -2147483648 ≤ v ∧ v ≤ 2147483647 then v
  else if 9223372036854775807 < v then -1
  else if v < -9223372036854775808 then 0
  else (v + 2147483648) % 4294967296 - 2147483648

/-! ## Reference notions for tic-tac-toe -/

/-- Reference notion: placing `mark` on cell `p` completes the row `l`, that is `p` is on the
row and the other cells of the row hold `mark`. -/
def line_completes (board : List Nat) (mark p : Nat) (l : Nat × Nat × Nat) : Bool :=
  (l.1 = p ∨ l.2.1 = p ∨ l.2.2 = p) ∧ (l.1 = p ∨ board.getD l.1 0 = mark)
    ∧ (l.2.1 = p ∨ board.getD l.2.1 0 = mark) ∧ (l.2.2 = p ∨ board.getD l.2.2 0 = mark)

/-- Reference notion: placing `mark` on cell `p` completes three in a line. -/
def spec_completes (board : List Nat) (mark p : Nat) : Bool :=
  ttt_lines.any (line_completes board mark p)

/-- Reference notion: no line of the board is complete. -/
def no_completed_line (board : List Nat) : Bool :=
  ttt_lines.all fun l => !ttt_line_done board l

/-! ## Theorems: digest engine -/

theorem spec_zero_count_eq (n : Nat) : spec_zero_count n = (119 - n % 64) % 64 := by
  have h : ∀ r < 64, spec_zero_count r = (119 - r) % 64 := by decide!
  have h2 : spec_zero_count n = spec_zero_count (n % 64) := by
    unfold spec_zero_count
    congr 2
    funext k
    rw [decide_eq_decide]
    omega
  rw [h2, h _ (Nat.mod_lt _ (by norm_num))]

theorem zero_fill_loop_eq (fuel : Nat) : ∀ (data : List Nat) (i : Nat), i + fuel ≤ data.length →
    zero_fill_loop fuel data i = data.take i ++ List.replicate fuel 0 ++ data.drop (i + fuel) := by
  induction fuel with
  | zero => intro data i _; simp [zero_fill_loop]
  | succ f ih =>
    intro data i h
    have hi : i < data.length := by omega
    rw [zero_fill_loop, ih _ _ (by simp; omega)]
    rw [List.set_eq_take_append_cons_drop, if_pos hi]
    have e1 : (List.take i data ++ 0 :: List.drop (i + 1) data).take (i + 1)
        = List.take i data ++ [0] := by
      rw [List.take_append_eq_append_take]
      simp [List.length_take, Nat.min_eq_left (Nat.le_of_lt hi)]
    have e2 : (List.take i data ++ 0 :: List.drop (i + 1) data).drop (i + 1 + f)
        = data.drop (i + (f + 1)) := by
      rw [List.drop_append_eq_append_drop]
      simp [List.length_take, Nat.min_eq_left (Nat.le_of_lt hi)]
      have : i + 1 + f - i = f + 1 := by omega
      rw [List.drop_eq_nil_of_le (by simp; omega), this]
      simp [List.drop_drop]
      congr 1; omega
    rw [e1, e2, List.replicate_succ]
    simp

theorem store_bitlen_eq (data : List Nat) (bitlen : Nat) (h : data.length = 64) :
    store_bitlen data bitlen = data.take 56 ++ spec_be64 bitlen := by
  obtain ⟨p, t, rfl, hp, ht⟩ : ∃ p t : List Nat, data = p ++ t ∧ p.length = 56 ∧ t.length = 8 :=
    ⟨data.take 56, data.drop 56, (List.take_append_drop 56 data).symm, by simp [h], by simp [h]⟩
  rcases t with _ | ⟨t0, _ | ⟨t1, _ | ⟨t2, _ | ⟨t3, _ | ⟨t4, _ | ⟨t5, _ | ⟨t6, _ | ⟨t7, t⟩⟩⟩⟩⟩⟩⟩⟩ <;>
    simp at ht
  subst ht
  have e : List.take 56 (p ++ [t0, t1, t2, t3, t4, t5, t6, t7]) = p := by
    rw [← hp, List.take_left]
  rw [e]
  simp [store_bitlen, spec_be64, List.set_append, hp, Nat.shiftRight_eq_div_pow]

theorem take_succ_set (data : List Nat) (n v : Nat) (h : n < data.length) :
    (data.set n v).take (n + 1) = data.take n ++ [v] := by
  rw [List.set_eq_take_append_cons_drop, if_pos h, List.take_append_eq_append_take]
  simp [List.length_take, Nat.min_eq_left (Nat.le_of_lt h)]

theorem absorbed_init (ctx : SHA256_CTX) (h : ctx.data.length = 64) :
    Absorbed (sha256_init ctx) [] [] :=
  ⟨h, by simp, rfl, by simp, rfl, rfl⟩

theorem update_byte_pending (ctx : SHA256_CTX) (b : Nat) (h : ctx.datalen + 1 < 64) :
    sha256_update_byte ctx b =
      { ctx with data := ctx.data.set ctx.datalen (b % 256), datalen := ctx.datalen + 1 } := by
  have hne : ¬ ctx.datalen + 1 = 64 := by omega
  have hmod : (ctx.datalen + 1) % 4294967296 = ctx.datalen + 1 := by omega
  unfold sha256_update_byte
  simp only [hmod, if_neg hne]

theorem update_byte_block (ctx : SHA256_CTX) (b : Nat) (h : ctx.datalen + 1 = 64) :
    sha256_update_byte ctx b =
      { data := ctx.data.set ctx.datalen (b % 256), datalen := 0,
        bitlen := (ctx.bitlen + 512) % 18446744073709551616,
        state := sha256_transform ctx.state (ctx.data.set ctx.datalen (b % 256)) } := by
  have hmod : (ctx.datalen + 1) % 4294967296 = 64 := by omega
  unfold sha256_update_byte
  simp only [hmod, if_true]

theorem absorbed_step_pending (ctx : SHA256_CTX) (bs : List (List Nat)) (pend : List Nat)
    (b : Nat) (h : Absorbed ctx bs pend) (hlt : pend.length + 1 < 64) :
    Absorbed (sha256_update_byte ctx b) bs (pend ++ [b % 256]) := by
  rw [update_byte_pending ctx b (by rw [h.datalen]; exact hlt)]
  refine ⟨?_, ?_, ?_, ?_, ?_, ?_⟩
  · simp [h.len]
  · simpa using hlt
  · simp [h.datalen]
  · simp only [h.datalen, List.length_append, List.length_singleton]
    rw [take_succ_set _ _ _ (by rw [h.len]; omega), h.buf]
  · exact h.state
  · exact h.bitlen

theorem absorbed_step_block (ctx : SHA256_CTX) (bs : List (List Nat)) (pend : List Nat)
    (b : Nat) (h : Absorbed ctx bs pend) (heq : pend.length + 1 = 64) :
    Absorbed (sha256_update_byte ctx b) (bs ++ [pend ++ [b % 256]]) [] := by
  rw [update_byte_block ctx b (by rw [h.datalen]; exact heq)]
  have hdata : ctx.data.set ctx.datalen (b % 256) = pend ++ [b % 256] := by
    have := take_succ_set ctx.data pend.length (b % 256) (by rw [h.len]; omega)
    rw [h.buf, heq, List.take_of_length_le (by simp [h.len])] at this
    rw [h.datalen]
    exact this
  refine ⟨?_, ?_, ?_, ?_, ?_, ?_⟩
  · simp [h.len]
  · simp
  · rfl
  · simp
  · simp only [hdata, h.state, List.foldl_append, List.foldl_cons, List.foldl_nil]
  · simp only [h.bitlen, List.length_append, List.length_singleton]
    omega

theorem absorbed_update (ctx : SHA256_CTX) (hctx : ctx.data.length = 64) (x : List Nat) :
    ∃ bs pend, x.map (· % 256) = bs.flatten ++ pend ∧ (∀ blk ∈ bs, blk.length = 64) ∧
      Absorbed (sha256_update (sha256_init ctx) x) bs pend := by
  induction x using List.reverseRecOn with
  | nil => exact ⟨[], [], by simp, by simp, absorbed_init ctx hctx⟩
  | append_singleton x b ih =>
    obtain ⟨bs, pend, hx, hbs, habs⟩ := ih
    have hupd : sha256_update (sha256_init ctx) (x ++ [b])
        = sha256_update_byte (sha256_update (sha256_init ctx) x) b := by
      simp [sha256_update, List.foldl_append]
    rw [hupd]
    by_cases hlt : pend.length + 1 < 64
    · refine ⟨bs, pend ++ [b % 256], ?_, hbs, absorbed_step_pending _ _ _ _ habs hlt⟩
      simp [hx]
    · have heq : pend.length + 1 = 64 := by have := habs.pend_lt; omega
      refine ⟨bs ++ [pend ++ [b % 256]], [], ?_, ?_, absorbed_step_block _ _ _ _ habs heq⟩
      · simp [hx]
      · intro blk hblk
        rcases List.mem_append.mp hblk with h1 | h1
        · exact hbs _ h1
        · simp at h1; subst h1; simp; omega

theorem zero_fill_set (data pend : List Nat) (stop : Nat) (hlen : data.length = 64)
    (hr : pend.length < stop) (hstop : stop ≤ 64) (hbuf : data.take pend.length = pend) :
    zero_fill (data.set pend.length 128) (pend.length + 1) stop
      = pend ++ [128] ++ List.replicate (stop - (pend.length + 1)) 0 ++ data.drop stop := by
  unfold zero_fill
  rw [zero_fill_loop_eq _ _ _ (by simp [hlen]; omega),
    take_succ_set _ _ _ (by rw [hlen]; omega), hbuf]
  have e : pend.length + 1 + (stop - (pend.length + 1)) = stop := by omega
  rw [e, List.drop_set, if_pos hr]

theorem spec_be64_mod (v : Nat) : spec_be64 (v % 18446744073709551616) = spec_be64 v := by
  simp only [spec_be64, List.cons.injEq, and_true]
  refine ⟨?_, ?_, ?_, ?_, ?_, ?_, ?_, ?_⟩ <;> omega

theorem final_bitlen (ctx : SHA256_CTX) (bs : List (List Nat)) (pend : List Nat)
    (h : Absorbed ctx bs pend) :
    spec_be64 ((ctx.bitlen + (pend.length * 8) % 4294967296) % 18446744073709551616)
      = spec_be64 (8 * (64 * bs.length + pend.length)) := by
  rw [spec_be64_mod, ← spec_be64_mod (8 * (64 * bs.length + pend.length))]
  congr 1
  have := h.pend_lt
  rw [h.bitlen]
  omega

theorem final_short (ctx : SHA256_CTX) (bs : List (List Nat)) (pend : List Nat)
    (h : Absorbed ctx bs pend) (hlt : pend.length < 56) :
    (sha256_final ctx).2 = hash_bytes (sha256_transform ctx.state
      (pend ++ [128] ++ List.replicate (55 - pend.length) 0
        ++ spec_be64 (8 * (64 * bs.length + pend.length)))) := by
  have hd : ctx.datalen < 56 := by rw [h.datalen]; exact hlt
  have hz := zero_fill_set ctx.data pend 56 h.len hlt (by norm_num) h.buf
  unfold sha256_final
  simp only [if_pos hd]
  rw [h.datalen, hz, store_bitlen_eq _ _ (by simp [h.len]; omega),
    List.take_left' (by simp; omega), final_bitlen ctx bs pend h]
  have e : 56 - (pend.length + 1) = 55 - pend.length := by omega
  rw [e]

theorem final_long (ctx : SHA256_CTX) (bs : List (List Nat)) (pend : List Nat)
    (h : Absorbed ctx bs pend) (hge : 56 ≤ pend.length) :
    (sha256_final ctx).2 = hash_bytes (sha256_transform
      (sha256_transform ctx.state (pend ++ [128] ++ List.replicate (63 - pend.length) 0))
      (List.replicate 56 0 ++ spec_be64 (8 * (64 * bs.length + pend.length)))) := by
  have hd : ¬ ctx.datalen < 56 := by rw [h.datalen]; omega
  have hz := zero_fill_set ctx.data pend 64 h.len h.pend_lt (by norm_num) h.buf
  rw [List.drop_of_length_le (by rw [h.len]), List.append_nil] at hz
  have hp := h.pend_lt
  unfold sha256_final
  simp only [if_neg hd]
  rw [h.datalen, hz]
  have e : 64 - (pend.length + 1) = 63 - pend.length := by omega
  have hl : (pend ++ [128] ++ List.replicate (63 - pend.length) 0).length = 64 := by
    simp; omega
  have hm : memset56 (pend ++ [128] ++ List.replicate (63 - pend.length) 0)
      = List.replicate 56 0
        ++ (pend ++ [128] ++ List.replicate (63 - pend.length) 0).drop 56 := by
    unfold memset56
    rw [hl]
    rfl
  have hml : (memset56 (pend ++ [128] ++ List.replicate (63 - pend.length) 0)).length = 64 := by
    rw [hm, List.length_append, List.length_drop, hl, List.length_replicate]
  rw [e, store_bitlen_eq _ _ hml, hm, List.take_left' (by simp), final_bitlen ctx bs pend h]

theorem spec_blocks_flatten (bs : List (List Nat)) (hbs : ∀ blk ∈ bs, blk.length = 64)
    (k : Nat) (rest : List Nat) :
    spec_blocks (bs.length + k) (bs.flatten ++ rest) = bs ++ spec_blocks k rest := by
  induction bs with
  | nil => simp
  | cons blk bs ih =>
    have hb : blk.length = 64 := hbs blk (by simp)
    have e : (blk :: bs).length + k = (bs.length + k) + 1 := by simp; omega
    rw [e, spec_blocks, List.flatten_cons, List.append_assoc, List.take_left' hb,
      List.drop_left' hb, ih (fun b hb2 => hbs b (by simp [hb2]))]
    simp

theorem length_flatten_blocks (bs : List (List Nat)) (hbs : ∀ blk ∈ bs, blk.length = 64) :
    bs.flatten.length = 64 * bs.length := by
  induction bs with
  | nil => simp
  | cons blk bs ih =>
    have hb : blk.length = 64 := hbs blk (by simp)
    rw [List.flatten_cons, List.length_append, hb, ih (fun b hb2 => hbs b (by simp [hb2]))]
    simp; omega

theorem hash_bytes_transform (state data : List Nat) :
    hash_bytes (sha256_transform state data) = spec_serialise (sha256_transform state data) := by
  have key : ∀ w0 w1 w2 w3 w4 w5 w6 w7 : Nat,
      hash_bytes [w0, w1, w2, w3, w4, w5, w6, w7]
        = spec_serialise [w0, w1, w2, w3, w4, w5, w6, w7] := by
    intro w0 w1 w2 w3 w4 w5 w6 w7
    have and255 : ∀ x : Nat, x &&& 255 = x % 256 := fun x => Nat.and_pow_two_sub_one_eq_mod x 8
    have e1 : hash_bytes [w0, w1, w2, w3, w4, w5, w6, w7] =
        [(w0 >>> 24) &&& 255, (w0 >>> 16) &&& 255, (w0 >>> 8) &&& 255, (w0 >>> 0) &&& 255,
         (w1 >>> 24) &&& 255, (w1 >>> 16) &&& 255, (w1 >>> 8) &&& 255, (w1 >>> 0) &&& 255,
         (w2 >>> 24) &&& 255, (w2 >>> 16) &&& 255, (w2 >>> 8) &&& 255, (w2 >>> 0) &&& 255,
         (w3 >>> 24) &&& 255, (w3 >>> 16) &&& 255, (w3 >>> 8) &&& 255, (w3 >>> 0) &&& 255,
         (w4 >>> 24) &&& 255, (w4 >>> 16) &&& 255, (w4 >>> 8) &&& 255, (w4 >>> 0) &&& 255,
         (w5 >>> 24) &&& 255, (w5 >>> 16) &&& 255, (w5 >>> 8) &&& 255, (w5 >>> 0) &&& 255,
         (w6 >>> 24) &&& 255, (w6 >>> 16) &&& 255, (w6 >>> 8) &&& 255, (w6 >>> 0) &&& 255,
         (w7 >>> 24) &&& 255, (w7 >>> 16) &&& 255, (w7 >>> 8) &&& 255, (w7 >>> 0) &&& 255] := rfl
    rw [e1]
    simp [spec_serialise, and255, Nat.shiftRight_eq_div_pow]
  exact key _ _ _ _ _ _ _ _

/-- The streaming path computes the reference digest of the bytes it absorbed. -/
theorem streaming_eq_spec (ctx : SHA256_CTX) (hctx : ctx.data.length = 64) (x : List Nat) :
    (sha256_final (sha256_update (sha256_init ctx) x)).2 = spec_digest (x.map (· % 256)) := by
  obtain ⟨bs, pend, hx, hbs, habs⟩ := absorbed_update ctx hctx x
  have hp := habs.pend_lt
  have hlen : (x.map (· % 256)).length = 64 * bs.length + pend.length := by
    rw [hx, List.length_append, length_flatten_blocks bs hbs]
  unfold spec_digest spec_pad
  simp only []
  rw [hlen, spec_zero_count_eq, hx]
  by_cases hlt : pend.length < 56
  · have hz : (119 - (64 * bs.length + pend.length) % 64) % 64 = 55 - pend.length := by omega
    have hrest : (pend ++ [128] ++ List.replicate (55 - pend.length) 0
        ++ spec_be64 (8 * (64 * bs.length + pend.length))).length = 64 := by
      simp [spec_be64]; omega
    have hassoc : bs.flatten ++ pend ++ [128] ++ List.replicate (55 - pend.length) 0
        ++ spec_be64 (8 * (64 * bs.length + pend.length))
        = bs.flatten ++ (pend ++ [128] ++ List.replicate (55 - pend.length) 0
        ++ spec_be64 (8 * (64 * bs.length + pend.length))) := by
      simp only [List.append_assoc]
    have hq : (bs.flatten ++ (pend ++ [128] ++ List.replicate (55 - pend.length) 0
        ++ spec_be64 (8 * (64 * bs.length + pend.length)))).length / 64 = bs.length + 1 := by
      rw [List.length_append, hrest, length_flatten_blocks bs hbs]
      omega
    rw [hz, hassoc, hq, final_short _ bs pend habs hlt, spec_blocks_flatten bs hbs,
      List.foldl_append, ← habs.state, hash_bytes_transform]
    simp only [spec_blocks, List.foldl_cons, List.foldl_nil]
    rw [List.take_of_length_le (Nat.le_of_eq hrest)]
  · have hge : 56 ≤ pend.length := by omega
    have hz : (119 - (64 * bs.length + pend.length) % 64) % 64
        = (63 - pend.length) + 56 := by omega
    have hfirst : (pend ++ [128] ++ List.replicate (63 - pend.length) 0).length = 64 := by
      simp; omega
    have hsecond : (List.replicate 56 0
        ++ spec_be64 (8 * (64 * bs.length + pend.length))).length = 64 := by
      simp [spec_be64]
    have hassoc : bs.flatten ++ pend ++ [128] ++ List.replicate ((63 - pend.length) + 56) 0
        ++ spec_be64 (8 * (64 * bs.length + pend.length))
        = bs.flatten ++ ((pend ++ [128] ++ List.replicate (63 - pend.length) 0)
          ++ (List.replicate 56 0 ++ spec_be64 (8 * (64 * bs.length + pend.length)))) := by
      rw [List.replicate_add]
      simp only [List.append_assoc]
    have hq : (bs.flatten ++ ((pend ++ [128] ++ List.replicate (63 - pend.length) 0)
          ++ (List.replicate 56 0 ++ spec_be64 (8 * (64 * bs.length + pend.length))))).length
          / 64 = bs.length + 2 := by
      rw [List.length_append, List.length_append, hfirst, hsecond,
        length_flatten_blocks bs hbs]
      omega
    rw [hz, hassoc, hq, final_long _ bs pend habs hge, spec_blocks_flatten bs hbs,
      List.foldl_append, ← habs.state, hash_bytes_transform]
    simp only [spec_blocks, List.foldl_cons, List.foldl_nil]
    rw [List.take_left' hfirst, List.drop_left' hfirst,
      List.take_of_length_le (Nat.le_of_eq hsecond)]

theorem flatMap_congr_mem {f g : Nat → List Nat} (l : List Nat) (h : ∀ b ∈ l, f b = g b) :
    l.flatMap f = l.flatMap g := by
  induction l with
  | nil => rfl
  | cons a l ih =>
    rw [List.flatMap_cons, List.flatMap_cons, h a (by simp),
      ih (fun b hb => h b (by simp [hb]))]

theorem hex02_eq_spec : ∀ b < 256, hex02 b =
    [(ascii "0123456789abcdef").getD (b / 16) 0, (ascii "0123456789abcdef").getD (b % 16) 0] := by
  decide!

theorem spec_digest_lt (x : List Nat) : ∀ b ∈ spec_digest x, b < 256 := by
  intro b hb
  unfold spec_digest spec_serialise at hb
  simp only [List.mem_flatMap] at hb
  obtain ⟨w, _, hw⟩ := hb
  simp only [List.mem_cons, List.mem_singleton, List.not_mem_nil, or_false] at hw
  rcases hw with h | h | h | h <;> omega

theorem strlen_of_no_nul (x : List Nat) (h : ∀ b ∈ x, b ≠ 0) : x.take (strlen x) = x := by
  have e : x.takeWhile (· ≠ 0) = x := by
    rw [List.takeWhile_eq_self_iff]
    intro b hb
    simpa using h b hb
  unfold strlen
  rw [e, List.take_length]

/-- The digest does not depend on what the local `ctx` of `sha256_hex` holds before
`sha256_init`. -/
theorem sha256_hex_from_eq (ctx : SHA256_CTX) (hctx : ctx.data.length = 64) (input : List Nat) :
    sha256_hex_from ctx input = sha256_hex input := by
  unfold sha256_hex sha256_hex_from
  simp only []
  rw [streaming_eq_spec ctx hctx, streaming_eq_spec _ (by simp)]

theorem map_mod_of_bytes (x : List Nat) (hx : ∀ b ∈ x, 0 < b ∧ b < 256) :
    x.map (· % 256) = x := by
  conv_rhs => rw [← List.map_id x]
  exact List.map_congr_left (fun b hb => Nat.mod_eq_of_lt (hx b hb).2)

theorem sha256_hex_eq_spec (x : List Nat) (hx : ∀ b ∈ x, 0 < b ∧ b < 256) :
    sha256_hex x = spec_hex (spec_digest x) := by
  unfold sha256_hex sha256_hex_from
  simp only []
  rw [strlen_of_no_nul x (fun b hb => Nat.pos_iff_ne_zero.mp (hx b hb).1),
    streaming_eq_spec _ (by simp), map_mod_of_bytes x hx]
  unfold spec_hex
  exact flatMap_congr_mem _ (fun b hb => hex02_eq_spec b (spec_digest_lt x b hb))

theorem be64_decode (v : Nat) (h : v < 2 ^ 64) :
    (spec_be64 v).foldl (fun acc b => 256 * acc + b) 0 = v := by
  simp only [spec_be64, List.foldl_cons, List.foldl_nil]
  omega

theorem length_flatMap_hex02 (l : List Nat) : (l.flatMap hex02).length = 2 * l.length := by
  induction l with
  | nil => rfl
  | cons a l ih => rw [List.flatMap_cons, List.length_append, ih]; simp [hex02]; omega

theorem hex_digit_range (d : Nat) :
    (48 ≤ hex_digit (d % 16) ∧ hex_digit (d % 16) ≤ 57) ∨
      (97 ≤ hex_digit (d % 16) ∧ hex_digit (d % 16) ≤ 102) := by
  unfold hex_digit
  split <;> omega

/-! ### Claims about the digest engine -/

/-- C1: `sha256_hex` applied to the 3-byte ASCII string "abc" returns exactly the 64-character
string `ba7816bf8f01cfea414140de5dae2223b00361a396177a9cb410ff61f20015ad`. -/
theorem sha256_hex_abc :
    sha256_hex (ascii "abc")
      = ascii "ba7816bf8f01cfea414140de5dae2223b00361a396177a9cb410ff61f20015ad" ∧
    (sha256_hex (ascii "abc")).length = 64 := by
  decide!

/-- C2, as stated, fails: on the empty string `sha256_hex` does not return the 63-character
string `e3b0c44298fc1c149afbf4c8996fb92427ae41e4649b934ca495991b7852b85`. -/
theorem sha256_hex_empty_ne_spec_value :
    sha256_hex (ascii "")
      ≠ ascii "e3b0c44298fc1c149afbf4c8996fb92427ae41e4649b934ca495991b7852b85" := by
  decide!

/-- C2, amended: `sha256_hex` applied to the empty string returns exactly the 64-character
string `e3b0c44298fc1c149afbf4c8996fb92427ae41e4649b934ca495991b7852b855`. -/
theorem sha256_hex_empty :
    sha256_hex (ascii "")
      = ascii "e3b0c44298fc1c149afbf4c8996fb92427ae41e4649b934ca495991b7852b855" := by
  decide!

/-- C3: for every sequence `x` of non-NUL bytes of length below `2^61`, the streaming path
`sha256_init`, `sha256_update x`, `sha256_final` (from any 64-byte buffer content) yields the
reference digest `spec_digest x` (pad with `0x80`, the fewest zero bytes reaching 56 modulo 64
and the 64-bit big-endian value `8*|x|`, which those eight bytes encode exactly; fold
`sha256_transform` over the 64-byte blocks from the initial words; serialise the words
most-significant byte first), and `sha256_hex x` is the lowercase hex rendering of it. -/
theorem sha256_streaming_refines_reference (x : List Nat)
    (hx : ∀ b ∈ x, 0 < b ∧ b < 256) (hlen : x.length < 2 ^ 61) :
    (∀ ctx : SHA256_CTX, ctx.data.length = 64 →
      (sha256_final (sha256_update (sha256_init ctx) x)).2 = spec_digest x) ∧
    (spec_be64 (8 * x.length)).foldl (fun acc b => 256 * acc + b) 0 = 8 * x.length ∧
    sha256_hex x = spec_hex (spec_digest x) := by
  refine ⟨fun ctx hctx => ?_, be64_decode _ (by omega), sha256_hex_eq_spec x hx⟩
  rw [streaming_eq_spec ctx hctx, map_mod_of_bytes x hx]

/-- Witness for C3 at the input "abc". -/
theorem sha256_streaming_refines_reference_witness :
    (∀ ctx : SHA256_CTX, ctx.data.length = 64 →
      (sha256_final (sha256_update (sha256_init ctx) (ascii "abc"))).2
        = spec_digest (ascii "abc")) ∧
    (spec_be64 (8 * (ascii "abc").length)).foldl (fun acc b => 256 * acc + b) 0
      = 8 * (ascii "abc").length ∧
    sha256_hex (ascii "abc") = spec_hex (spec_digest (ascii "abc")) :=
  sha256_streaming_refines_reference (ascii "abc") (by decide) (by decide)

/-- C4: for every input, the output of `sha256_hex` has exactly 64 characters and each of them
is one of `0`-`9` or `a`-`f`. -/
theorem sha256_hex_length_charset (input : List Nat) :
    (sha256_hex input).length = 64 ∧
    ∀ c ∈ sha256_hex input, (48 ≤ c ∧ c ≤ 57) ∨ (97 ≤ c ∧ c ≤ 102) := by
  have e : ∃ state, sha256_hex input = (hash_bytes state).flatMap hex02 := ⟨_, rfl⟩
  obtain ⟨state, hs⟩ := e
  rw [hs]
  constructor
  · rw [length_flatMap_hex02]
    simp [hash_bytes]
  · intro c hc
    obtain ⟨b, _, hb⟩ := List.mem_flatMap.mp hc
    simp only [hex02, List.mem_cons, List.mem_singleton, List.not_mem_nil, or_false] at hb
    rcases hb with h | h <;> subst h <;> exact hex_digit_range _

/-! ## Theorems: user database -/

theorem find_loop_cases (username : List Nat) : ∀ (arr : List User) (k : Nat),
    (find_loop arr k username = -1 ∧ ∀ u ∈ arr, u.username ≠ username) ∨
    (∃ i u, find_loop arr k username = ((k + i : Nat) : Int) ∧ arr[i]? = some u ∧
      u.username = username ∧ ∀ j v, j < i → arr[j]? = some v → v.username ≠ username) := by
  intro arr
  induction arr with
  | nil => intro k; exact Or.inl ⟨rfl, by simp⟩
  | cons a rest ih =>
    intro k
    by_cases ha : a.username = username
    · refine Or.inr ⟨0, a, ?_, by simp, ha, ?_⟩
      · simp [find_loop, ha]
      · intro j v hj; omega
    · rcases ih (k + 1) with ⟨h1, h2⟩ | ⟨i, u, h1, h2, h3, h4⟩
      · refine Or.inl ⟨?_, ?_⟩
        · simp [find_loop, ha, h1]
        · intro u hu
          rcases List.mem_cons.mp hu with rfl | hu
          · exact ha
          · exact h2 u hu
      · refine Or.inr ⟨i + 1, u, ?_, by simpa using h2, h3, ?_⟩
        · simp only [find_loop, if_neg ha, h1]
          congr 1; omega
        · intro j v hj hv
          cases j with
          | zero => simp at hv; subst hv; exact ha
          | succ j => exact h4 j v (by omega) (by simpa using hv)

theorem fprintf_tmp_foldl (env : Env) (db : Option (List Nat)) :
    ∀ (arr : List User) (written : List Nat),
      (∀ room, env.tmp_room = some room →
        (written ++ (arr.map user_line).flatten).length ≤ room) →
      arr.foldl (fun fs u => fprintf_tmp env fs (user_line u)) { db := db, tmp := some written }
        = { db := db, tmp := some (written ++ (arr.map user_line).flatten) } := by
  intro arr
  induction arr with
  | nil => intro written _; simp
  | cons u rest ih =>
    intro written hroom
    have hstep : fprintf_tmp env { db := db, tmp := some written } (user_line u)
        = { db := db, tmp := some (written ++ user_line u) } := by
      unfold fprintf_tmp
      cases hr : env.tmp_room with
      | none => rfl
      | some room =>
        have := hroom room hr
        simp only [List.map_cons, List.flatten_cons, List.length_append] at this
        simp only
        rw [List.take_of_length_le (by simp only [List.length_append]; omega)]
    rw [List.foldl_cons, hstep, ih (written ++ user_line u)]
    · simp
    · intro room hr
      have := hroom room hr
      simpa using this

theorem dec_digits_spec : ∀ (fuel n : Nat), n < fuel →
    dec_digits fuel n ≠ [] ∧ (∀ c ∈ dec_digits fuel n, 48 ≤ c ∧ c ≤ 57) ∧
    (dec_digits fuel n).foldl (fun a c => 10 * a + (c - 48)) 0 = n := by
  intro fuel
  induction fuel with
  | zero => intro n h; omega
  | succ f ih =>
    intro n h
    unfold dec_digits
    by_cases hn : n < 10
    · rw [if_pos hn]
      refine ⟨by simp, ?_, ?_⟩
      · intro c hc; simp at hc; omega
      · simp
    · rw [if_neg hn]
      obtain ⟨_, h2, h3⟩ := ih (n / 10) (by omega)
      refine ⟨by simp, ?_, ?_⟩
      · intro c hc
        rcases List.mem_append.mp hc with hc | hc
        · exact h2 c hc
        · simp at hc; omega
      · rw [List.foldl_append, h3]
        simp only [List.foldl_cons, List.foldl_nil]
        omega

theorem dec_digits_length : ∀ (fuel n k : Nat), n < 10 ^ (k + 1) →
    (dec_digits fuel n).length ≤ k + 1 := by
  intro fuel
  induction fuel with
  | zero => intro n k _; simp [dec_digits]
  | succ f ih =>
    intro n k h
    unfold dec_digits
    by_cases hn : n < 10
    · rw [if_pos hn]; simp
    · rw [if_neg hn]
      cases k with
      | zero => simp at h; omega
      | succ k =>
        have : n / 10 < 10 ^ (k + 1) := by
          rw [Nat.div_lt_iff_lt_mul (by norm_num)]
          rw [pow_succ] at h
          exact h
        have := ih (n / 10) k this
        simp only [List.length_append, List.length_singleton]
        omega

theorem fmt_d_value (v : Int) : spec_decimal_value (fmt_d v) = v := by
  unfold fmt_d
  by_cases hv : v < 0
  · rw [if_pos hv]
    obtain ⟨_, _, h3⟩ := dec_digits_spec ((-v).toNat + 1) (-v).toNat (by omega)
    simp only [spec_decimal_value, h3]
    omega
  · rw [if_neg hv]
    obtain ⟨h1, h2, h3⟩ := dec_digits_spec (v.toNat + 1) v.toNat (by omega)
    cases hd : dec_digits (v.toNat + 1) v.toNat with
    | nil => exact absurd hd h1
    | cons c t =>
      have hc : c ≠ 45 := by
        have := h2 c (by rw [hd]; simp)
        omega
      rw [hd] at h3
      have e : spec_decimal_value (c :: t)
          = (((c :: t).foldl (fun a c => 10 * a + (c - 48)) 0 : Nat) : Int) := by
        unfold spec_decimal_value
        split
        · rename_i h; simp at h; exact absurd h.1 hc
        · rfl
      rw [e, h3]
      omega

/-! ### Scanning what `save_users` wrote -/

theorem head_not_space_of_dropWhile (s : List Nat) (c : Nat) (t : List Nat)
    (h : s.dropWhile isspace = c :: t) : isspace c = false := by
  induction s with
  | nil => simp at h
  | cons a s ih =>
    by_cases ha : isspace a = true
    · rw [List.dropWhile_cons_of_pos ha] at h; exact ih h
    · rw [List.dropWhile_cons_of_neg ha] at h
      simp only [List.cons.injEq] at h
      rw [← h.1]; simpa using ha

theorem drop_length_takeWhile (p : Nat → Bool) (l : List Nat) :
    l.drop (l.takeWhile p).length = l.dropWhile p := by
  induction l with
  | nil => rfl
  | cons a l ih =>
    by_cases ha : p a = true
    · rw [List.takeWhile_cons_of_pos ha, List.dropWhile_cons_of_pos ha]
      simpa using ih
    · rw [List.takeWhile_cons_of_neg ha, List.dropWhile_cons_of_neg ha]
      rfl

/-- The conversion `%Ns` on an input that holds something besides white space. -/
theorem scan_s_of_dropWhile (w : Nat) (s : List Nat) (c : Nat) (t : List Nat) (hw : 0 < w)
    (h : s.dropWhile isspace = c :: t) :
    scan_s w s = some (((c :: t).takeWhile fun x => !isspace x).take w,
      (c :: t).drop (((c :: t).takeWhile fun x => !isspace x).take w).length) := by
  have hc := head_not_space_of_dropWhile s c t h
  unfold scan_s
  simp only [h]
  have hne : ((c :: t).takeWhile fun x => !isspace x).take w ≠ [] := by
    rw [List.takeWhile_cons_of_pos (by simp [hc])]
    cases w with
    | zero => omega
    | succ w => simp
  rw [if_neg hne]

/-- The conversion `%Ns` on an input that holds only white space: an input failure. -/
theorem scan_s_of_all_space (w : Nat) (s : List Nat) (h : ∀ c ∈ s, isspace c = true) :
    scan_s w s = none := by
  have e : s.dropWhile isspace = [] := by
    rw [List.dropWhile_eq_nil_iff]; exact h
  unfold scan_s
  simp [e]

/-- The conversion `%Ns` reads a token of at most `w` bytes that is followed by white
space. -/
theorem scan_s_token (w : Nat) (ws tok rest : List Nat)
    (hws : ∀ c ∈ ws, isspace c = true) (htok : ∀ c ∈ tok, isspace c = false)
    (hne : tok ≠ []) (hlen : tok.length ≤ w)
    (hrest : ∀ c ∈ rest.head?, isspace c = true) :
    scan_s w (ws ++ (tok ++ rest)) = some (tok, rest) := by
  obtain ⟨c, t, rfl⟩ : ∃ c t, tok = c :: t := by
    cases tok with
    | nil => exact absurd rfl hne
    | cons c t => exact ⟨c, t, rfl⟩
  have hc : isspace c = false := htok c (by simp)
  have hdrop : (ws ++ (c :: t ++ rest)).dropWhile isspace = c :: (t ++ rest) := by
    rw [List.dropWhile_append_of_pos hws, List.cons_append,
      List.dropWhile_cons_of_neg (by simp [hc])]
  have htake : ((c :: (t ++ rest)).takeWhile fun x => !isspace x) = c :: t := by
    have e : c :: (t ++ rest) = (c :: t) ++ rest := rfl
    rw [e, List.takeWhile_append_of_pos (by intro a ha; simp [htok a ha])]
    cases rest with
    | nil => simp
    | cons d r =>
      have hd : isspace d = true := hrest d (by simp)
      rw [List.takeWhile_cons_of_neg (by simp [hd])]
      simp
  rw [scan_s_of_dropWhile w _ c (t ++ rest) (by
    have : 0 < (c :: t).length := by simp
    omega) hdrop, htake, List.take_of_length_le hlen]
  have e : c :: (t ++ rest) = (c :: t) ++ rest := rfl
  rw [e, List.drop_left]

theorem scan_digits_append (ds : List Nat) (rest : List Nat)
    (hds : ∀ c ∈ ds, isdigit c = true) (hrest : ∀ c ∈ rest.head?, isdigit c = false) :
    ∀ acc, scan_digits (ds ++ rest) acc
      = (ds.foldl (fun a c => 10 * a + (c - 48)) acc, rest) := by
  induction ds with
  | nil =>
    intro acc
    cases rest with
    | nil => rfl
    | cons d r =>
      have hd : isdigit d = false := hrest d (by simp)
      simp [scan_digits, hd]
  | cons c ds ih =>
    intro acc
    have hc : isdigit c = true := hds c (by simp)
    simp only [List.cons_append, scan_digits, hc, if_true, List.foldl_cons]
    exact ih (fun x hx => hds x (by simp [hx])) _

theorem isdigit_iff (c : Nat) : isdigit c = true ↔ 48 ≤ c ∧ c ≤ 57 := by
  simp [isdigit]

theorem scan_sign_digit (c : Nat) (t : List Nat) (hc : isdigit c = true) :
    scan_sign (c :: t) = (false, c :: t) := by
  have := (isdigit_iff c).mp hc
  unfold scan_sign
  split
  · rename_i h; simp only [List.cons.injEq] at h; omega
  · rename_i h; simp only [List.cons.injEq] at h; omega
  · rfl

theorem to_int_of_range (v : Int) (h1 : -2147483648 ≤ v) (h2 : v ≤ 2147483647) :
    to_int v = v := by
  unfold to_int; omega

theorem strtol_value_of_range (v : Int) (h1 : -9223372036854775808 ≤ v)
    (h2 : v ≤ 9223372036854775807) : strtol_value v = v := by
  unfold strtol_value; omega

/-- The conversion `%d` reads back what `%d` printed, when a byte that is not a digit
follows. -/
theorem scan_d_fmt_d (ws rest : List Nat) (v : Int)
    (hws : ∀ c ∈ ws, isspace c = true)
    (h1 : -2147483648 ≤ v) (h2 : v ≤ 2147483647)
    (hrest : ∀ c ∈ rest.head?, isdigit c = false) :
    scan_d (ws ++ (fmt_d v ++ rest)) = some (v, rest) := by
  unfold scan_d fmt_d
  by_cases hv : v < 0
  · obtain ⟨hne, hdig, hval⟩ := dec_digits_spec ((-v).toNat + 1) (-v).toNat (by omega)
    rw [if_pos hv, List.dropWhile_append_of_pos hws, List.cons_append,
      List.dropWhile_cons_of_neg (by decide)]
    cases hd : dec_digits ((-v).toNat + 1) (-v).toNat with
    | nil => exact absurd hd hne
    | cons c t =>
      rw [hd] at hdig hval
      have hc : isdigit c = true := (isdigit_iff c).mpr (hdig c (by simp))
      have hsd := scan_digits_append (c :: t) rest
        (fun x hx => (isdigit_iff x).mpr (hdig x hx)) hrest 0
      rw [hval] at hsd
      simp only [scan_sign, List.cons_append] at hsd ⊢
      simp only [hc, if_true, hsd]
      rw [strtol_value_of_range _ (by omega) (by omega), to_int_of_range _ (by omega) (by omega)]
      congr 2
      omega
  · obtain ⟨hne, hdig, hval⟩ := dec_digits_spec (v.toNat + 1) v.toNat (by omega)
    rw [if_neg hv]
    cases hd : dec_digits (v.toNat + 1) v.toNat with
    | nil => exact absurd hd hne
    | cons c t =>
      rw [hd] at hdig hval
      have hc : isdigit c = true := (isdigit_iff c).mpr (hdig c (by simp))
      have hcs : isspace c = false := by
        have := hdig c (by simp)
        simp [isspace]; omega
      have hsd := scan_digits_append (c :: t) rest
        (fun x hx => (isdigit_iff x).mpr (hdig x hx)) hrest 0
      rw [hval] at hsd
      rw [List.dropWhile_append_of_pos hws, List.cons_append,
        List.dropWhile_cons_of_neg (by simp [hcs]), scan_sign_digit c _ hc]
      simp only [List.cons_append] at hsd
      simp only [hc, if_true, hsd, Bool.false_eq_true, if_false]
      rw [strtol_value_of_range _ (by omega) (by omega), to_int_of_range _ (by omega) (by omega)]
      congr 2
      omega

theorem field_byte_iff (c : Nat) : is_field_byte c = true ↔ c ≠ 0 ∧ isspace c = false := by
  simp [is_field_byte]

theorem fmt_d_bytes (v : Int) : fmt_d v ≠ [] ∧ ∀ c ∈ fmt_d v, c = 45 ∨ (48 ≤ c ∧ c ≤ 57) := by
  unfold fmt_d
  by_cases hv : v < 0
  · rw [if_pos hv]
    obtain ⟨_, h2, _⟩ := dec_digits_spec ((-v).toNat + 1) (-v).toNat (by omega)
    refine ⟨by simp, ?_⟩
    intro c hc
    rcases List.mem_cons.mp hc with h | h
    · exact Or.inl h
    · exact Or.inr (h2 c h)
  · rw [if_neg hv]
    obtain ⟨h1, h2, _⟩ := dec_digits_spec (v.toNat + 1) v.toNat (by omega)
    exact ⟨h1, fun c hc => Or.inr (h2 c hc)⟩

theorem fmt_d_length (v : Int) (h1 : -2147483648 ≤ v) (h2 : v ≤ 2147483647) :
    (fmt_d v).length ≤ 11 := by
  unfold fmt_d
  by_cases hv : v < 0
  · rw [if_pos hv]
    have := dec_digits_length ((-v).toNat + 1) (-v).toNat 9 (by norm_num; omega)
    simp only [List.length_cons]
    omega
  · rw [if_neg hv]
    have := dec_digits_length (v.toNat + 1) v.toNat 9 (by norm_num; omega)
    omega

theorem written_login_spec (u : User) (h : Storable u) :
    written_login u ≠ [] ∧ (written_login u).length ≤ 31 ∧
    ∀ c ∈ written_login u, is_field_byte c = true := by
  unfold written_login
  by_cases hl : u.last_login = []
  · rw [if_neg (by simp [hl])]
    decide
  · rw [if_pos hl]
    exact ⟨hl, h.login_len, h.login_bytes⟩

theorem user_line_nested (u : User) :
    user_line u = u.username ++ (32 :: (u.hash ++ (32 :: (fmt_d u.games_played ++ (32 ::
      (fmt_d u.games_won ++ (32 :: (fmt_d u.quizzes ++ (32 :: (written_login u ++ [10])))))))))) := by
  simp [user_line, written_login]

theorem not_space_of_field (l : List Nat) (h : ∀ c ∈ l, is_field_byte c = true) :
    ∀ c ∈ l, isspace c = false :=
  fun c hc => ((field_byte_iff c).mp (h c hc)).2

/-- The `sscanf` call of `load_users` assigns all six fields of a line that `save_users`
wrote for a storable record. -/
theorem sscanf_user_line (u : User) (h : Storable u) :
    sscanf_user (user_line u) =
      ⟨6, u.username, u.hash, u.games_played, u.games_won, u.quizzes, written_login u⟩ := by
  obtain ⟨hl1, hl2, hl3⟩ := written_login_spec u h
  have sp : ∀ c ∈ [32], isspace c = true := by decide
  have hsp : ∀ (r : List Nat), ∀ c ∈ (32 :: r).head?, isspace c = true := by
    intro r c hc; simp at hc; subst hc; decide
  have hnd : ∀ (r : List Nat), ∀ c ∈ (32 :: r).head?, isdigit c = false := by
    intro r c hc; simp at hc; subst hc; decide
  have hnl : ∀ c ∈ ([10] : List Nat).head?, isspace c = true := by decide
  rw [user_line_nested]
  unfold sscanf_user
  have e1 := fun r => scan_s_token 63 [] u.username (32 :: r) (by simp)
    (not_space_of_field _ h.name_bytes) h.name_ne h.name_len (hsp r)
  have e2 := fun r => scan_s_token 64 [32] u.hash (32 :: r) sp
    (not_space_of_field _ h.hash_bytes) h.hash_ne h.hash_len (hsp r)
  have e3 := fun r => scan_d_fmt_d [32] (32 :: r) u.games_played sp
    h.gp_range.1 h.gp_range.2 (hnd r)
  have e4 := fun r => scan_d_fmt_d [32] (32 :: r) u.games_won sp
    h.gw_range.1 h.gw_range.2 (hnd r)
  have e5 := fun r => scan_d_fmt_d [32] (32 :: r) u.quizzes sp
    h.q_range.1 h.q_range.2 (hnd r)
  have e6 := scan_s_token 31 [32] (written_login u) [10] sp
    (not_space_of_field _ hl3) hl1 hl2 hnl
  simp only [List.nil_append, List.singleton_append] at e1 e2 e3 e4 e5 e6
  simp only [e1, e2, e3, e4, e5, e6]

theorem field_byte_ne (c : Nat) (h : is_field_byte c = true) : c ≠ 10 ∧ c ≠ 0 := by
  have := (field_byte_iff c).mp h
  refine ⟨?_, this.1⟩
  intro hc
  rw [hc] at this
  exact absurd this.2 (by decide)

theorem fmt_d_ne (v : Int) : ∀ c ∈ fmt_d v, c ≠ 10 ∧ c ≠ 0 := by
  intro c hc
  rcases (fmt_d_bytes v).2 c hc with h | h <;> omega

/-- The line of a storable record is a body without newline or NUL, of at most 510 bytes,
followed by a newline. -/
theorem user_line_split (u : User) (h : Storable u) :
    ∃ body, user_line u = body ++ [10] ∧ (∀ c ∈ body, c ≠ 10 ∧ c ≠ 0) ∧ body.length ≤ 510 := by
  obtain ⟨_, hl2, hl3⟩ := written_login_spec u h
  refine ⟨u.username ++ (32 :: (u.hash ++ (32 :: (fmt_d u.games_played ++ (32 ::
      (fmt_d u.games_won ++ (32 :: (fmt_d u.quizzes ++ (32 :: written_login u))))))))),
      ?_, ?_, ?_⟩
  · rw [user_line_nested]; simp
  · intro c hc
    simp only [List.mem_append, List.mem_cons] at hc
    rcases hc with hc | hc | hc | hc | hc | hc | hc | hc | hc | hc | hc
    · exact field_byte_ne c (h.name_bytes c hc)
    · omega
    · exact field_byte_ne c (h.hash_bytes c hc)
    · omega
    · exact fmt_d_ne _ c hc
    · omega
    · exact fmt_d_ne _ c hc
    · omega
    · exact fmt_d_ne _ c hc
    · omega
    · exact field_byte_ne c (hl3 c hc)
  · have g1 := fmt_d_length _ h.gp_range.1 h.gp_range.2
    have g2 := fmt_d_length _ h.gw_range.1 h.gw_range.2
    have g3 := fmt_d_length _ h.q_range.1 h.q_range.2
    have n1 := h.name_len
    have n2 := h.hash_len
    simp only [List.length_append, List.length_cons]
    omega

theorem fgets_count_line : ∀ (body : List Nat) (room : Nat) (rest : List Nat),
    (∀ c ∈ body, c ≠ 10) → body.length < room →
    fgets_count room (body ++ 10 :: rest) = body.length + 1 := by
  intro body
  induction body with
  | nil =>
    intro room rest _ hroom
    cases room with
    | zero => simp at hroom
    | succ room => simp [fgets_count]
  | cons a body ih =>
    intro room rest hb hroom
    cases room with
    | zero => simp at hroom
    | succ room =>
      have ha : a ≠ 10 := hb a (by simp)
      have e : fgets_count (room + 1) (a :: body ++ 10 :: rest)
          = 1 + fgets_count room (body ++ 10 :: rest) := by
        simp only [List.cons_append, fgets_count, if_neg ha]
        rfl
      rw [e, ih room rest (fun c hc => hb c (by simp [hc])) (by simpa using hroom)]
      simp only [List.length_cons]
      omega

/-- One `fgets` call takes exactly a line of at most 511 bytes that ends with its only
newline. -/
theorem fgets_line (body rest : List Nat) (hb : ∀ c ∈ body, c ≠ 10) (hlen : body.length ≤ 510) :
    fgets 512 (body ++ [10] ++ rest) = some (body ++ [10], rest) := by
  unfold fgets
  rw [if_neg (by simp)]
  have e : body ++ [10] ++ rest = body ++ 10 :: rest := by simp
  simp only [e, Nat.add_one_sub_one]
  rw [fgets_count_line body 511 rest hb (by omega)]
  have e2 : body ++ 10 :: rest = (body ++ [10]) ++ rest := by simp
  rw [e2, List.take_left' (by simp), List.drop_left' (by simp)]

theorem cstr_of_no_nul (l : List Nat) (h : ∀ c ∈ l, c ≠ 0) : cstr l = l := by
  unfold cstr
  rw [List.takeWhile_eq_self_iff]
  intro c hc
  simpa using h c hc

theorem user_of_scan_line (u : User) (h : Storable u) :
    user_of_scan (sscanf_user (user_line u)) = reloaded u := by
  obtain ⟨_, hl2, _⟩ := written_login_spec u h
  rw [sscanf_user_line u h]
  simp only [user_of_scan, reloaded]
  rw [List.take_of_length_le h.name_len, List.take_of_length_le h.hash_len,
    List.take_of_length_le hl2]
  rfl

/-- One iteration of the loop of `load_users` on the line of a storable record. -/
theorem load_loop_user_line (u : User) (h : Storable u) (fuel : Nat) (rest : List Nat)
    (arr : List User) :
    load_loop (fuel + 1) (user_line u ++ rest) arr = load_loop fuel rest (arr ++ [reloaded u]) := by
  obtain ⟨body, hb1, hb2, hb3⟩ := user_line_split u h
  have hf : fgets 512 (user_line u ++ rest) = some (user_line u, rest) := by
    rw [hb1]; exact fgets_line body rest (fun c hc => (hb2 c hc).1) hb3
  have hc : cstr (user_line u) = user_line u := by
    apply cstr_of_no_nul
    intro c hc
    rw [hb1] at hc
    rcases List.mem_append.mp hc with hc | hc
    · exact (hb2 c hc).2
    · simp at hc; omega
  have hitems : ¬ (sscanf_user (user_line u)).items < 2 := by
    rw [sscanf_user_line u h]; simp
  rw [load_loop]
  simp only [hf, hc]
  rw [if_neg hitems, user_of_scan_line u h]

theorem load_loop_lines : ∀ (arr : List User) (fuel : Nat) (acc : List User),
    (∀ u ∈ arr, Storable u) → arr.length ≤ fuel →
    load_loop fuel ((arr.map user_line).flatten) acc = acc ++ arr.map reloaded := by
  intro arr
  induction arr with
  | nil =>
    intro fuel acc _ _
    cases fuel with
    | zero => simp [load_loop]
    | succ fuel => simp [load_loop, fgets]
  | cons u arr ih =>
    intro fuel acc hs hfuel
    cases fuel with
    | zero => simp at hfuel
    | succ fuel =>
      simp only [List.map_cons, List.flatten_cons]
      rw [load_loop_user_line u (hs u (by simp)), ih fuel _ (fun v hv => hs v (by simp [hv]))
        (by simpa using hfuel)]
      simp

theorem length_lines_ge (arr : List User) : arr.length ≤ ((arr.map user_line).flatten).length := by
  induction arr with
  | nil => simp
  | cons u arr ih =>
    have : 1 ≤ (user_line u).length := by simp [user_line]; omega
    simp only [List.map_cons, List.flatten_cons, List.length_append, List.length_cons]
    omega

/-- Loading the file that `save_users` wrote for storable records gives the records back, an
empty `last_login` read back as `-`. -/
theorem load_users_lines (arr : List User) (tmp : Option (List Nat))
    (hs : ∀ u ∈ arr, Storable u) :
    load_users ⟨some ((arr.map user_line).flatten), tmp⟩ = arr.map reloaded := by
  unfold load_users
  simp only
  rw [load_loop_lines arr _ [] hs (length_lines_ge arr)]
  simp

theorem lower_hex_field (c : Nat) (h : is_lower_hex c = true) : is_field_byte c = true := by
  simp [is_lower_hex] at h
  simp [is_field_byte, isspace]
  omega

theorem valid_user_storable (u : User) (h : valid_user u = true) :
    Storable u ∧ reloaded u = u := by
  simp only [valid_user, Bool.and_eq_true, Bool.or_eq_true, decide_eq_true_eq,
    List.all_eq_true] at h
  obtain ⟨⟨⟨⟨⟨⟨⟨⟨⟨⟨⟨h1, h2⟩, h3⟩, h4⟩, h5⟩, h6⟩, h7⟩, h8⟩, h9⟩, h10⟩, h11⟩, h12⟩ := h
  have hlogin : u.last_login ≠ [] ∧ u.last_login.length ≤ 31 ∧
      ∀ c ∈ u.last_login, is_field_byte c = true := by
    rcases h12 with h | ⟨⟨ha, hb⟩, hc⟩
    · rw [h]; decide
    · refine ⟨?_, hb, hc⟩
      intro hnil; rw [hnil] at ha; simp at ha
  refine ⟨⟨?_, h2, h3, ?_, by omega, fun c hc => lower_hex_field c (h5 c hc),
    ⟨by omega, h7⟩, ⟨by omega, h9⟩, ⟨by omega, h11⟩, hlogin.2.1, hlogin.2.2⟩, ?_⟩
  · intro hnil; rw [hnil] at h1; simp at h1
  · intro hnil; rw [hnil] at h4; simp at h4
  · simp only [reloaded, written_login]
    rw [if_pos hlogin.1]

/-- When the temporary file opens and every byte fits, `save_users` returns `1` and leaves
the lines of the records in `users.db` and no temporary file. -/
theorem save_users_ok (env : Env) (fs : FS) (arr : List User)
    (hopen : env.tmp_opens = true)
    (hroom : ∀ room, env.tmp_room = some room → ((arr.map user_line).flatten).length ≤ room) :
    save_users env fs arr = (⟨some ((arr.map user_line).flatten), none⟩, 1) := by
  have hfold := fprintf_tmp_foldl env fs.db arr [] (by simpa using hroom)
  simp only [save_users, hopen, if_true, hfold, List.nil_append]

/-! ### Lines that `load_users` skips -/

theorem fgets_count_le : ∀ (room : Nat) (s : List Nat),
    fgets_count room s ≤ s.length ∧ (s ≠ [] → 0 < room → 0 < fgets_count room s) := by
  intro room
  induction room with
  | zero => intro s; cases s <;> simp [fgets_count]
  | succ room ih =>
    intro s
    cases s with
    | nil => simp [fgets_count]
    | cons a t =>
      by_cases ha : a = 10
      · simp [fgets_count, ha]
      · have := (ih t).1
        simp only [fgets_count, if_neg ha, List.length_cons]
        refine ⟨by omega, fun _ _ => by omega⟩

theorem load_loop_step (fuel : Nat) (s : List Nat) (acc : List User) (hs : s ≠ []) :
    load_loop (fuel + 1) s acc
      = load_loop fuel (s.drop (fgets_count 511 s))
          (acc ++ line_records (s.take (fgets_count 511 s))) := by
  rw [load_loop]
  simp only [fgets, if_neg hs, line_records]
  by_cases h : (sscanf_user (cstr (s.take (fgets_count 511 s)))).items < 2
  · simp only [Nat.add_one_sub_one, h, if_true, List.append_nil]
  · simp only [Nat.add_one_sub_one, h, if_false]

theorem load_loop_nil (fuel : Nat) (acc : List User) : load_loop fuel [] acc = acc := by
  cases fuel <;> simp [load_loop, fgets]

/-- More fuel than the length of the file changes nothing. -/
theorem load_loop_fuel : ∀ (fuel : Nat) (s : List Nat) (acc : List User), s.length ≤ fuel →
    load_loop fuel s acc = acc ++ load_text s := by
  intro fuel
  induction fuel using Nat.strong_induction_on with
  | _ fuel ih =>
    intro s acc h
    cases s with
    | nil => simp [load_text, load_loop_nil]
    | cons a t =>
      cases fuel with
      | zero => simp at h
      | succ f =>
        have hn := fgets_count_le 511 (a :: t)
        have hpos : 0 < fgets_count 511 (a :: t) := hn.2 (by simp) (by norm_num)
        have hlen : ((a :: t).drop (fgets_count 511 (a :: t))).length ≤ t.length := by
          simp only [List.length_drop, List.length_cons]; omega
        have e : load_text (a :: t) = load_loop (t.length + 1) (a :: t) [] := rfl
        rw [e, load_loop_step f _ _ (by simp), load_loop_step t.length _ _ (by simp),
          ih f (by omega) _ _ (by simp only [List.length_cons] at h; omega),
          ih t.length (by simp only [List.length_cons] at h; omega) _ _ hlen]
        simp

theorem load_text_unfold (s : List Nat) (hs : s ≠ []) :
    load_text s = line_records (s.take (fgets_count 511 s))
      ++ load_text (s.drop (fgets_count 511 s)) := by
  cases s with
  | nil => exact absurd rfl hs
  | cons a t =>
    have hn := fgets_count_le 511 (a :: t)
    have hpos : 0 < fgets_count 511 (a :: t) := hn.2 (by simp) (by norm_num)
    have e : load_text (a :: t) = load_loop (t.length + 1) (a :: t) [] := rfl
    rw [e, load_loop_step t.length _ _ (by simp), load_loop_fuel _ _ _ (by
      simp only [List.length_drop, List.length_cons]; omega)]
    simp

theorem fgets_count_append : ∀ (pre : List Nat) (room : Nat) (rest : List Nat), 10 ∈ pre →
    fgets_count room (pre ++ rest) = fgets_count room pre := by
  intro pre
  induction pre with
  | nil => intro room rest h; simp at h
  | cons a p ih =>
    intro room rest h
    cases room with
    | zero => simp [fgets_count]
    | succ room =>
      by_cases ha : a = 10
      · simp [fgets_count, ha]
      · have hp : 10 ∈ p := by
          rcases List.mem_cons.mp h with h | h
          · exact absurd h.symm ha
          · exact h
        have e1 : fgets_count (room + 1) (a :: p ++ rest)
            = 1 + fgets_count room (p ++ rest) := by
          simp only [List.cons_append, fgets_count, if_neg ha]
          rfl
        have e2 : fgets_count (room + 1) (a :: p) = 1 + fgets_count room p := by
          simp only [fgets_count, if_neg ha]
        rw [e1, e2, ih room rest hp]

theorem endsNL_drop (s : List Nat) (n : Nat) (h : EndsNL s) : EndsNL (s.drop n) := by
  rcases h with h | ⟨q, h⟩
  · left; simp [h]
  · subst h
    by_cases hn : n ≤ q.length
    · right
      exact ⟨q.drop n, by rw [List.drop_append_of_le_length hn]⟩
    · left
      apply List.drop_eq_nil_of_le
      simp only [List.length_append, List.length_singleton]
      omega

theorem endsNL_mem (s : List Nat) (h : EndsNL s) (hs : s ≠ []) : 10 ∈ s := by
  rcases h with h | ⟨q, h⟩
  · exact absurd h hs
  · subst h; simp

/-- Reading a text that ends with a newline, followed by more text, reads the first and then
the rest. -/
theorem load_text_append : ∀ (n : Nat) (pre rest : List Nat), pre.length ≤ n → EndsNL pre →
    load_text (pre ++ rest) = load_text pre ++ load_text rest := by
  intro n
  induction n with
  | zero =>
    intro pre rest hlen _
    have : pre = [] := List.length_eq_zero.mp (by omega)
    subst this
    simp [load_text, load_loop_nil]
  | succ n ih =>
    intro pre rest hlen hnl
    by_cases hpre : pre = []
    · subst hpre; simp [load_text, load_loop_nil]
    · have hmem := endsNL_mem pre hnl hpre
      have hn := fgets_count_le 511 pre
      have hpos : 0 < fgets_count 511 pre := hn.2 hpre (by norm_num)
      rw [load_text_unfold (pre ++ rest) (by simp [hpre]), load_text_unfold pre hpre,
        fgets_count_append pre 511 rest hmem, List.take_append_of_le_length hn.1,
        List.drop_append_of_le_length hn.1,
        ih (pre.drop (fgets_count 511 pre)) rest (by simp only [List.length_drop]; omega)
          (endsNL_drop pre _ hnl)]
      simp

theorem oneToken_take (s : List Nat) (n : Nat) (h : OneToken s) : OneToken (s.take n) := by
  obtain ⟨a, b, c, rfl, ha, hb, hlen, hc⟩ := h
  refine ⟨a.take n, b.take (n - a.length), c.take (n - a.length - b.length), ?_,
    fun x hx => ha x (List.mem_of_mem_take hx), fun x hx => hb x (List.mem_of_mem_take hx), ?_,
    fun x hx => hc x (List.mem_of_mem_take hx)⟩
  · rw [List.take_append_eq_append_take, List.take_append_eq_append_take]
  · simp only [List.length_take]
    omega

theorem oneToken_drop (s : List Nat) (n : Nat) (h : OneToken s) : OneToken (s.drop n) := by
  obtain ⟨a, b, c, rfl, ha, hb, hlen, hc⟩ := h
  refine ⟨a.drop n, b.drop (n - a.length), c.drop (n - a.length - b.length), ?_,
    fun x hx => ha x (List.mem_of_mem_drop hx), fun x hx => hb x (List.mem_of_mem_drop hx), ?_,
    fun x hx => hc x (List.mem_of_mem_drop hx)⟩
  · rw [List.drop_append_eq_append_drop, List.drop_append_eq_append_drop]
  · simp only [List.length_drop]
    omega

theorem takeWhile_eq_take (p : Nat → Bool) (l : List Nat) :
    l.takeWhile p = l.take (l.takeWhile p).length := by
  induction l with
  | nil => rfl
  | cons a l ih =>
    by_cases ha : p a = true
    · rw [List.takeWhile_cons_of_pos ha]
      simp only [List.length_cons, List.take_succ_cons]
      rw [← ih]
    · rw [List.takeWhile_cons_of_neg ha]
      rfl

theorem oneToken_cstr (s : List Nat) (h : OneToken s) : OneToken (cstr s) := by
  unfold cstr
  rw [takeWhile_eq_take]
  exact oneToken_take s _ h

/-- On a text with at most one token of at most 63 bytes `sscanf` assigns less than two
fields. -/
theorem sscanf_user_oneToken (s : List Nat) (h : OneToken s) : (sscanf_user s).items < 2 := by
  obtain ⟨a, b, c, rfl, ha, hb, hlen, hc⟩ := h
  unfold sscanf_user
  by_cases hbe : b = []
  · subst hbe
    rw [scan_s_of_all_space 63 _ (by
      intro x hx
      simp only [List.nil_append, List.mem_append] at hx
      rcases hx with hx | hx
      · exact ha x hx
      · exact hc x hx)]
    decide
  · rw [scan_s_token 63 a b c ha hb hbe hlen (by
      intro x hx
      exact hc x (List.mem_of_mem_head? hx))]
    simp only
    rw [scan_s_of_all_space 64 c hc]
    simp

theorem line_records_oneToken (s : List Nat) (h : OneToken s) : line_records s = [] := by
  unfold line_records
  rw [if_pos (sscanf_user_oneToken _ (oneToken_cstr s h))]

/-- A text with at most one token of at most 63 bytes yields no record. -/
theorem load_text_oneToken : ∀ (n : Nat) (s : List Nat), s.length ≤ n → OneToken s →
    load_text s = [] := by
  intro n
  induction n with
  | zero =>
    intro s hlen _
    have : s = [] := List.length_eq_zero.mp (by omega)
    subst this
    simp [load_text, load_loop_nil]
  | succ n ih =>
    intro s hlen h
    by_cases hs : s = []
    · subst hs; simp [load_text, load_loop_nil]
    · have hn := fgets_count_le 511 s
      have hpos : 0 < fgets_count 511 s := hn.2 hs (by norm_num)
      rw [load_text_unfold s hs, line_records_oneToken _ (oneToken_take s _ h),
        ih _ (by simp only [List.length_drop]; omega) (oneToken_drop s _ h)]
      rfl

theorem spec_tokens_aux_nil : ∀ (fuel : Nat) (s : List Nat), s.length ≤ fuel →
    spec_tokens_aux fuel s = [] → ∀ x ∈ s, isspace x = true := by
  intro fuel s hlen h
  cases fuel with
  | zero =>
    have : s = [] := List.length_eq_zero.mp (by omega)
    subst this
    simp
  | succ fuel =>
    unfold spec_tokens_aux at h
    split at h
    · rename_i hd
      exact List.dropWhile_eq_nil_iff.mp hd
    · simp at h

theorem length_dropWhile_le (p : Nat → Bool) (l : List Nat) :
    (l.dropWhile p).length ≤ l.length := by
  induction l with
  | nil => simp
  | cons a l ih =>
    by_cases ha : p a = true
    · rw [List.dropWhile_cons_of_pos ha]; simp only [List.length_cons]; omega
    · rw [List.dropWhile_cons_of_neg ha]

/-- The first token of a text, as the reference definition gives it. -/
theorem spec_tokens_aux_cons (fuel : Nat) (s t : List Nat) (ts : List (List Nat))
    (h : spec_tokens_aux fuel s = t :: ts) :
    ∃ c rest fuel1, s.dropWhile isspace = c :: rest ∧ fuel = fuel1 + 1 ∧
      t = ((c :: rest).takeWhile fun x => !isspace x) ∧
      ts = spec_tokens_aux fuel1 ((c :: rest).dropWhile fun x => !isspace x) := by
  cases fuel with
  | zero => simp [spec_tokens_aux] at h
  | succ fuel =>
    unfold spec_tokens_aux at h
    split at h
    · simp at h
    · rename_i c rest hd
      simp only [List.cons.injEq] at h
      exact ⟨c, rest, fuel, hd, rfl, h.1.symm, h.2.symm⟩

theorem skipped_line_oneToken (l : List Nat) (h : skipped_line l = true) : OneToken l := by
  simp only [skipped_line, Bool.and_eq_true, decide_eq_true_eq, List.all_eq_true] at h
  obtain ⟨hcount, hshort⟩ := h
  cases htok : spec_tokens l with
  | nil =>
    have hall := spec_tokens_aux_nil l.length l (Nat.le_refl _) htok
    exact ⟨l, [], [], by simp, hall, by simp, by simp, by simp⟩
  | cons t ts =>
    rw [htok] at hcount hshort
    have hts : ts = [] := by
      cases ts with
      | nil => rfl
      | cons _ _ => simp at hcount
    subst hts
    obtain ⟨c, rest, fuel1, hd, hfuel, ht, hnil⟩ := spec_tokens_aux_cons _ _ _ _ htok
    have hsplit : l = l.takeWhile isspace ++ (c :: rest) := by
      rw [← hd, List.takeWhile_append_dropWhile]
    have hsplit2 : c :: rest = t ++ (c :: rest).dropWhile fun x => !isspace x := by
      rw [ht, List.takeWhile_append_dropWhile]
    have hcs : isspace c = false := head_not_space_of_dropWhile l c rest hd
    have htne : 1 ≤ t.length := by
      rw [ht, List.takeWhile_cons_of_pos (by simp [hcs])]
      simp
    have hlen1 : (c :: rest).length ≤ l.length := by
      rw [← hd]; exact length_dropWhile_le _ _
    have hlen2 : ((c :: rest).dropWhile fun x => !isspace x).length ≤ fuel1 := by
      have e := congrArg List.length hsplit2
      simp only [List.length_append] at e
      omega
    have hrest := spec_tokens_aux_nil fuel1 _ hlen2 hnil.symm
    refine ⟨l.takeWhile isspace, t, (c :: rest).dropWhile fun x => !isspace x, ?_, ?_, ?_, ?_,
      hrest⟩
    · rw [← hsplit2]; exact hsplit
    · intro x hx; exact (List.mem_takeWhile_imp hx)
    · intro x hx
      rw [ht] at hx
      simpa using List.mem_takeWhile_imp hx
    · exact hshort t (by simp)

theorem oneToken_newline (l : List Nat) (h : OneToken l) : OneToken (l ++ [10]) := by
  obtain ⟨a, b, c, rfl, ha, hb, hlen, hc⟩ := h
  refine ⟨a, b, c ++ [10], by simp, ha, hb, hlen, ?_⟩
  intro x hx
  rcases List.mem_append.mp hx with hx | hx
  · exact hc x hx
  · simp at hx; subst hx; decide

theorem endsNL_lines (ls : List (List Nat)) : EndsNL ((ls.map fun l => l ++ [10]).flatten) := by
  induction ls with
  | nil => left; rfl
  | cons l ls ih =>
    right
    rcases ih with h | ⟨q, h⟩
    · exact ⟨l, by simp [h]⟩
    · exact ⟨l ++ [10] ++ q, by simp [h]⟩

theorem load_text_lines (ls : List (List Nat)) :
    load_text ((ls.map fun l => l ++ [10]).flatten)
      = (ls.map fun l => load_text (l ++ [10])).flatten := by
  induction ls with
  | nil => simp [load_text, load_loop_nil]
  | cons l ls ih =>
    simp only [List.map_cons, List.flatten_cons]
    rw [load_text_append _ (l ++ [10]) _ (Nat.le_refl _) (Or.inr ⟨l, rfl⟩), ih]

theorem load_text_skipped (l : List Nat) (h : skipped_line l = true) :
    load_text (l ++ [10]) = [] :=
  load_text_oneToken _ _ (Nat.le_refl _) (oneToken_newline l (skipped_line_oneToken l h))

theorem load_text_filter (ls : List (List Nat)) :
    ((ls.filter fun l => !skipped_line l).map fun l => load_text (l ++ [10])).flatten
      = (ls.map fun l => load_text (l ++ [10])).flatten := by
  induction ls with
  | nil => rfl
  | cons l ls ih =>
    by_cases h : skipped_line l = true
    · rw [List.filter_cons_of_neg (by simp [h])]
      simp only [List.map_cons, List.flatten_cons, load_text_skipped l h, List.nil_append]
      exact ih
    · rw [List.filter_cons_of_pos (by simp [h])]
      simp only [List.map_cons, List.flatten_cons]
      rw [ih]

theorem load_text_of_lines (ls : List (List Nat)) (last : List Nat) :
    load_text (text_of_lines ls last)
      = (ls.map fun l => load_text (l ++ [10])).flatten ++ load_text last := by
  unfold text_of_lines
  rw [load_text_append _ _ _ (Nat.le_refl _) (endsNL_lines ls), load_text_lines]

/-- What `sscanf` stores once the two string conversions have succeeded. -/
theorem sscanf_user_two (s t1 r1 t2 r2 : List Nat) (e1 : scan_s 63 s = some (t1, r1))
    (e2 : scan_s 64 r1 = some (t2, r2)) :
    (sscanf_user s).user = t1 ∧ (sscanf_user s).hash = t2 ∧ 2 ≤ (sscanf_user s).items := by
  unfold sscanf_user
  simp only [e1, e2]
  repeat' split
  all_goals simp

/-- The conversion `%Ns` reads the first token of a text when it has at most `w` bytes. -/
theorem scan_s_first_token (w fuel : Nat) (s t : List Nat) (ts : List (List Nat))
    (h : spec_tokens_aux fuel s = t :: ts) (hlen : t.length ≤ w) :
    ∃ rest fuel1, scan_s w s = some (t, rest) ∧ ts = spec_tokens_aux fuel1 rest := by
  obtain ⟨c, rest, fuel1, hd, _, ht, hts⟩ := spec_tokens_aux_cons fuel s t ts h
  have hcs : isspace c = false := head_not_space_of_dropWhile s c rest hd
  have hw : 0 < w := by
    have : 1 ≤ t.length := by
      rw [ht, List.takeWhile_cons_of_pos (by simp [hcs])]
      simp
    omega
  refine ⟨(c :: rest).dropWhile fun x => !isspace x, fuel1, ?_, hts⟩
  rw [scan_s_of_dropWhile w s c rest hw hd, ← ht, List.take_of_length_le hlen, ht,
    drop_length_takeWhile]

/-- Lines that are empty, white-space-only or hold one token of at most 63 bytes can be
removed from a text without changing what is read from it. -/
theorem load_text_skip_lines (ls : List (List Nat)) (last : List Nat) :
    load_text (text_of_lines (ls.filter fun l => !skipped_line l)
        (if skipped_line last then [] else last))
      = load_text (text_of_lines ls last) := by
  rw [load_text_of_lines, load_text_of_lines, load_text_filter]
  by_cases h : skipped_line last = true
  · rw [if_pos h, load_text_oneToken _ last (Nat.le_refl _) (skipped_line_oneToken last h)]
    simp [load_text, load_loop_nil]
  · rw [if_neg h]

theorem text_of_spec_lines (s : List Nat) :
    text_of_lines (spec_lines s).1 (spec_lines s).2 = s := by
  induction s with
  | nil => rfl
  | cons c rest ih =>
    unfold spec_lines
    by_cases hc : c = 10
    · rw [if_pos hc]
      simp only [text_of_lines, List.map_cons, List.flatten_cons, List.nil_append,
        List.singleton_append, List.cons_append] at ih ⊢
      rw [ih, hc]
    · rw [if_neg hc]
      cases h1 : (spec_lines rest).1 with
      | nil =>
        rw [h1] at ih
        simp only [text_of_lines, List.map_nil, List.flatten_nil, List.nil_append] at ih ⊢
        rw [ih]
      | cons l ls =>
        rw [h1] at ih
        simp only [text_of_lines, List.map_cons, List.flatten_cons, List.cons_append,
          List.append_assoc] at ih ⊢
        rw [ih]

theorem spec_lines_no_newline (s : List Nat) :
    (∀ l ∈ (spec_lines s).1, 10 ∉ l) ∧ 10 ∉ (spec_lines s).2 := by
  induction s with
  | nil => simp [spec_lines]
  | cons c rest ih =>
    unfold spec_lines
    by_cases hc : c = 10
    · rw [if_pos hc]
      refine ⟨?_, ih.2⟩
      intro l hl
      rcases List.mem_cons.mp hl with h | h
      · rw [h]; simp
      · exact ih.1 l h
    · rw [if_neg hc]
      cases h1 : (spec_lines rest).1 with
      | nil =>
        refine ⟨by simp, ?_⟩
        simp only [List.mem_cons, not_or]
        exact ⟨fun h => hc h.symm, ih.2⟩
      | cons l ls =>
        rw [h1] at ih
        refine ⟨?_, ih.2⟩
        intro l2 hl2
        rcases List.mem_cons.mp hl2 with h | h
        · rw [h]
          simp only [List.mem_cons, not_or]
          exact ⟨fun h => hc h.symm, ih.1 l (by simp)⟩
        · exact ih.1 l2 (by simp [h])

theorem spec_lines_last (last : List Nat) (h : 10 ∉ last) : spec_lines last = ([], last) := by
  induction last with
  | nil => rfl
  | cons c rest ih =>
    simp only [List.mem_cons, not_or] at h
    have hc : ¬ c = 10 := fun e => h.1 e.symm
    rw [spec_lines, if_neg hc, ih h.2]

theorem spec_lines_line (l rest : List Nat) (h : 10 ∉ l) :
    spec_lines (l ++ 10 :: rest) = (l :: (spec_lines rest).1, (spec_lines rest).2) := by
  induction l with
  | nil => simp [spec_lines]
  | cons c l ih =>
    simp only [List.mem_cons, not_or] at h
    have hc : ¬ c = 10 := fun e => h.1 e.symm
    rw [List.cons_append, spec_lines, if_neg hc, ih h.2]

/-- The lines of a text built from newline-free lines are those lines. -/
theorem spec_lines_text (ls : List (List Nat)) (last : List Nat)
    (hls : ∀ l ∈ ls, 10 ∉ l) (hlast : 10 ∉ last) :
    spec_lines (text_of_lines ls last) = (ls, last) := by
  induction ls with
  | nil => simpa [text_of_lines] using spec_lines_last last hlast
  | cons l ls ih =>
    have e : text_of_lines (l :: ls) last = l ++ 10 :: text_of_lines ls last := by
      simp [text_of_lines]
    rw [e, spec_lines_line l _ (hls l (by simp)), ih (fun x hx => hls x (by simp [hx]))]

theorem user_line_eq_spec_line (u : User) : user_line u = spec_line u ++ [10] := by
  unfold user_line spec_line
  by_cases h : u.last_login = [] <;> simp [h] <;> rfl

theorem lines_eq_text (arr : List User) :
    (arr.map user_line).flatten = text_of_lines (arr.map spec_line) [] := by
  unfold text_of_lines
  rw [List.map_map, List.append_nil]
  congr 1
  exact List.map_congr_left (fun u _ => user_line_eq_spec_line u)

theorem spec_line_no_newline (u : User)
    (h : 10 ∉ u.username ∧ 10 ∉ u.hash ∧ 10 ∉ u.last_login) : 10 ∉ spec_line u := by
  obtain ⟨h1, h2, h3⟩ := h
  have g1 := fun hc => (fmt_d_ne u.games_played 10 hc).1 rfl
  have g2 := fun hc => (fmt_d_ne u.games_won 10 hc).1 rfl
  have g3 := fun hc => (fmt_d_ne u.quizzes 10 hc).1 rfl
  have hsp : (10 : Nat) ∉ ascii " " := by decide
  have hl : 10 ∉ (if u.last_login = [] then ascii "-" else u.last_login) := by
    by_cases he : u.last_login = []
    · rw [if_pos he]; decide
    · rw [if_neg he]; exact h3
  unfold spec_line
  simp only [List.mem_append, not_or]
  exact ⟨⟨⟨⟨⟨⟨⟨⟨⟨⟨h1, hsp⟩, h2⟩, hsp⟩, g1⟩, hsp⟩, g2⟩, hsp⟩, g3⟩, hsp⟩, hl⟩

/-! ### Lines on which some fields are missing -/

/-- The loop of `%d` over the digits: the value read is the accumulator shifted by the number
of digits plus the number the digits denote, and the rest is what follows the digits. -/
theorem scan_digits_spec : ∀ (s : List Nat) (acc : Nat),
    scan_digits s acc
      = (acc * 10 ^ (s.takeWhile isdigit).length + spec_digits_value (s.takeWhile isdigit),
          s.dropWhile isdigit) := by
  intro s
  induction s with
  | nil => intro acc; simp [scan_digits, spec_digits_value]
  | cons c t ih =>
    intro acc
    by_cases hc : isdigit c = true
    · simp only [scan_digits, hc, if_true, ih, List.takeWhile_cons_of_pos hc,
        List.dropWhile_cons_of_pos hc, List.length_cons, spec_digits_value, Prod.mk.injEq,
        and_true]
      ring
    · simp only [scan_digits, hc, Bool.false_eq_true, if_false,
        List.takeWhile_cons_of_neg hc, List.dropWhile_cons_of_neg hc, List.length_nil,
        spec_digits_value, pow_zero, mul_one, add_zero]

/-- What is stored for a numeral: the `long` of `strtol` stored into an `int`. -/
theorem to_int_strtol_value (v : Int) : to_int (strtol_value v) = spec_stored_int v := by
  unfold to_int strtol_value spec_stored_int
  split_ifs <;> omega

/-- The sign read by `%d`, in the words of the reference notions. -/
theorem scan_sign_spec (s : List Nat) :
    (scan_sign (s.dropWhile isspace)).1 = spec_negative s ∧
    (scan_sign (s.dropWhile isspace)).2 = spec_unsigned s := by
  unfold scan_sign spec_negative spec_unsigned
  split
  · rename_i h; simp [h]
  · rename_i h; simp [h]
  · rename_i h1 h2
    constructor
    · cases hd : List.dropWhile isspace s with
      | nil => simp
      | cons c t =>
        simp only [List.head?_cons, Option.some.injEq]
        by_cases hc : c = 45
        · exact absurd (hc ▸ hd) (h1 t)
        · simp [hc]
    · rfl

/-- The conversion `%d` fails exactly when no digit follows the white space and the optional
sign; else it stores the integer that the numeral denotes and leaves the text after the
numeral. -/
theorem scan_d_spec (s : List Nat) :
    scan_d s = if spec_digits s = [] then none
      else some (spec_stored_int (spec_numeral_value s), spec_after_numeral s) := by
  obtain ⟨hs1, hs2⟩ := scan_sign_spec s
  unfold scan_d
  simp only [hs1, hs2]
  unfold spec_digits spec_after_numeral spec_numeral_value spec_digits
  cases hu : spec_unsigned s with
  | nil => simp
  | cons c t =>
    by_cases hc : isdigit c = true
    · simp only [hc, if_true, scan_digits_spec, zero_mul, zero_add, to_int_strtol_value,
        List.takeWhile_cons_of_pos hc]
      simp
    · simp only [hc, Bool.false_eq_true, if_false, List.takeWhile_cons_of_neg hc, if_true]

/-- Numerals out of the range of `int`, as `load_users` stores them: `-1` one above
`LONG_MAX` and far above it, `0` one below `LONG_MIN`, `0` for `2^32`, and `INT_MIN` for
`2^31`. -/
theorem load_users_numerals_out_of_range :
    (load_users ⟨some (ascii "alice h 9223372036854775808\n"), none⟩).map
      (fun u => u.games_played) = [-1] ∧
    (load_users ⟨some (ascii "alice h -9223372036854775809\n"), none⟩).map
      (fun u => u.games_played) = [0] ∧
    (load_users ⟨some (ascii "alice h 99999999999999999999\n"), none⟩).map
      (fun u => u.games_played) = [-1] ∧
    (load_users ⟨some (ascii "alice h 4294967296\n"), none⟩).map
      (fun u => u.games_played) = [0] ∧
    (load_users ⟨some (ascii "alice h 2147483648\n"), none⟩).map
      (fun u => u.games_played) = [-2147483648] := by
  decide!

/-- The conversion `%Ns` reads the first token of a text when it has at most `w` bytes, and
leaves the text after that token. -/
theorem scan_s_token_rest (w fuel : Nat) (s t : List Nat) (ts : List (List Nat))
    (h : spec_tokens_aux fuel s = t :: ts) (hlen : t.length ≤ w) :
    scan_s w s = some (t, spec_after_token s) ∧
    ∃ fuel1, ts = spec_tokens_aux fuel1 (spec_after_token s) := by
  obtain ⟨c, rest, fuel1, hd, _, ht, hts⟩ := spec_tokens_aux_cons fuel s t ts h
  have hcs : isspace c = false := head_not_space_of_dropWhile s c rest hd
  have hw : 0 < w := by
    have : 1 ≤ t.length := by
      rw [ht, List.takeWhile_cons_of_pos (by simp [hcs])]
      simp
    omega
  have hr : spec_after_token s = (c :: rest).dropWhile fun x => !isspace x := by
    unfold spec_after_token
    rw [hd]
  rw [hr]
  refine ⟨?_, fuel1, hts⟩
  rw [scan_s_of_dropWhile w s c rest hw hd, ← ht, List.take_of_length_le hlen, ht,
    drop_length_takeWhile]

/-- What `sscanf` returns and stores once the two string conversions have succeeded, in the
words of the reference notions: the counters are the integers that the numerals after the
second token denote, as many as there are numerals in a row. -/
theorem sscanf_user_eq (s t1 r1 t2 r2 : List Nat) (e1 : scan_s 63 s = some (t1, r1))
    (e2 : scan_s 64 r1 = some (t2, r2)) :
    sscanf_user s =
      if spec_digits r2 = [] then ⟨2, t1, t2, 0, 0, 0, []⟩
      else if spec_digits (spec_after_numeral r2) = [] then
        ⟨3, t1, t2, spec_stored_int (spec_numeral_value r2), 0, 0, []⟩
      else if spec_digits (spec_after_numeral (spec_after_numeral r2)) = [] then
        ⟨4, t1, t2, spec_stored_int (spec_numeral_value r2),
          spec_stored_int (spec_numeral_value (spec_after_numeral r2)), 0, []⟩
      else
        match scan_s 31 (spec_after_numeral (spec_after_numeral (spec_after_numeral r2))) with
        | none => ⟨5, t1, t2, spec_stored_int (spec_numeral_value r2),
            spec_stored_int (spec_numeral_value (spec_after_numeral r2)),
            spec_stored_int (spec_numeral_value (spec_after_numeral (spec_after_numeral r2))),
            []⟩
        | some (last_login, _) => ⟨6, t1, t2, spec_stored_int (spec_numeral_value r2),
            spec_stored_int (spec_numeral_value (spec_after_numeral r2)),
            spec_stored_int (spec_numeral_value (spec_after_numeral (spec_after_numeral r2))),
            last_login⟩ := by
  unfold sscanf_user
  simp only [e1, e2, scan_d_spec]
  by_cases h3 : spec_digits r2 = []
  · simp only [h3, if_true]
  · simp only [h3, if_false]
    by_cases h4 : spec_digits (spec_after_numeral r2) = []
    · simp only [h4, if_true]
    · simp only [h4, if_false]
      by_cases h5 : spec_digits (spec_after_numeral (spec_after_numeral r2)) = []
      · simp only [h5, if_true]
      · simp only [h5, if_false]

/-! ### Claims about the user database -/

/-- C5: for every list of valid records (username of 1 to 63 non-white-space bytes, hash of
exactly 64 lowercase hex characters, counters in `0 .. INT_MAX`, `last_login` either `-` or a
non-empty white-space-free timestamp of at most 31 bytes), `load_users` applied to the file
written by a `save_users` whose writes succeed yields the same records in the same order. -/
theorem load_save_roundtrip (env : Env) (fs : FS) (arr : List User)
    (hopen : env.tmp_opens = true)
    (hroom : ∀ room, env.tmp_room = some room → ((arr.map user_line).flatten).length ≤ room)
    (hvalid : ∀ u ∈ arr, valid_user u = true) :
    load_users (save_users env fs arr).1 = arr := by
  rw [save_users_ok env fs arr hopen hroom]
  simp only
  rw [load_users_lines arr none (fun u hu => (valid_user_storable u (hvalid u hu)).1)]
  conv_rhs => rw [← List.map_id arr]
  exact List.map_congr_left (fun u hu => (valid_user_storable u (hvalid u hu)).2)

/-- Witness for C5: two valid records, one never logged in and one with a timestamp. -/
theorem load_save_roundtrip_witness :
    (∀ u ∈ [example_alice 2 1 0 (ascii "-"),
        { example_alice 0 0 3 (ascii "2024-05-01T10:20:30") with username := ascii "bob" }],
      valid_user u = true) ∧
    load_users (save_users ⟨true, none⟩ ⟨some (ascii "junk"), none⟩
      [example_alice 2 1 0 (ascii "-"),
        { example_alice 0 0 3 (ascii "2024-05-01T10:20:30") with username := ascii "bob" }]).1
      = [example_alice 2 1 0 (ascii "-"),
        { example_alice 0 0 3 (ascii "2024-05-01T10:20:30") with username := ascii "bob" }] :=
  ⟨by decide!, load_save_roundtrip ⟨true, none⟩ ⟨some (ascii "junk"), none⟩
      [example_alice 2 1 0 (ascii "-"),
        { example_alice 0 0 3 (ascii "2024-05-01T10:20:30") with username := ascii "bob" }]
      rfl (fun room h => by simp at h) (by decide!)⟩

/-- C8: for every record list and username, `find_user_index` returns `i` exactly when `i` is
the smallest index whose record has that username (byte-for-byte equal), and returns `-1`
exactly when no record has it; with duplicates the first one wins. -/
theorem find_user_index_first_match (arr : List User) (username : List Nat) :
    (∀ i : Nat, find_user_index arr username = (i : Int) ↔
      ((∃ u, arr[i]? = some u ∧ u.username = username) ∧
        ∀ j v, j < i → arr[j]? = some v → v.username ≠ username)) ∧
    (find_user_index arr username = -1 ↔ ∀ u ∈ arr, u.username ≠ username) := by
  unfold find_user_index
  rcases find_loop_cases username arr 0 with ⟨h1, h2⟩ | ⟨i, u, h1, h2, h3, h4⟩
  · refine ⟨fun i => ⟨fun h => ?_, fun h => ?_⟩, ⟨fun _ => h2, fun _ => h1⟩⟩
    · rw [h1] at h; omega
    · obtain ⟨⟨u, hu, hn⟩, _⟩ := h
      exact absurd hn (h2 u (List.mem_iff_getElem?.mpr ⟨_, hu⟩))
  · have hi : ((0 + i : Nat) : Int) = (i : Int) := by simp
    rw [hi] at h1
    refine ⟨fun k => ⟨fun h => ?_, fun h => ?_⟩, ⟨fun h => ?_, fun h => ?_⟩⟩
    · rw [h1] at h
      have : i = k := by omega
      subst this
      exact ⟨⟨u, h2, h3⟩, h4⟩
    · obtain ⟨⟨w, hw, hn⟩, hfirst⟩ := h
      rw [h1]
      rcases Nat.lt_trichotomy i k with hlt | heq | hgt
      · exact absurd h3 (hfirst i u hlt h2)
      · rw [heq]
      · exact absurd hn (h4 k w hgt hw)
    · rw [h1] at h; omega
    · exact absurd h3 (h u (List.mem_iff_getElem?.mpr ⟨_, h2⟩))

/-- C9: when the temporary file opens and every byte fits, `save_users` returns `1`; the
persisted file then holds, whatever it held before, the lines `spec_line` of the records in
list order, each followed by a newline (`username hash games_played games_won quizzes
last_login` with single spaces, counters in decimal, `-` for an empty `last_login`), these are
exactly its lines when no field holds a newline, and the temporary file no longer exists. -/
theorem save_users_writes_lines (env : Env) (fs : FS) (arr : List User)
    (hopen : env.tmp_opens = true)
    (hroom : ∀ room, env.tmp_room = some room → ((arr.map user_line).flatten).length ≤ room) :
    (save_users env fs arr).2 = 1 ∧
    (save_users env fs arr).1.db = some (text_of_lines (arr.map spec_line) []) ∧
    (save_users env fs arr).1.tmp = none ∧
    ((∀ u ∈ arr, 10 ∉ u.username ∧ 10 ∉ u.hash ∧ 10 ∉ u.last_login) →
      spec_lines (text_of_lines (arr.map spec_line) []) = (arr.map spec_line, [])) ∧
    (∀ v : Int, spec_decimal_value (fmt_d v) = v) := by
  rw [save_users_ok env fs arr hopen hroom, lines_eq_text]
  refine ⟨rfl, rfl, rfl, ?_, fmt_d_value⟩
  intro h
  apply spec_lines_text _ _ _ (by simp)
  intro l hl
  obtain ⟨u, hu, rfl⟩ := List.mem_map.mp hl
  exact spec_line_no_newline u (h u hu)

/-- Witness for C9: two records saved over an existing file. -/
theorem save_users_writes_lines_witness :
    (save_users ⟨true, none⟩ ⟨some (ascii "old"), none⟩
      [⟨ascii "al", ascii "ff", 12, 5, 0, []⟩,
        ⟨ascii "bob", ascii "0a", 0, 0, 7, ascii "2024"⟩]).1.db
      = some (text_of_lines ([⟨ascii "al", ascii "ff", 12, 5, 0, []⟩,
        ⟨ascii "bob", ascii "0a", 0, 0, 7, ascii "2024"⟩].map spec_line) []) ∧
    text_of_lines ([⟨ascii "al", ascii "ff", 12, 5, 0, []⟩,
        ⟨ascii "bob", ascii "0a", 0, 0, 7, ascii "2024"⟩].map spec_line) []
      = ascii "al ff 12 5 0 -\nbob 0a 0 0 7 2024\n" :=
  ⟨(save_users_writes_lines ⟨true, none⟩ ⟨some (ascii "old"), none⟩
      [⟨ascii "al", ascii "ff", 12, 5, 0, []⟩, ⟨ascii "bob", ascii "0a", 0, 0, 7, ascii "2024"⟩]
      rfl (fun room h => by simp at h)).2.1, by decide!⟩

/-- When the temporary file cannot be opened, `save_users` returns `0` and changes nothing. -/
theorem save_users_open_failure (env : Env) (fs : FS) (arr : List User)
    (h : env.tmp_opens = false) : save_users env fs arr = (fs, 0) := by
  simp [save_users, h]

/-- C10 fails on the code: with the temporary file open but room for only 8 bytes, saving
`alice` (2 games) over a file that holds `alice` (1 game) returns `1`, and the persisted file
becomes the 8 bytes `alice ba`; loading it yields a record with a truncated hash and zero
counters, not the record stored before. -/
theorem save_users_write_failure_undetected :
    load_users ⟨some (user_line (example_alice 1 1 0 (ascii "-"))), none⟩
      = [example_alice 1 1 0 (ascii "-")] ∧
    (save_users ⟨true, some 8⟩ ⟨some (user_line (example_alice 1 1 0 (ascii "-"))), none⟩
      [example_alice 2 1 0 (ascii "-")]).2 = 1 ∧
    (save_users ⟨true, some 8⟩ ⟨some (user_line (example_alice 1 1 0 (ascii "-"))), none⟩
      [example_alice 2 1 0 (ascii "-")]).1 = ⟨some (ascii "alice ba"), none⟩ ∧
    load_users (save_users ⟨true, some 8⟩
      ⟨some (user_line (example_alice 1 1 0 (ascii "-"))), none⟩
      [example_alice 2 1 0 (ascii "-")]).1
      = [{ username := ascii "alice", hash := ascii "ba", games_played := 0, games_won := 0,
           quizzes := 0, last_login := [] }] := by
  decide!

/-- C6, as stated, fails: a line that holds exactly one token, of 64 bytes, does contribute a
record (its first 63 bytes as username, the last byte as hash), so the result differs from
that on the text without the line. -/
theorem load_users_single_long_token :
    spec_tokens (List.replicate 64 97) = [List.replicate 64 97] ∧
    load_users ⟨some (text_of_lines [List.replicate 64 97] []), none⟩
      = [{ username := List.replicate 63 97, hash := [97], games_played := 0, games_won := 0,
           quizzes := 0, last_login := [] }] ∧
    load_users ⟨some (text_of_lines [] []), none⟩ = [] := by
  decide!

/-- C6, amended: for every persisted text, with `spec_lines` giving its lines (none of which
holds a newline, and which make up the text), `load_users` returns the same records as on the
text without the lines that are empty, white-space-only, or hold exactly one token of at most
63 bytes. -/
theorem load_users_skips_lines (content : List Nat) (tmp : Option (List Nat)) :
    (∀ l ∈ (spec_lines content).1, 10 ∉ l) ∧ 10 ∉ (spec_lines content).2 ∧
    text_of_lines (spec_lines content).1 (spec_lines content).2 = content ∧
    load_users ⟨some content, tmp⟩
      = load_users ⟨some (text_of_lines ((spec_lines content).1.filter fun l => !skipped_line l)
          (if skipped_line (spec_lines content).2 then [] else (spec_lines content).2)), tmp⟩ := by
  refine ⟨(spec_lines_no_newline content).1, (spec_lines_no_newline content).2,
    text_of_spec_lines content, ?_⟩
  have e : ∀ s, load_users ⟨some s, tmp⟩ = load_text s := fun _ => rfl
  rw [e, e, load_text_skip_lines, text_of_spec_lines]

/-- C7, as stated, fails: on the line `alice h 7` three fields parse and the record gets an
empty `last_login`, not `-`; and on a line whose first token has 64 bytes two fields parse
but username and hash are not the first two tokens. -/
theorem load_users_partial_line_differs :
    (sscanf_user (cstr (ascii "alice h 7\n"))).items = 3 ∧
    load_users ⟨some (ascii "alice h 7\n"), none⟩
      = [{ username := ascii "alice", hash := ascii "h", games_played := 7, games_won := 0,
           quizzes := 0, last_login := [] }] ∧
    ([] : List Nat) ≠ ascii "-" ∧
    spec_tokens (List.replicate 64 97 ++ ascii " h\n") = [List.replicate 64 97, ascii "h"] ∧
    (sscanf_user (cstr (List.replicate 64 97 ++ ascii " h\n"))).items = 2 ∧
    load_users ⟨some (List.replicate 64 97 ++ ascii " h\n"), none⟩
      = [{ username := List.replicate 63 97, hash := [97], games_played := 0, games_won := 0,
           quizzes := 0, last_login := [] }] := by
  decide!

/-- C7, amended: for every store and every line of it read by one `fgets` call (the text
`pre` before the line is empty or ends with a newline), on which exactly `k ≤ 5` fields parse,
whose first token has at most 63 bytes and whose second token has at most 64: `k` is at least
2; `k` counts the two tokens and the numerals (optional sign and decimal digits) that follow
them in a row; and `load_users` yields, between the records of the text before the line and
those of the text after it, one record: username and hash are the first two tokens, the
counters that parsed are the integers that these numerals denote (as `%d` stores them), the
other counters are 0, and `last_login` is the empty string (which `save_users` writes as
`-`). -/
theorem load_users_partial_line (pre line post : List Nat) (tmp : Option (List Nat))
    (t1 t2 : List Nat) (ts : List (List Nat)) (k : Int)
    (hpre : EndsNL pre)
    (hline : fgets 512 (line ++ post) = some (line, post))
    (htok : spec_tokens (cstr line) = t1 :: t2 :: ts)
    (h1 : t1.length ≤ 63) (h2 : t2.length ≤ 64)
    (hk : (sscanf_user (cstr line)).items = k) (hk5 : k ≤ 5) :
    2 ≤ k ∧
    (3 ≤ k ↔ spec_digits (spec_after_token (spec_after_token (cstr line))) ≠ []) ∧
    (4 ≤ k ↔ 3 ≤ k ∧ spec_digits (spec_after_numeral
      (spec_after_token (spec_after_token (cstr line)))) ≠ []) ∧
    (5 ≤ k ↔ 4 ≤ k ∧ spec_digits (spec_after_numeral (spec_after_numeral
      (spec_after_token (spec_after_token (cstr line))))) ≠ []) ∧
    load_users ⟨some (pre ++ (line ++ post)), tmp⟩ =
      load_users ⟨some pre, tmp⟩ ++
        { username := t1, hash := t2,
          games_played := if 3 ≤ k then spec_stored_int (spec_numeral_value
            (spec_after_token (spec_after_token (cstr line)))) else 0,
          games_won := if 4 ≤ k then spec_stored_int (spec_numeral_value (spec_after_numeral
            (spec_after_token (spec_after_token (cstr line))))) else 0,
          quizzes := if 5 ≤ k then spec_stored_int (spec_numeral_value (spec_after_numeral
            (spec_after_numeral (spec_after_token (spec_after_token (cstr line)))))) else 0,
          last_login := [] } :: load_users ⟨some post, tmp⟩ := by
  obtain ⟨e1, fuel1, hts⟩ := scan_s_token_rest 63 _ _ _ _ htok h1
  obtain ⟨e2, _⟩ := scan_s_token_rest 64 _ _ _ _ hts.symm h2
  have heq := sscanf_user_eq _ _ _ _ _ e1 e2
  have hne : line ++ post ≠ [] := by
    intro hnil
    rw [hnil] at hline
    simp [fgets] at hline
  have hchunk : (line ++ post).take (fgets_count 511 (line ++ post)) = line ∧
      (line ++ post).drop (fgets_count 511 (line ++ post)) = post := by
    simp only [fgets, if_neg hne, Nat.add_one_sub_one, Option.some.injEq, Prod.mk.injEq]
      at hline
    exact hline
  have e : ∀ s, load_users ⟨some s, tmp⟩ = load_text s := fun _ => rfl
  rw [e, e, e, load_text_append _ pre _ (Nat.le_refl _) hpre, load_text_unfold _ hne,
    hchunk.1, hchunk.2]
  have hcons : ∀ (u : User), line_records line = [u] →
      load_text pre ++ (line_records line ++ load_text post)
        = load_text pre ++ u :: load_text post := by
    intro u hu
    rw [hu]
    rfl
  generalize hF : spec_after_token (spec_after_token (cstr line)) = F at heq ⊢
  by_cases h3 : spec_digits F = []
  · rw [if_pos h3] at heq
    have hk2 : k = 2 := by rw [← hk, heq]
    subst hk2
    refine ⟨by decide, by simp [h3], by simp, by simp, hcons _ ?_⟩
    simp only [line_records, user_of_scan, heq, List.take_of_length_le h1,
      List.take_of_length_le h2]
    simp
  · rw [if_neg h3] at heq
    by_cases h4 : spec_digits (spec_after_numeral F) = []
    · rw [if_pos h4] at heq
      have hk2 : k = 3 := by rw [← hk, heq]
      subst hk2
      refine ⟨by decide, by simp [h3], by simp [h4], by simp, hcons _ ?_⟩
      simp only [line_records, user_of_scan, heq, List.take_of_length_le h1,
        List.take_of_length_le h2]
      simp
    · rw [if_neg h4] at heq
      by_cases h5 : spec_digits (spec_after_numeral (spec_after_numeral F)) = []
      · rw [if_pos h5] at heq
        have hk2 : k = 4 := by rw [← hk, heq]
        subst hk2
        refine ⟨by decide, by simp [h3], by simp [h4], by simp [h5], hcons _ ?_⟩
        simp only [line_records, user_of_scan, heq, List.take_of_length_le h1,
          List.take_of_length_le h2]
        simp
      · rw [if_neg h5] at heq
        cases h6 : scan_s 31 (spec_after_numeral (spec_after_numeral (spec_after_numeral F)))
          with
        | none =>
          rw [h6] at heq
          have hk2 : k = 5 := by rw [← hk, heq]
          subst hk2
          refine ⟨by decide, by simp [h3], by simp [h4], by simp [h5], hcons _ ?_⟩
          simp only [line_records, user_of_scan, heq, List.take_of_length_le h1,
            List.take_of_length_le h2]
          simp
        | some p =>
          rw [h6] at heq
          have hk2 : k = 6 := by rw [← hk, heq]
          omega

/-- Witness for C7: a store of three lines whose second line is `alice h 7`, on which three
fields parse: the record of `alice` has `games_played = 7`, the other counters 0 and an empty
`last_login`, and stands between the records of the first and of the third line. -/
theorem load_users_partial_line_witness :
    load_users ⟨some (ascii "bob x 1 2 3 t\n" ++ (ascii "alice h 7\n"
        ++ ascii "carol c -4 +5\n")), none⟩ =
      [{ username := ascii "bob", hash := ascii "x", games_played := 1, games_won := 2,
         quizzes := 3, last_login := ascii "t" },
       { username := ascii "alice", hash := ascii "h", games_played := 7, games_won := 0,
         quizzes := 0, last_login := [] },
       { username := ascii "carol", hash := ascii "c", games_played := -4, games_won := 5,
         quizzes := 0, last_login := [] }] :=
  (load_users_partial_line (ascii "bob x 1 2 3 t\n") (ascii "alice h 7\n")
    (ascii "carol c -4 +5\n") none (ascii "alice") (ascii "h") [ascii "7"] 3
    (Or.inr ⟨ascii "bob x 1 2 3 t", by decide!⟩) (by decide!) (by decide!) (by decide!)
    (by decide!) (by decide!) (by decide)).2.2.2.2.trans (by decide!)

/-! ## Theorems: authentication workflow -/

theorem cstr_no_nul (buf : List Nat) : 0 ∉ cstr buf := by
  intro h
  have := List.mem_takeWhile_imp h
  simp at this

theorem fgets_count_le_room : ∀ (room : Nat) (s : List Nat), fgets_count room s ≤ room := by
  intro room
  induction room with
  | zero => intro s; cases s <;> simp [fgets_count]
  | succ room ih =>
    intro s
    cases s with
    | nil => simp [fgets_count]
    | cons a t =>
      by_cases ha : a = 10
      · simp [fgets_count, ha]
      · have := ih t
        simp only [fgets_count, if_neg ha]
        omega

theorem length_cstr_le (buf : List Nat) : (cstr buf).length ≤ buf.length := by
  unfold cstr
  rw [takeWhile_eq_take]
  simp only [List.length_take]
  omega

/-- What `read_line` leaves in the buffer holds no NUL and at most `n - 1` bytes. -/
theorem read_line_spec (n : Nat) (stdin : List Nat) :
    0 ∉ (read_line n stdin).1 ∧ (read_line n stdin).1.length ≤ n - 1 := by
  unfold read_line
  cases hf : fgets n stdin with
  | none => simp
  | some p =>
    obtain ⟨buf, rest⟩ := p
    have hbuf : buf.length ≤ n - 1 := by
      unfold fgets at hf
      by_cases hs : stdin = []
      · simp [hs] at hf
      · simp only [if_neg hs, Option.some.injEq, Prod.mk.injEq] at hf
        rw [← hf.1, List.length_take]
        have := fgets_count_le_room (n - 1) stdin
        omega
    have hlen := length_cstr_le buf
    have hnul := cstr_no_nul buf
    simp only
    split
    · refine ⟨fun h => hnul (List.mem_of_mem_dropLast h), ?_⟩
      rw [List.length_dropLast]
      omega
    · exact ⟨hnul, Nat.le_trans hlen hbuf⟩

theorem strlen_of_not_mem (x : List Nat) (h : 0 ∉ x) : strlen x = x.length := by
  unfold strlen
  have e : x.takeWhile (· ≠ 0) = x := by
    rw [List.takeWhile_eq_self_iff]
    intro b hb
    have : b ≠ 0 := fun e => h (e ▸ hb)
    simpa using this
  rw [e]

theorem strlen_read_line_zero (n : Nat) (stdin : List Nat) :
    strlen (read_line n stdin).1 = 0 ↔ (read_line n stdin).1 = [] := by
  rw [strlen_of_not_mem _ (read_line_spec n stdin).1]
  exact List.length_eq_zero

theorem sha256_hex_length (input : List Nat) : (sha256_hex input).length = 64 := by
  have e : ∃ state, sha256_hex input = (hash_bytes state).flatMap hex02 := ⟨_, rfl⟩
  obtain ⟨state, hs⟩ := e
  rw [hs, length_flatMap_hex02]
  simp [hash_bytes]

theorem save_users_ret (env : Env) (fs : FS) (arr : List User) :
    (save_users env fs arr).2 = if env.tmp_opens then 1 else 0 := by
  unfold save_users
  by_cases h : env.tmp_opens = true <;> simp [h]

theorem modify_at_eq_set (f : User → User) : ∀ (arr : List User) (i : Nat) (u : User),
    arr[i]? = some u → modify_at f arr i = arr.set i (f u) := by
  intro arr
  induction arr with
  | nil => intro i u h; simp at h
  | cons a rest ih =>
    intro i u h
    cases i with
    | zero =>
      simp only [List.getElem?_cons_zero, Option.some.injEq] at h
      subst h
      rfl
    | succ i =>
      simp only [List.getElem?_cons_succ] at h
      simp only [modify_at, List.set_cons_succ, ih i u h]

/-- What `find_user_index` returns: `-1` when no record has the username, else the least index
of a record that has it. -/
theorem find_user_index_cases (arr : List User) (username : List Nat) :
    (find_user_index arr username = -1 ∧ ∀ u ∈ arr, u.username ≠ username) ∨
    (∃ (i : Nat) (u : User), find_user_index arr username = (i : Int) ∧ arr[i]? = some u ∧
      u.username = username ∧ ∀ j v, j < i → arr[j]? = some v → v.username ≠ username) := by
  unfold find_user_index
  rcases find_loop_cases username arr 0 with h | ⟨i, u, h1, h2, h3, h4⟩
  · exact Or.inl h
  · refine Or.inr ⟨i, u, ?_, h2, h3, h4⟩
    rw [h1]; simp

theorem getD_of_getElem? (arr : List User) (i : Nat) (u d : User) (h : arr[i]? = some u) :
    arr.getD i d = u := by
  rw [List.getD_eq_getElem?_getD, h]
  rfl

/-- The four ways `login_flow` ends, with everything it returns. -/
theorem login_flow_cases (env : Env) (tm : Tm) (fs : FS) (stdin : List Nat) :
    (load_users fs = [] ∧
      login_flow env tm fs stdin =
        { ret := 0,
          out := ascii "Enter username: " ++ ascii "Enter password: "
            ++ ascii "No users. Please sign up first.\n",
          stdin := (read_line 128 (read_line 64 stdin).2).2, user := none, fs := fs,
          loaded := some (load_users fs), saved := none }) ∨
    (load_users fs ≠ [] ∧ find_user_index (load_users fs) (read_line 64 stdin).1 = -1 ∧
      (∀ u ∈ load_users fs, u.username ≠ (read_line 64 stdin).1) ∧
      login_flow env tm fs stdin =
        { ret := 0,
          out := ascii "Enter username: " ++ ascii "Enter password: "
            ++ ascii "User not found.\n",
          stdin := (read_line 128 (read_line 64 stdin).2).2, user := none, fs := fs,
          loaded := some (load_users fs), saved := none }) ∨
    (∃ (i : Nat) (u : User), load_users fs ≠ [] ∧
      find_user_index (load_users fs) (read_line 64 stdin).1 = (i : Int) ∧
      (load_users fs)[i]? = some u ∧ u.username = (read_line 64 stdin).1 ∧
      (∀ j v, j < i → (load_users fs)[j]? = some v → v.username ≠ (read_line 64 stdin).1) ∧
      u.hash ≠ sha256_hex (read_line 128 (read_line 64 stdin).2).1 ∧
      login_flow env tm fs stdin =
        { ret := 0,
          out := ascii "Enter username: " ++ ascii "Enter password: "
            ++ ascii "Authentication failed.\n",
          stdin := (read_line 128 (read_line 64 stdin).2).2, user := none, fs := fs,
          loaded := some (load_users fs), saved := none }) ∨
    (∃ (i : Nat) (u : User), load_users fs ≠ [] ∧
      find_user_index (load_users fs) (read_line 64 stdin).1 = (i : Int) ∧
      (load_users fs)[i]? = some u ∧ u.username = (read_line 64 stdin).1 ∧
      (∀ j v, j < i → (load_users fs)[j]? = some v → v.username ≠ (read_line 64 stdin).1) ∧
      u.hash = sha256_hex (read_line 128 (read_line 64 stdin).2).1 ∧
      login_flow env tm fs stdin =
        { ret := 1,
          out := ascii "Enter username: " ++ ascii "Enter password: "
            ++ ascii "Login successful. Welcome, " ++ (read_line 64 stdin).1 ++ ascii "!\n",
          stdin := (read_line 128 (read_line 64 stdin).2).2,
          user := some (read_line 64 stdin).1,
          fs := (save_users env fs ((load_users fs).set i
            { u with last_login := (now_iso tm).take 31 })).1,
          loaded := some (load_users fs),
          saved := some ((load_users fs).set i
            { u with last_login := (now_iso tm).take 31 }) }) := by
  by_cases harr : load_users fs = []
  · left
    refine ⟨harr, ?_⟩
    unfold login_flow
    simp [harr]
  · right
    have hlen : ¬ (load_users fs).length = 0 := by
      intro h; exact harr (List.length_eq_zero.mp h)
    rcases find_user_index_cases (load_users fs) (read_line 64 stdin).1 with
      ⟨hf, hno⟩ | ⟨i, u, hf, hget, hname, hfirst⟩
    · left
      refine ⟨harr, hf, hno, ?_⟩
      unfold login_flow
      simp only [hlen, if_false, hf, if_true]
    · right
      have hne : ¬ ((i : Int) = -1) := by omega
      by_cases hh : u.hash = sha256_hex (read_line 128 (read_line 64 stdin).2).1
      · right
        refine ⟨i, u, harr, hf, hget, hname, hfirst, hh, ?_⟩
        unfold login_flow
        simp only [hlen, if_false, hf, hne, Int.toNat_ofNat,
          getD_of_getElem? _ _ _ _ hget, hh, ne_eq, not_true_eq_false,
          modify_at_eq_set _ _ _ _ hget,
          List.take_of_length_le (show (read_line 64 stdin).1.length ≤ 63 from
            (read_line_spec 64 stdin).2)]
      · left
        refine ⟨i, u, harr, hf, hget, hname, hfirst, hh, ?_⟩
        unfold login_flow
        simp only [hlen, if_false, hf, hne, Int.toNat_ofNat,
          getD_of_getElem? _ _ _ _ hget, hh, ne_eq, not_false_eq_true, if_true]

/-- The five ways `signup_flow` ends, with everything it returns. -/
theorem signup_flow_cases (env : Env) (fs : FS) (stdin : List Nat) :
    ((read_line 64 stdin).1 = [] ∧
      signup_flow env fs stdin =
        { ret := 0, out := ascii "Choose a username: " ++ ascii "Username cannot be empty.\n",
          stdin := (read_line 64 stdin).2, user := none, fs := fs, loaded := none,
          saved := none }) ∨
    ((read_line 64 stdin).1 ≠ [] ∧ (read_line 128 (read_line 64 stdin).2).1 = [] ∧
      signup_flow env fs stdin =
        { ret := 0,
          out := ascii "Choose a username: " ++ ascii "Choose a password: "
            ++ ascii "Password cannot be empty.\n",
          stdin := (read_line 128 (read_line 64 stdin).2).2, user := none, fs := fs,
          loaded := none, saved := none }) ∨
    ((read_line 64 stdin).1 ≠ [] ∧ (read_line 128 (read_line 64 stdin).2).1 ≠ [] ∧
      find_user_index (load_users fs) (read_line 64 stdin).1 ≠ -1 ∧
      signup_flow env fs stdin =
        { ret := 0,
          out := ascii "Choose a username: " ++ ascii "Choose a password: "
            ++ ascii "User already exists.\n",
          stdin := (read_line 128 (read_line 64 stdin).2).2, user := none, fs := fs,
          loaded := some (load_users fs), saved := none }) ∨
    ((read_line 64 stdin).1 ≠ [] ∧ (read_line 128 (read_line 64 stdin).2).1 ≠ [] ∧
      find_user_index (load_users fs) (read_line 64 stdin).1 = -1 ∧
      env.tmp_opens = false ∧
      signup_flow env fs stdin =
        { ret := 0,
          out := ascii "Choose a username: " ++ ascii "Choose a password: "
            ++ ascii "Error saving user.\n",
          stdin := (read_line 128 (read_line 64 stdin).2).2, user := none, fs := fs,
          loaded := some (load_users fs),
          saved := some (load_users fs ++ [new_user (read_line 64 stdin).1
            (read_line 128 (read_line 64 stdin).2).1]) }) ∨
    ((read_line 64 stdin).1 ≠ [] ∧ (read_line 128 (read_line 64 stdin).2).1 ≠ [] ∧
      find_user_index (load_users fs) (read_line 64 stdin).1 = -1 ∧
      env.tmp_opens = true ∧
      signup_flow env fs stdin =
        { ret := 1,
          out := ascii "Choose a username: " ++ ascii "Choose a password: "
            ++ ascii "Signup successful! You can now log in.\n",
          stdin := (read_line 128 (read_line 64 stdin).2).2, user := none,
          fs := (save_users env fs (load_users fs ++ [new_user (read_line 64 stdin).1
            (read_line 128 (read_line 64 stdin).2).1])).1,
          loaded := some (load_users fs),
          saved := some (load_users fs ++ [new_user (read_line 64 stdin).1
            (read_line 128 (read_line 64 stdin).2).1]) }) := by
  have hu63 : (read_line 64 stdin).1.take 63 = (read_line 64 stdin).1 :=
    List.take_of_length_le (read_line_spec 64 stdin).2
  have hh64 : (sha256_hex (read_line 128 (read_line 64 stdin).2).1).take 64
      = sha256_hex (read_line 128 (read_line 64 stdin).2).1 :=
    List.take_of_length_le (Nat.le_of_eq (sha256_hex_length _))
  by_cases hu : (read_line 64 stdin).1 = []
  · left
    refine ⟨hu, ?_⟩
    unfold signup_flow
    simp only [(strlen_read_line_zero 64 stdin).mpr hu, if_true]
  · right
    have hu0 : ¬ strlen (read_line 64 stdin).1 = 0 :=
      fun h => hu ((strlen_read_line_zero 64 stdin).mp h)
    by_cases hp : (read_line 128 (read_line 64 stdin).2).1 = []
    · left
      refine ⟨hu, hp, ?_⟩
      unfold signup_flow
      simp only [hu0, if_false, (strlen_read_line_zero 128 _).mpr hp, if_true]
    · right
      have hp0 : ¬ strlen (read_line 128 (read_line 64 stdin).2).1 = 0 :=
        fun h => hp ((strlen_read_line_zero 128 _).mp h)
      by_cases hf : find_user_index (load_users fs) (read_line 64 stdin).1 = -1
      · right
        by_cases ho : env.tmp_opens = true
        · right
          refine ⟨hu, hp, hf, ho, ?_⟩
          unfold signup_flow
          simp only [hu0, hp0, if_false, hf, ne_eq, not_true_eq_false, save_users_ret, ho,
            if_true, hu63, hh64, new_user]
          simp
        · left
          have ho2 : env.tmp_opens = false := by simpa using ho
          refine ⟨hu, hp, hf, ho2, ?_⟩
          unfold signup_flow
          simp only [hu0, hp0, if_false, hf, ne_eq, not_true_eq_false, save_users_ret, ho2,
            if_true, hu63, hh64, new_user, save_users_open_failure _ _ _ ho2]
      · left
        refine ⟨hu, hp, hf, ?_⟩
        unfold signup_flow
        simp only [hu0, hp0, if_false, ne_eq, hf, not_false_eq_true, if_true]

/-- The two ways `increment_games_played` ends. -/
theorem increment_games_played_cases (env : Env) (fs : FS) (username : List Nat) (won : Int) :
    ((load_users fs = [] ∨ find_user_index (load_users fs) username = -1) ∧
      increment_games_played env fs username won =
        { fs := fs, loaded := some (load_users fs), saved := none }) ∨
    (∃ (i : Nat) (u : User), load_users fs ≠ [] ∧
      find_user_index (load_users fs) username = (i : Int) ∧
      (load_users fs)[i]? = some u ∧ u.username = username ∧
      (∀ j v, j < i → (load_users fs)[j]? = some v → v.username ≠ username) ∧
      increment_games_played env fs username won =
        { fs := (save_users env fs ((load_users fs).set i
            { u with
              games_played := to_int (u.games_played + 1),
              games_won := if won ≠ 0 then to_int (u.games_won + 1) else u.games_won })).1,
          loaded := some (load_users fs),
          saved := some ((load_users fs).set i
            { u with
              games_played := to_int (u.games_played + 1),
              games_won := if won ≠ 0 then to_int (u.games_won + 1) else u.games_won }) }) := by
  by_cases harr : load_users fs = []
  · left
    refine ⟨Or.inl harr, ?_⟩
    unfold increment_games_played
    simp [harr]
  · have hlen : ¬ (load_users fs).length = 0 := by
      intro h; exact harr (List.length_eq_zero.mp h)
    rcases find_user_index_cases (load_users fs) username with
      ⟨hf, _⟩ | ⟨i, u, hf, hget, hname, hfirst⟩
    · left
      refine ⟨Or.inr hf, ?_⟩
      unfold increment_games_played
      simp only [hlen, if_false, hf, ne_eq, not_true_eq_false]
    · right
      have hne : ¬ ((i : Int) = -1) := by omega
      refine ⟨i, u, harr, hf, hget, hname, hfirst, ?_⟩
      unfold increment_games_played
      simp only [hlen, if_false, hf, ne_eq, hne, not_false_eq_true, if_true, Int.toNat_ofNat,
        modify_at_eq_set _ _ _ _ hget]

/-- The two ways `increment_quiz` ends. -/
theorem increment_quiz_cases (env : Env) (fs : FS) (username : List Nat) :
    ((load_users fs = [] ∨ find_user_index (load_users fs) username = -1) ∧
      increment_quiz env fs username =
        { fs := fs, loaded := some (load_users fs), saved := none }) ∨
    (∃ (i : Nat) (u : User), load_users fs ≠ [] ∧
      find_user_index (load_users fs) username = (i : Int) ∧
      (load_users fs)[i]? = some u ∧ u.username = username ∧
      (∀ j v, j < i → (load_users fs)[j]? = some v → v.username ≠ username) ∧
      increment_quiz env fs username =
        { fs := (save_users env fs ((load_users fs).set i
            { u with quizzes := to_int (u.quizzes + 1) })).1,
          loaded := some (load_users fs),
          saved := some ((load_users fs).set i
            { u with quizzes := to_int (u.quizzes + 1) }) }) := by
  by_cases harr : load_users fs = []
  · left
    refine ⟨Or.inl harr, ?_⟩
    unfold increment_quiz
    simp [harr]
  · have hlen : ¬ (load_users fs).length = 0 := by
      intro h; exact harr (List.length_eq_zero.mp h)
    rcases find_user_index_cases (load_users fs) username with
      ⟨hf, _⟩ | ⟨i, u, hf, hget, hname, hfirst⟩
    · left
      refine ⟨Or.inr hf, ?_⟩
      unfold increment_quiz
      simp only [hlen, if_false, hf, ne_eq, not_true_eq_false]
    · right
      have hne : ¬ ((i : Int) = -1) := by omega
      refine ⟨i, u, harr, hf, hget, hname, hfirst, ?_⟩
      unfold increment_quiz
      simp only [hlen, if_false, hf, ne_eq, hne, not_false_eq_true, if_true, Int.toNat_ofNat,
        modify_at_eq_set _ _ _ _ hget]

theorem to_int_range (v : Int) : -2147483648 ≤ to_int v ∧ to_int v ≤ 2147483647 := by
  unfold to_int; omega

theorem scan_d_range (s : List Nat) (v : Int) (r : List Nat) (h : scan_d s = some (v, r)) :
    -2147483648 ≤ v ∧ v ≤ 2147483647 := by
  unfold scan_d at h
  simp only at h
  split at h
  · simp at h
  · split at h
    · simp only [Option.some.injEq, Prod.mk.injEq] at h
      rw [← h.1]
      exact to_int_range _
    · simp at h

/-- Every counter that `sscanf` stores is a value of an `int`. -/
theorem sscanf_user_range (s : List Nat) :
    (-2147483648 ≤ (sscanf_user s).gp ∧ (sscanf_user s).gp ≤ 2147483647) ∧
    (-2147483648 ≤ (sscanf_user s).gw ∧ (sscanf_user s).gw ≤ 2147483647) ∧
    (-2147483648 ≤ (sscanf_user s).q ∧ (sscanf_user s).q ≤ 2147483647) := by
  unfold sscanf_user
  split
  · simp
  · split
    · simp
    · split
      · simp
      · rename_i h3
        have r3 := scan_d_range _ _ _ h3
        split
        · exact ⟨r3, by simp, by simp⟩
        · rename_i h4
          have r4 := scan_d_range _ _ _ h4
          split
          · exact ⟨r3, r4, by simp⟩
          · rename_i h5
            have r5 := scan_d_range _ _ _ h5
            split <;> exact ⟨r3, r4, r5⟩

theorem mem_load_loop : ∀ (fuel : Nat) (s : List Nat) (acc : List User) (u : User),
    u ∈ load_loop fuel s acc →
    u ∈ acc ∨ ∃ line, u = user_of_scan (sscanf_user (cstr line)) ∧
      ¬ (sscanf_user (cstr line)).items < 2 := by
  intro fuel
  induction fuel with
  | zero => intro s acc u h; left; simpa [load_loop] using h
  | succ fuel ih =>
    intro s acc u h
    rw [load_loop] at h
    split at h
    · exact Or.inl h
    · rename_i line rest _
      simp only at h
      split at h
      · exact ih _ _ _ h
      · rename_i hitems
        rcases ih _ _ _ h with h1 | h1
        · rcases List.mem_append.mp h1 with h2 | h2
          · exact Or.inl h2
          · right
            simp only [List.mem_singleton] at h2
            exact ⟨line, h2, hitems⟩
        · exact Or.inr h1

/-- The counters of every record that `load_users` returns are values of an `int`. -/
theorem load_users_range (fs : FS) (u : User) (h : u ∈ load_users fs) :
    (-2147483648 ≤ u.games_played ∧ u.games_played ≤ 2147483647) ∧
    (-2147483648 ≤ u.games_won ∧ u.games_won ≤ 2147483647) ∧
    (-2147483648 ≤ u.quizzes ∧ u.quizzes ≤ 2147483647) := by
  unfold load_users at h
  split at h
  · simp at h
  · rcases mem_load_loop _ _ _ _ h with h1 | ⟨line, h1, _⟩
    · simp at h1
    · obtain ⟨r1, r2, r3⟩ := sscanf_user_range (cstr line)
      subst h1
      simp only [user_of_scan]
      refine ⟨?_, ?_, ?_⟩
      · split <;> [exact r1; simp]
      · split <;> [exact r2; simp]
      · split <;> [exact r3; simp]

/-! ### Claims about the authentication workflow -/

/-- C11: for every persisted store, when the username read is empty, the password read is
empty, or `find_user_index` finds the username among the loaded records, `signup_flow`
returns `0`, leaves the file system unchanged and saves nothing; in the two empty-input cases
`load_users` is not called, in the third the report is `User already exists.`. -/
theorem signup_flow_rejects (env : Env) (fs : FS) (stdin : List Nat)
    (h : (read_line 64 stdin).1 = [] ∨ (read_line 128 (read_line 64 stdin).2).1 = [] ∨
      find_user_index (load_users fs) (read_line 64 stdin).1 ≠ -1) :
    (signup_flow env fs stdin).ret = 0 ∧ (signup_flow env fs stdin).fs = fs ∧
    (signup_flow env fs stdin).saved = none ∧
    ((read_line 64 stdin).1 = [] ∨ (read_line 128 (read_line 64 stdin).2).1 = [] →
      (signup_flow env fs stdin).loaded = none) ∧
    ((read_line 64 stdin).1 ≠ [] → (read_line 128 (read_line 64 stdin).2).1 ≠ [] →
      (signup_flow env fs stdin).out = ascii "Choose a username: "
        ++ ascii "Choose a password: " ++ ascii "User already exists.\n") := by
  rcases signup_flow_cases env fs stdin with ⟨hu, ho⟩ | ⟨hu, hp, ho⟩ | ⟨hu, hp, hf, ho⟩ |
    ⟨hu, hp, hf, _, _⟩ | ⟨hu, hp, hf, _, _⟩
  · rw [ho]
    exact ⟨rfl, rfl, rfl, fun _ => rfl, fun h1 => absurd hu h1⟩
  · rw [ho]
    exact ⟨rfl, rfl, rfl, fun _ => rfl, fun _ h2 => absurd hp h2⟩
  · rw [ho]
    refine ⟨rfl, rfl, rfl, fun h1 => ?_, fun _ _ => rfl⟩
    rcases h1 with h1 | h1
    · exact absurd h1 hu
    · exact absurd h1 hp
  · rcases h with h | h | h
    · exact absurd h hu
    · exact absurd h hp
    · exact absurd hf h
  · rcases h with h | h | h
    · exact absurd h hu
    · exact absurd h hp
    · exact absurd hf h

/-- Witness for C11: a second signup of `alice`. -/
theorem signup_flow_rejects_witness :
    (signup_flow ⟨true, none⟩ ⟨some (user_line (example_alice 0 0 0 (ascii "-"))), none⟩
      (ascii "alice\nother\n")).ret = 0 ∧
    (signup_flow ⟨true, none⟩ ⟨some (user_line (example_alice 0 0 0 (ascii "-"))), none⟩
      (ascii "alice\nother\n")).fs
      = ⟨some (user_line (example_alice 0 0 0 (ascii "-"))), none⟩ :=
  ⟨(signup_flow_rejects ⟨true, none⟩
      ⟨some (user_line (example_alice 0 0 0 (ascii "-"))), none⟩ (ascii "alice\nother\n")
      (Or.inr (Or.inr (by decide!)))).1,
   (signup_flow_rejects ⟨true, none⟩
      ⟨some (user_line (example_alice 0 0 0 (ascii "-"))), none⟩ (ascii "alice\nother\n")
      (Or.inr (Or.inr (by decide!)))).2.1⟩

/-- C12, as stated, fails: the record that a successful signup of `alice` passes to
`save_users` has the last login `-`, not the empty string. -/
theorem signup_flow_last_login_dash :
    (signup_flow ⟨true, none⟩ ⟨none, none⟩ (ascii "alice\nsecret1\n")).ret = 1 ∧
    (signup_flow ⟨true, none⟩ ⟨none, none⟩ (ascii "alice\nsecret1\n")).saved
      = some [{ username := ascii "alice", hash := sha256_hex (ascii "secret1"),
                games_played := 0, games_won := 0, quizzes := 0, last_login := ascii "-" }] ∧
    (signup_flow ⟨true, none⟩ ⟨none, none⟩ (ascii "alice\nsecret1\n")).saved
      ≠ some [{ username := ascii "alice", hash := sha256_hex (ascii "secret1"),
                games_played := 0, games_won := 0, quizzes := 0, last_login := [] }] := by
  decide!

/-- C12, amended: for every store, non-empty username not found in it and non-empty
password, a signup that returns `1` passes to `save_users` the loaded records unchanged and in
order, followed by exactly one new record: the given username, the hash
`sha256_hex password`, three zero counters and the last login `-`; when every byte fits, the
persisted file then holds the lines of these records. -/
theorem signup_flow_appends (env : Env) (fs : FS) (stdin : List Nat)
    (hu : (read_line 64 stdin).1 ≠ [])
    (hp : (read_line 128 (read_line 64 stdin).2).1 ≠ [])
    (hf : find_user_index (load_users fs) (read_line 64 stdin).1 = -1)
    (hret : (signup_flow env fs stdin).ret = 1) :
    (signup_flow env fs stdin).loaded = some (load_users fs) ∧
    (signup_flow env fs stdin).saved = some (load_users fs ++
      [{ username := (read_line 64 stdin).1,
         hash := sha256_hex (read_line 128 (read_line 64 stdin).2).1,
         games_played := 0, games_won := 0, quizzes := 0, last_login := ascii "-" }]) ∧
    ((∀ room, env.tmp_room = some room →
        (((load_users fs ++ [new_user (read_line 64 stdin).1
          (read_line 128 (read_line 64 stdin).2).1]).map user_line).flatten).length ≤ room) →
      (signup_flow env fs stdin).fs =
        ⟨some (text_of_lines ((load_users fs ++ [new_user (read_line 64 stdin).1
          (read_line 128 (read_line 64 stdin).2).1]).map spec_line) []), none⟩) := by
  rcases signup_flow_cases env fs stdin with ⟨h1, _⟩ | ⟨_, h2, _⟩ | ⟨_, _, h3, _⟩ |
    ⟨_, _, _, _, ho⟩ | ⟨_, _, _, hopen, ho⟩
  · exact absurd h1 hu
  · exact absurd h2 hp
  · exact absurd hf h3
  · rw [ho] at hret
    simp at hret
  · rw [ho]
    refine ⟨rfl, rfl, fun hroom => ?_⟩
    simp only
    rw [save_users_ok env fs _ hopen hroom, lines_eq_text]

/-- Witness for C12: the signup of `alice` on a missing file. -/
theorem signup_flow_appends_witness :
    (signup_flow ⟨true, none⟩ ⟨none, none⟩ (ascii "alice\nsecret1\n")).saved
      = some (load_users ⟨none, none⟩ ++
        [{ username := (read_line 64 (ascii "alice\nsecret1\n")).1,
           hash := sha256_hex (read_line 128 (read_line 64 (ascii "alice\nsecret1\n")).2).1,
           games_played := 0, games_won := 0, quizzes := 0, last_login := ascii "-" }]) :=
  (signup_flow_appends ⟨true, none⟩ ⟨none, none⟩ (ascii "alice\nsecret1\n")
    (by decide!) (by decide!) (by decide!) (by decide!)).2.1

/-- C13: for every store and input, `login_flow` decides in this order: with no loaded record
it returns `0` and reports `No users. Please sign up first.`; otherwise, when
`find_user_index` returns `-1`, it returns `0` and reports `User not found.`; otherwise, with
`u` the record found, it returns `0` and reports `Authentication failed.` when
`u.hash` differs from `sha256_hex password`, and returns `1`, hands back the username and
greets it when they are equal; so it returns `1` exactly when a record is found whose hash
equals the digest. -/
theorem login_flow_outcome (env : Env) (tm : Tm) (fs : FS) (stdin : List Nat) :
    (load_users fs = [] →
      (login_flow env tm fs stdin).ret = 0 ∧
      (login_flow env tm fs stdin).out = ascii "Enter username: " ++ ascii "Enter password: "
        ++ ascii "No users. Please sign up first.\n") ∧
    (load_users fs ≠ [] → find_user_index (load_users fs) (read_line 64 stdin).1 = -1 →
      (login_flow env tm fs stdin).ret = 0 ∧
      (login_flow env tm fs stdin).out = ascii "Enter username: " ++ ascii "Enter password: "
        ++ ascii "User not found.\n") ∧
    (load_users fs ≠ [] → ∀ (i : Nat) (u : User),
      find_user_index (load_users fs) (read_line 64 stdin).1 = (i : Int) →
      (load_users fs)[i]? = some u →
      (u.hash ≠ sha256_hex (read_line 128 (read_line 64 stdin).2).1 →
        (login_flow env tm fs stdin).ret = 0 ∧
        (login_flow env tm fs stdin).out = ascii "Enter username: "
          ++ ascii "Enter password: " ++ ascii "Authentication failed.\n") ∧
      (u.hash = sha256_hex (read_line 128 (read_line 64 stdin).2).1 →
        (login_flow env tm fs stdin).ret = 1 ∧
        (login_flow env tm fs stdin).user = some (read_line 64 stdin).1 ∧
        (login_flow env tm fs stdin).out = ascii "Enter username: "
          ++ ascii "Enter password: " ++ ascii "Login successful. Welcome, "
          ++ (read_line 64 stdin).1 ++ ascii "!\n")) ∧
    ((login_flow env tm fs stdin).ret = 1 ↔
      load_users fs ≠ [] ∧ ∃ (i : Nat) (u : User),
        find_user_index (load_users fs) (read_line 64 stdin).1 = (i : Int) ∧
        (load_users fs)[i]? = some u ∧
        u.hash = sha256_hex (read_line 128 (read_line 64 stdin).2).1) := by
  rcases login_flow_cases env tm fs stdin with ⟨ha, ho⟩ | ⟨ha, hf, _, ho⟩ |
    ⟨i, u, ha, hf, hg, _, _, hh, ho⟩ | ⟨i, u, ha, hf, hg, _, _, hh, ho⟩
  · rw [ho]
    refine ⟨fun _ => ⟨rfl, rfl⟩, fun h => absurd ha h, fun h => absurd ha h, ?_⟩
    constructor
    · intro h; simp at h
    · intro h; exact absurd ha h.1
  · rw [ho]
    refine ⟨fun h => absurd h ha, fun _ _ => ⟨rfl, rfl⟩, fun _ j v hj _ => ?_, ?_⟩
    · rw [hf] at hj; omega
    · constructor
      · intro h; simp at h
      · rintro ⟨_, j, v, hj, _⟩
        rw [hf] at hj; omega
  · rw [ho]
    refine ⟨fun h => absurd h ha, fun _ h => ?_, fun _ j v hj hv => ?_, ?_⟩
    · rw [hf] at h; omega
    · have hij : j = i := by rw [hf] at hj; omega
      subst hij
      rw [hg] at hv
      simp only [Option.some.injEq] at hv
      subst hv
      exact ⟨fun _ => ⟨rfl, rfl⟩, fun h => absurd h hh⟩
    · constructor
      · intro h; simp at h
      · rintro ⟨_, j, v, hj, hv, hvh⟩
        have hij : j = i := by rw [hf] at hj; omega
        subst hij
        rw [hg] at hv
        simp only [Option.some.injEq] at hv
        subst hv
        exact absurd hvh hh
  · rw [ho]
    refine ⟨fun h => absurd h ha, fun _ h => ?_, fun _ j v hj hv => ?_, ?_⟩
    · rw [hf] at h; omega
    · have hij : j = i := by rw [hf] at hj; omega
      subst hij
      rw [hg] at hv
      simp only [Option.some.injEq] at hv
      subst hv
      exact ⟨fun h => absurd hh h, fun _ => ⟨rfl, rfl, rfl⟩⟩
    · exact ⟨fun _ => ⟨ha, i, u, hf, hg, hh⟩, fun _ => rfl⟩

/-- Witness for C13: the login of `alice` with the password `abc`, whose digest is stored. -/
theorem login_flow_outcome_witness :
    (login_flow ⟨true, none⟩ ⟨2024, 5, 1, 10, 20, 30⟩
      ⟨some (user_line (example_alice 0 0 0 (ascii "-"))), none⟩ (ascii "alice\nabc\n")).ret
      = 1 ∧
    (login_flow ⟨true, none⟩ ⟨2024, 5, 1, 10, 20, 30⟩
      ⟨some (user_line (example_alice 0 0 0 (ascii "-"))), none⟩ (ascii "alice\nabc\n")).user
      = some (read_line 64 (ascii "alice\nabc\n")).1 :=
  ⟨((((login_flow_outcome ⟨true, none⟩ ⟨2024, 5, 1, 10, 20, 30⟩
      ⟨some (user_line (example_alice 0 0 0 (ascii "-"))), none⟩ (ascii "alice\nabc\n")).2.2.1
      (by decide!) 0 (example_alice 0 0 0 (ascii "-")) (by decide!) (by decide!)).2)
      (by decide!)).1,
   ((((login_flow_outcome ⟨true, none⟩ ⟨2024, 5, 1, 10, 20, 30⟩
      ⟨some (user_line (example_alice 0 0 0 (ascii "-"))), none⟩ (ascii "alice\nabc\n")).2.2.1
      (by decide!) 0 (example_alice 0 0 0 (ascii "-")) (by decide!) (by decide!)).2)
      (by decide!)).2.1⟩

theorem now_iso_length (tm : Tm) (h : tm.year < 10 ^ 16) : (now_iso tm).length ≤ 31 := by
  have := dec_digits_length (tm.year + 1) tm.year 15 h
  simp only [now_iso, two_digits, List.length_append, List.length_cons, List.length_nil]
  have e : (ascii "-").length = 1 ∧ (ascii "T").length = 1 ∧ (ascii ":").length = 1 := by
    decide
  omega

/-- C14: for every store, a login that returns `1` passes to `save_users` the loaded records
with only the `last_login` of the first record that has the username replaced by the current
timestamp (which is `now_iso tm` for a year of at most 16 digits), and the file system
afterwards is what `save_users` leaves; a login that returns `0` saves nothing and leaves
the file system unchanged. -/
theorem login_flow_frame (env : Env) (tm : Tm) (fs : FS) (stdin : List Nat) :
    ((login_flow env tm fs stdin).ret = 1 →
      ∃ (i : Nat) (u : User), (load_users fs)[i]? = some u ∧
        u.username = (read_line 64 stdin).1 ∧
        (∀ j v, j < i → (load_users fs)[j]? = some v → v.username ≠ (read_line 64 stdin).1) ∧
        (login_flow env tm fs stdin).saved =
          some ((load_users fs).set i { u with last_login := (now_iso tm).take 31 }) ∧
        (login_flow env tm fs stdin).fs = (save_users env fs
          ((load_users fs).set i { u with last_login := (now_iso tm).take 31 })).1 ∧
        (tm.year < 10 ^ 16 → (now_iso tm).take 31 = now_iso tm)) ∧
    ((login_flow env tm fs stdin).ret = 0 →
      (login_flow env tm fs stdin).saved = none ∧ (login_flow env tm fs stdin).fs = fs) ∧
    ((login_flow env tm fs stdin).ret = 0 ∨ (login_flow env tm fs stdin).ret = 1) := by
  rcases login_flow_cases env tm fs stdin with ⟨_, ho⟩ | ⟨_, _, _, ho⟩ |
    ⟨i, u, _, _, _, _, _, _, ho⟩ | ⟨i, u, _, _, hg, hn, hfirst, _, ho⟩
  · rw [ho]
    exact ⟨fun h => by simp at h, fun _ => ⟨rfl, rfl⟩, Or.inl rfl⟩
  · rw [ho]
    exact ⟨fun h => by simp at h, fun _ => ⟨rfl, rfl⟩, Or.inl rfl⟩
  · rw [ho]
    exact ⟨fun h => by simp at h, fun _ => ⟨rfl, rfl⟩, Or.inl rfl⟩
  · rw [ho]
    refine ⟨fun _ => ⟨i, u, hg, hn, hfirst, rfl, rfl, fun hy => ?_⟩, fun h => by simp at h,
      Or.inr rfl⟩
    exact List.take_of_length_le (now_iso_length tm hy)

/-- Witness for C14: the failed login of the unknown `bob` saves nothing and leaves the file
as it was. -/
theorem login_flow_frame_witness :
    (login_flow ⟨true, none⟩ ⟨2024, 5, 1, 10, 20, 30⟩
      ⟨some (user_line (example_alice 0 0 0 (ascii "-"))), none⟩ (ascii "bob\nabc\n")).saved
      = none ∧
    (login_flow ⟨true, none⟩ ⟨2024, 5, 1, 10, 20, 30⟩
      ⟨some (user_line (example_alice 0 0 0 (ascii "-"))), none⟩ (ascii "bob\nabc\n")).fs
      = ⟨some (user_line (example_alice 0 0 0 (ascii "-"))), none⟩ :=
  (login_flow_frame ⟨true, none⟩ ⟨2024, 5, 1, 10, 20, 30⟩
    ⟨some (user_line (example_alice 0 0 0 (ascii "-"))), none⟩ (ascii "bob\nabc\n")).2.1
    (by decide!)

/-- C15, as stated, fails. After the signup of `alice`, a second signup of `alice` with an
empty password returns `0` with `Password cannot be empty.`, not `User already exists.`.
And for a username that holds a space: the signup of `john smith` returns `1` and reports
`You can now log in.`, the file then loads as one record named `john`, the login with the same
name and password returns `0` with `User not found.`, and a second signup of `john smith`
returns `1` again. -/
theorem signup_scenario_differs :
    (signup_flow ⟨true, none⟩ ⟨none, none⟩ (ascii "alice\nsecret1\n")).ret = 1 ∧
    (signup_flow ⟨true, none⟩
      (signup_flow ⟨true, none⟩ ⟨none, none⟩ (ascii "alice\nsecret1\n")).fs
      (ascii "alice\n\n")).out
      = ascii "Choose a username: Choose a password: Password cannot be empty.\n" ∧
    (signup_flow ⟨true, none⟩ ⟨none, none⟩ (ascii "john smith\nsecret1\n")).ret = 1 ∧
    (signup_flow ⟨true, none⟩ ⟨none, none⟩ (ascii "john smith\nsecret1\n")).out
      = ascii "Choose a username: Choose a password: Signup successful! You can now log in.\n" ∧
    (load_users (signup_flow ⟨true, none⟩ ⟨none, none⟩
      (ascii "john smith\nsecret1\n")).fs).map (fun u => u.username) = [ascii "john"] ∧
    (login_flow ⟨true, none⟩ ⟨2024, 5, 1, 10, 20, 30⟩
      (signup_flow ⟨true, none⟩ ⟨none, none⟩ (ascii "john smith\nsecret1\n")).fs
      (ascii "john smith\nsecret1\n")).ret = 0 ∧
    (login_flow ⟨true, none⟩ ⟨2024, 5, 1, 10, 20, 30⟩
      (signup_flow ⟨true, none⟩ ⟨none, none⟩ (ascii "john smith\nsecret1\n")).fs
      (ascii "john smith\nsecret1\n")).out
      = ascii "Enter username: Enter password: User not found.\n" ∧
    (signup_flow ⟨true, none⟩
      (signup_flow ⟨true, none⟩ ⟨none, none⟩ (ascii "john smith\nsecret1\n")).fs
      (ascii "john smith\nother\n")).ret = 1 := by
  decide!

/-- C16 fails on the code for a username that holds a space: the file with the one record
`alice` loads with pairwise distinct usernames; after the signup of `alice smith`, which
returns `1`, it loads as two records that are both named `alice`. -/
theorem signup_with_space_duplicates :
    ((load_users ⟨some (user_line (example_alice 0 0 0 (ascii "-"))), none⟩).map
      fun u => u.username) = [ascii "alice"] ∧
    (signup_flow ⟨true, none⟩ ⟨some (user_line (example_alice 0 0 0 (ascii "-"))), none⟩
      (ascii "alice smith\npw\n")).ret = 1 ∧
    ((load_users (signup_flow ⟨true, none⟩
      ⟨some (user_line (example_alice 0 0 0 (ascii "-"))), none⟩
      (ascii "alice smith\npw\n")).fs).map fun u => u.username)
      = [ascii "alice", ascii "alice"] ∧
    ¬ ([ascii "alice", ascii "alice"] : List (List Nat)).Nodup := by
  decide!

/-- C17, as stated, fails: on a record whose `games_played` is `INT_MAX` the increment does
not add 1; the record saved has `games_played = -2147483648` (the model of the `int`
overflow). -/
theorem increment_games_played_at_int_max :
    load_users ⟨some (user_line (example_alice 2147483647 0 0 (ascii "-"))), none⟩
      = [example_alice 2147483647 0 0 (ascii "-")] ∧
    (increment_games_played ⟨true, none⟩
      ⟨some (user_line (example_alice 2147483647 0 0 (ascii "-"))), none⟩ (ascii "alice")
      1).saved = some [example_alice (-2147483648) 1 0 (ascii "-")] ∧
    (-2147483648 : Int) ≠ 2147483647 + 1 := by
  decide!

/-- C17, amended: for every store and username, with `u` the first record that has the
username: `increment_games_played` saves the loaded records with only `u` changed, its
`games_played` one higher and its `games_won` one higher exactly when `won` is not zero,
provided `games_played` is below `INT_MAX` and, when `won` is not zero, `games_won` is below
`INT_MAX`; `increment_quiz` saves them with only the `quizzes` of `u` one higher, provided it
is below `INT_MAX`; and when the store is empty or the username absent nothing is saved and
the file system is unchanged. -/
theorem increment_adds_one (env : Env) (fs : FS) (username : List Nat) (won : Int) :
    (load_users fs = [] ∨ find_user_index (load_users fs) username = -1 →
      (increment_games_played env fs username won).saved = none ∧
      (increment_games_played env fs username won).fs = fs ∧
      (increment_quiz env fs username).saved = none ∧
      (increment_quiz env fs username).fs = fs) ∧
    (∀ (i : Nat) (u : User), load_users fs ≠ [] →
      find_user_index (load_users fs) username = (i : Int) → (load_users fs)[i]? = some u →
      (u.username = username ∧
        ∀ j v, j < i → (load_users fs)[j]? = some v → v.username ≠ username) ∧
      (u.games_played < 2147483647 → (won ≠ 0 → u.games_won < 2147483647) →
        (increment_games_played env fs username won).saved = some ((load_users fs).set i
          { u with
            games_played := u.games_played + 1,
            games_won := if won ≠ 0 then u.games_won + 1 else u.games_won }) ∧
        (increment_games_played env fs username won).fs = (save_users env fs
          ((load_users fs).set i
            { u with
              games_played := u.games_played + 1,
              games_won := if won ≠ 0 then u.games_won + 1 else u.games_won })).1) ∧
      (u.quizzes < 2147483647 →
        (increment_quiz env fs username).saved = some ((load_users fs).set i
          { u with quizzes := u.quizzes + 1 }) ∧
        (increment_quiz env fs username).fs = (save_users env fs
          ((load_users fs).set i { u with quizzes := u.quizzes + 1 })).1)) := by
  constructor
  · intro h
    rcases increment_games_played_cases env fs username won with ⟨_, ho⟩ |
      ⟨i, u, ha, hf, _, _, _, _⟩
    · rcases increment_quiz_cases env fs username with ⟨_, hq⟩ | ⟨i, u, ha, hf, _, _, _, _⟩
      · rw [ho, hq]; exact ⟨rfl, rfl, rfl, rfl⟩
      · rcases h with h | h
        · exact absurd h ha
        · rw [hf] at h; omega
    · rcases h with h | h
      · exact absurd h ha
      · rw [hf] at h; omega
  · intro i u hne hfind hget
    have hmem : u ∈ load_users fs := List.mem_iff_getElem?.mpr ⟨i, hget⟩
    obtain ⟨r1, r2, r3⟩ := load_users_range fs u hmem
    refine ⟨?_, ?_, ?_⟩
    · rcases find_user_index_cases (load_users fs) username with ⟨hf, _⟩ |
        ⟨j, v, hf, hg, hn, hfirst⟩
      · rw [hf] at hfind; omega
      · have hij : j = i := by rw [hf] at hfind; omega
        subst hij
        rw [hg] at hget
        simp only [Option.some.injEq] at hget
        subst hget
        exact ⟨hn, hfirst⟩
    · intro h1 h2
      rcases increment_games_played_cases env fs username won with ⟨hc, _⟩ |
        ⟨j, v, _, hf, hg, _, _, ho⟩
      · rcases hc with hc | hc
        · exact absurd hc hne
        · rw [hc] at hfind; omega
      · have hij : j = i := by rw [hf] at hfind; omega
        subst hij
        rw [hg] at hget
        simp only [Option.some.injEq] at hget
        subst hget
        rw [ho, to_int_of_range _ (by omega) (by omega)]
        by_cases hw : won ≠ 0
        · have h3 := h2 hw
          rw [to_int_of_range (v.games_won + 1) (by omega) (by omega)]
          exact ⟨rfl, rfl⟩
        · simp only [if_neg hw]
          exact ⟨trivial, trivial⟩
    · intro h1
      rcases increment_quiz_cases env fs username with ⟨hc, _⟩ | ⟨j, v, _, hf, hg, _, _, ho⟩
      · rcases hc with hc | hc
        · exact absurd hc hne
        · rw [hc] at hfind; omega
      · have hij : j = i := by rw [hf] at hfind; omega
        subst hij
        rw [hg] at hget
        simp only [Option.some.injEq] at hget
        subst hget
        rw [ho, to_int_of_range _ (by omega) (by omega)]
        exact ⟨rfl, rfl⟩

/-- Witness for C17: from the file left by the signup of `alice`, a won game is saved as
`games_played = 1, games_won = 1`, and a following lost game as
`games_played = 2, games_won = 1`; and a lost game on a record whose `games_won` is
`INT_MAX` is saved with `games_played` one higher and `games_won` unchanged. -/
theorem increment_adds_one_witness :
    (increment_games_played ⟨true, none⟩
      ⟨some (user_line (example_alice 5 2147483647 0 (ascii "-"))), none⟩ (ascii "alice")
      0).saved
      = some ((load_users
          ⟨some (user_line (example_alice 5 2147483647 0 (ascii "-"))), none⟩).set 0
        { example_alice 5 2147483647 0 (ascii "-") with
          games_played := (example_alice 5 2147483647 0 (ascii "-")).games_played + 1,
          games_won := if (0 : Int) ≠ 0
            then (example_alice 5 2147483647 0 (ascii "-")).games_won + 1
            else (example_alice 5 2147483647 0 (ascii "-")).games_won }) ∧
    (increment_games_played ⟨true, none⟩
      ⟨some (user_line (example_alice 5 2147483647 0 (ascii "-"))), none⟩ (ascii "alice")
      0).saved = some [example_alice 6 2147483647 0 (ascii "-")] ∧
    (increment_games_played ⟨true, none⟩
      ⟨some (user_line (example_alice 0 0 0 (ascii "-"))), none⟩ (ascii "alice") 1).saved
      = some ((load_users ⟨some (user_line (example_alice 0 0 0 (ascii "-"))), none⟩).set 0
        { example_alice 0 0 0 (ascii "-") with
          games_played := (example_alice 0 0 0 (ascii "-")).games_played + 1,
          games_won := if (1 : Int) ≠ 0 then (example_alice 0 0 0 (ascii "-")).games_won + 1
            else (example_alice 0 0 0 (ascii "-")).games_won }) ∧
    load_users (increment_games_played ⟨true, none⟩
      ⟨some (user_line (example_alice 0 0 0 (ascii "-"))), none⟩ (ascii "alice") 1).fs
      = [example_alice 1 1 0 (ascii "-")] ∧
    load_users (increment_games_played ⟨true, none⟩
      (increment_games_played ⟨true, none⟩
        ⟨some (user_line (example_alice 0 0 0 (ascii "-"))), none⟩ (ascii "alice") 1).fs
      (ascii "alice") 0).fs = [example_alice 2 1 0 (ascii "-")] :=
  ⟨(((increment_adds_one ⟨true, none⟩
      ⟨some (user_line (example_alice 5 2147483647 0 (ascii "-"))), none⟩ (ascii "alice")
      0).2 0 (example_alice 5 2147483647 0 (ascii "-")) (by decide!) (by decide!)
      (by decide!)).2.1 (by decide) (fun h => absurd rfl h)).1, by decide!,
   (((increment_adds_one ⟨true, none⟩
      ⟨some (user_line (example_alice 0 0 0 (ascii "-"))), none⟩ (ascii "alice") 1).2 0
      (example_alice 0 0 0 (ascii "-")) (by decide!) (by decide!) (by decide!)).2.1
      (by decide) (fun _ => by decide)).1, by decide!, by decide!⟩

theorem won_le_played_set (arr : List User) (i : Nat) (v : User)
    (harr : ∀ u ∈ arr, 0 ≤ u.games_won ∧ u.games_won ≤ u.games_played)
    (hv : 0 ≤ v.games_won ∧ v.games_won ≤ v.games_played) :
    ∀ u ∈ arr.set i v, 0 ≤ u.games_won ∧ u.games_won ≤ u.games_played := by
  intro u hu
  rcases List.mem_or_eq_of_mem_set hu with h | h
  · exact harr u h
  · rw [h]; exact hv

/-- C18: if every loaded record has `0 ≤ games_won ≤ games_played` and no counter equal to
`INT_MAX`, then every record in the list that `signup_flow`, `login_flow`,
`increment_games_played` or `increment_quiz` passes to `save_users` has
`0 ≤ games_won ≤ games_played`. -/
theorem workflow_preserves_won_le_played (env : Env) (tm : Tm) (fs : FS)
    (stdin username : List Nat) (won : Int)
    (hinv : ∀ u ∈ load_users fs, 0 ≤ u.games_won ∧ u.games_won ≤ u.games_played)
    (hmax : ∀ u ∈ load_users fs, u.games_played ≠ 2147483647 ∧ u.games_won ≠ 2147483647 ∧
      u.quizzes ≠ 2147483647) :
    (∀ l, (signup_flow env fs stdin).saved = some l →
      ∀ u ∈ l, 0 ≤ u.games_won ∧ u.games_won ≤ u.games_played) ∧
    (∀ l, (login_flow env tm fs stdin).saved = some l →
      ∀ u ∈ l, 0 ≤ u.games_won ∧ u.games_won ≤ u.games_played) ∧
    (∀ l, (increment_games_played env fs username won).saved = some l →
      ∀ u ∈ l, 0 ≤ u.games_won ∧ u.games_won ≤ u.games_played) ∧
    (∀ l, (increment_quiz env fs username).saved = some l →
      ∀ u ∈ l, 0 ≤ u.games_won ∧ u.games_won ≤ u.games_played) := by
  refine ⟨?_, ?_, ?_, ?_⟩
  · intro l hl
    rcases signup_flow_cases env fs stdin with ⟨_, ho⟩ | ⟨_, _, ho⟩ | ⟨_, _, _, ho⟩ |
      ⟨_, _, _, _, ho⟩ | ⟨_, _, _, _, ho⟩
    · rw [ho] at hl; simp at hl
    · rw [ho] at hl; simp at hl
    · rw [ho] at hl; simp at hl
    · rw [ho] at hl
      simp only [Option.some.injEq] at hl
      subst hl
      intro u hu
      rcases List.mem_append.mp hu with h | h
      · exact hinv u h
      · simp only [List.mem_singleton] at h
        rw [h]; simp [new_user]
    · rw [ho] at hl
      simp only [Option.some.injEq] at hl
      subst hl
      intro u hu
      rcases List.mem_append.mp hu with h | h
      · exact hinv u h
      · simp only [List.mem_singleton] at h
        rw [h]; simp [new_user]
  · intro l hl
    rcases login_flow_cases env tm fs stdin with ⟨_, ho⟩ | ⟨_, _, _, ho⟩ |
      ⟨i, u, _, _, _, _, _, _, ho⟩ | ⟨i, u, _, _, hg, _, _, _, ho⟩
    · rw [ho] at hl; simp at hl
    · rw [ho] at hl; simp at hl
    · rw [ho] at hl; simp at hl
    · rw [ho] at hl
      simp only [Option.some.injEq] at hl
      subst hl
      exact won_le_played_set _ _ _ hinv (hinv u (List.mem_iff_getElem?.mpr ⟨i, hg⟩))
  · intro l hl
    rcases increment_games_played_cases env fs username won with ⟨_, ho⟩ |
      ⟨i, u, _, _, hg, _, _, ho⟩
    · rw [ho] at hl; simp at hl
    · rw [ho] at hl
      simp only [Option.some.injEq] at hl
      subst hl
      have hmem : u ∈ load_users fs := List.mem_iff_getElem?.mpr ⟨i, hg⟩
      obtain ⟨r1, r2, _⟩ := load_users_range fs u hmem
      have h1 := hinv u hmem
      have h2 := hmax u hmem
      apply won_le_played_set _ _ _ hinv
      simp only
      rw [to_int_of_range (u.games_played + 1) (by omega) (by omega)]
      by_cases hw : won ≠ 0
      · rw [if_pos hw, to_int_of_range (u.games_won + 1) (by omega) (by omega)]
        omega
      · rw [if_neg hw]
        omega
  · intro l hl
    rcases increment_quiz_cases env fs username with ⟨_, ho⟩ | ⟨i, u, _, _, hg, _, _, ho⟩
    · rw [ho] at hl; simp at hl
    · rw [ho] at hl
      simp only [Option.some.injEq] at hl
      subst hl
      exact won_le_played_set _ _ _ hinv (hinv u (List.mem_iff_getElem?.mpr ⟨i, hg⟩))

/-- Witness for C18: a won game of `alice`, who has played 2 games and won 1; the record
saved has 3 games played and 2 won. -/
theorem workflow_preserves_won_le_played_witness :
    (increment_games_played ⟨true, none⟩
      ⟨some (user_line (example_alice 2 1 0 (ascii "-"))), none⟩ (ascii "alice") 1).saved
      = some [example_alice 3 2 0 (ascii "-")] ∧
    0 ≤ (example_alice 3 2 0 (ascii "-")).games_won ∧
    (example_alice 3 2 0 (ascii "-")).games_won
      ≤ (example_alice 3 2 0 (ascii "-")).games_played :=
  ⟨by decide!,
   (workflow_preserves_won_le_played ⟨true, none⟩ ⟨2024, 5, 1, 10, 20, 30⟩
    ⟨some (user_line (example_alice 2 1 0 (ascii "-"))), none⟩ (ascii "alice\nabc\n")
    (ascii "alice") 1 (by decide!) (by decide!)).2.2.1 [example_alice 3 2 0 (ascii "-")]
    (by decide!) (example_alice 3 2 0 (ascii "-")) (by simp)⟩

/-- C19, as stated, fails: on the store that holds `alice`, the failed login of the unknown
`bob` prints `User not found.` and the failed login of `alice` with a wrong password prints
`Authentication failed.`; the two reports differ. -/
theorem login_flow_reports_differ :
    (login_flow ⟨true, none⟩ ⟨2024, 5, 1, 10, 20, 30⟩
      ⟨some (user_line (example_alice 0 0 0 (ascii "-"))), none⟩ (ascii "bob\nwrong\n")).out
      = ascii "Enter username: Enter password: User not found.\n" ∧
    (login_flow ⟨true, none⟩ ⟨2024, 5, 1, 10, 20, 30⟩
      ⟨some (user_line (example_alice 0 0 0 (ascii "-"))), none⟩
      (ascii "alice\nwrong\n")).out
      = ascii "Enter username: Enter password: Authentication failed.\n" ∧
    (login_flow ⟨true, none⟩ ⟨2024, 5, 1, 10, 20, 30⟩
      ⟨some (user_line (example_alice 0 0 0 (ascii "-"))), none⟩ (ascii "bob\nwrong\n")).out
      ≠ (login_flow ⟨true, none⟩ ⟨2024, 5, 1, 10, 20, 30⟩
      ⟨some (user_line (example_alice 0 0 0 (ascii "-"))), none⟩
      (ascii "alice\nwrong\n")).out := by
  decide!

/-- C19, amended: for every non-empty store, a failed login with an unknown username and a
failed login with a known username and a wrong password give their caller the same result
(`0`, no username), save nothing and leave the file system unchanged; what they print
differs: `User not found.` for the first, `Authentication failed.` for the second. -/
theorem login_flow_failures (env : Env) (tm : Tm) (fs : FS) (stdinA stdinB : List Nat)
    (i : Nat) (u : User)
    (hA : find_user_index (load_users fs) (read_line 64 stdinA).1 = -1)
    (hne : load_users fs ≠ [])
    (hB : find_user_index (load_users fs) (read_line 64 stdinB).1 = (i : Int))
    (hu : (load_users fs)[i]? = some u)
    (hh : u.hash ≠ sha256_hex (read_line 128 (read_line 64 stdinB).2).1) :
    (login_flow env tm fs stdinA).ret = 0 ∧ (login_flow env tm fs stdinB).ret = 0 ∧
    (login_flow env tm fs stdinA).user = none ∧ (login_flow env tm fs stdinB).user = none ∧
    (login_flow env tm fs stdinA).saved = none ∧ (login_flow env tm fs stdinB).saved = none ∧
    (login_flow env tm fs stdinA).fs = fs ∧ (login_flow env tm fs stdinB).fs = fs ∧
    (login_flow env tm fs stdinA).out
      = ascii "Enter username: " ++ ascii "Enter password: " ++ ascii "User not found.\n" ∧
    (login_flow env tm fs stdinB).out
      = ascii "Enter username: " ++ ascii "Enter password: "
        ++ ascii "Authentication failed.\n" ∧
    (login_flow env tm fs stdinA).out ≠ (login_flow env tm fs stdinB).out := by
  have eA : login_flow env tm fs stdinA =
      { ret := 0,
        out := ascii "Enter username: " ++ ascii "Enter password: "
          ++ ascii "User not found.\n",
        stdin := (read_line 128 (read_line 64 stdinA).2).2, user := none, fs := fs,
        loaded := some (load_users fs), saved := none } := by
    rcases login_flow_cases env tm fs stdinA with ⟨ha, _⟩ | ⟨_, _, _, ho⟩ |
      ⟨j, v, _, hf, _⟩ | ⟨j, v, _, hf, _⟩
    · exact absurd ha hne
    · exact ho
    · rw [hf] at hA; omega
    · rw [hf] at hA; omega
  have eB : login_flow env tm fs stdinB =
      { ret := 0,
        out := ascii "Enter username: " ++ ascii "Enter password: "
          ++ ascii "Authentication failed.\n",
        stdin := (read_line 128 (read_line 64 stdinB).2).2, user := none, fs := fs,
        loaded := some (load_users fs), saved := none } := by
    rcases login_flow_cases env tm fs stdinB with ⟨ha, _⟩ | ⟨_, hf, _, _⟩ |
      ⟨j, v, _, hf, _, _, _, _, ho⟩ | ⟨j, v, _, hf, hg, _, _, hv, _⟩
    · exact absurd ha hne
    · rw [hf] at hB; omega
    · exact ho
    · have hij : j = i := by rw [hf] at hB; omega
      subst hij
      rw [hg] at hu
      simp only [Option.some.injEq] at hu
      subst hu
      exact absurd hv hh
  have hdiff : ascii "Enter username: " ++ ascii "Enter password: "
      ++ ascii "User not found.\n" ≠ ascii "Enter username: " ++ ascii "Enter password: "
      ++ ascii "Authentication failed.\n" := by decide
  rw [eA, eB]
  exact ⟨rfl, rfl, rfl, rfl, rfl, rfl, rfl, rfl, rfl, rfl, hdiff⟩

/-- Witness for C19: the logins of `bob` and of `alice` with a wrong password. -/
theorem login_flow_failures_witness :
    (login_flow ⟨true, none⟩ ⟨2024, 5, 1, 10, 20, 30⟩
      ⟨some (user_line (example_alice 0 0 0 (ascii "-"))), none⟩ (ascii "bob\nwrong\n")).ret
      = 0 ∧
    (login_flow ⟨true, none⟩ ⟨2024, 5, 1, 10, 20, 30⟩
      ⟨some (user_line (example_alice 0 0 0 (ascii "-"))), none⟩
      (ascii "alice\nwrong\n")).ret = 0 :=
  ⟨(login_flow_failures ⟨true, none⟩ ⟨2024, 5, 1, 10, 20, 30⟩
      ⟨some (user_line (example_alice 0 0 0 (ascii "-"))), none⟩ (ascii "bob\nwrong\n")
      (ascii "alice\nwrong\n") 0 (example_alice 0 0 0 (ascii "-"))
      (by decide!) (by decide!) (by decide!) (by decide!) (by decide!)).1,
   (login_flow_failures ⟨true, none⟩ ⟨2024, 5, 1, 10, 20, 30⟩
      ⟨some (user_line (example_alice 0 0 0 (ascii "-"))), none⟩ (ascii "bob\nwrong\n")
      (ascii "alice\nwrong\n") 0 (example_alice 0 0 0 (ascii "-"))
      (by decide!) (by decide!) (by decide!) (by decide!) (by decide!)).2.1⟩

/-! ### Further claims about the digest engine -/

theorem sha256_update_append (ctx : SHA256_CTX) (a b : List Nat) :
    sha256_update ctx (a ++ b) = sha256_update (sha256_update ctx a) b := by
  simp [sha256_update, List.foldl_append]

/-- A sequence of `sha256_update` calls absorbs the concatenation of its inputs. -/
theorem foldl_sha256_update (chunks : List (List Nat)) : ∀ (ctx : SHA256_CTX),
    chunks.foldl sha256_update ctx = sha256_update ctx chunks.flatten := by
  induction chunks with
  | nil => intro ctx; simp [sha256_update]
  | cons a rest ih =>
    intro ctx
    rw [List.foldl_cons, ih, List.flatten_cons, sha256_update_append]

/-- The counters of a context that has absorbed the bytes `x` since `sha256_init`. -/
theorem sha256_update_counts (ctx : SHA256_CTX) (hctx : ctx.data.length = 64) (x : List Nat) :
    (sha256_update (sha256_init ctx) x).datalen = x.length % 64 ∧
    (sha256_update (sha256_init ctx) x).data.length = 64 ∧
    (sha256_update (sha256_init ctx) x).bitlen
      = (512 * (x.length / 64)) % 18446744073709551616 := by
  obtain ⟨bs, pend, hx, hbs, habs⟩ := absorbed_update ctx hctx x
  have hp := habs.pend_lt
  have hlen : x.length = 64 * bs.length + pend.length := by
    have := congrArg List.length hx
    rw [List.length_map, List.length_append, length_flatten_blocks bs hbs] at this
    exact this
  refine ⟨?_, habs.len, ?_⟩
  · rw [habs.datalen]; omega
  · rw [habs.bitlen]
    have : x.length / 64 = bs.length := by omega
    rw [this]

/-- C20: for every context reached from `sha256_init` (on a 64-byte buffer) by a sequence of
`sha256_update` calls that absorb `n < 2^61` bytes in total: `datalen` is `n mod 64`, so it is
below 64, the size of the buffer, and `bitlen + 8 * datalen = 8 * n`; the same bound holds
after every prefix of the bytes, that is at every write `ctx->data[datalen++]`. -/
theorem sha256_update_datalen (ctx : SHA256_CTX) (hctx : ctx.data.length = 64)
    (chunks : List (List Nat)) (hn : chunks.flatten.length < 2 ^ 61) :
    (chunks.foldl sha256_update (sha256_init ctx)).datalen = chunks.flatten.length % 64 ∧
    (chunks.foldl sha256_update (sha256_init ctx)).datalen < 64 ∧
    (chunks.foldl sha256_update (sha256_init ctx)).data.length = 64 ∧
    (chunks.foldl sha256_update (sha256_init ctx)).bitlen
      + 8 * (chunks.foldl sha256_update (sha256_init ctx)).datalen
      = 8 * chunks.flatten.length ∧
    (∀ k, (sha256_update (sha256_init ctx) (chunks.flatten.take k)).datalen < 64 ∧
      (sha256_update (sha256_init ctx) (chunks.flatten.take k)).data.length = 64) := by
  rw [foldl_sha256_update]
  obtain ⟨h1, h2, h3⟩ := sha256_update_counts ctx hctx chunks.flatten
  refine ⟨h1, by omega, h2, ?_, fun k => ?_⟩
  · rw [h1, h3]
    omega
  · obtain ⟨g1, g2, _⟩ := sha256_update_counts ctx hctx (chunks.flatten.take k)
    exact ⟨by omega, g2⟩

/-- Witness for C20: the bytes of `abc` and of `de` absorbed by two calls. -/
theorem sha256_update_datalen_witness :
    ([ascii "abc", ascii "de"].foldl sha256_update
      (sha256_init ⟨List.replicate 64 0, 0, 0, []⟩)).datalen
      = [ascii "abc", ascii "de"].flatten.length % 64 ∧
    ([ascii "abc", ascii "de"].foldl sha256_update
      (sha256_init ⟨List.replicate 64 0, 0, 0, []⟩)).datalen = 5 :=
  ⟨(sha256_update_datalen ⟨List.replicate 64 0, 0, 0, []⟩ (by decide)
      [ascii "abc", ascii "de"] (by decide)).1, by decide!⟩

/-! ### The workflow on usernames without white space -/

/-- What the conversion `%Ns` stores: a non-empty token of at most `w` bytes of the input,
none of them white space; the rest is part of the input too. -/
theorem scan_s_spec (w : Nat) (s tok rest : List Nat) (h : scan_s w s = some (tok, rest)) :
    tok ≠ [] ∧ tok.length ≤ w ∧ (∀ c ∈ tok, isspace c = false ∧ c ∈ s) ∧
    (∀ c ∈ rest, c ∈ s) := by
  unfold scan_s at h
  simp only at h
  split at h
  · simp at h
  · rename_i hne
    simp only [Option.some.injEq, Prod.mk.injEq] at h
    obtain ⟨h1, h2⟩ := h
    refine ⟨by rw [← h1]; exact hne, ?_, ?_, ?_⟩
    · rw [← h1, List.length_take]; omega
    · intro c hc
      rw [← h1] at hc
      have hc2 := List.mem_of_mem_take hc
      have hp := List.mem_takeWhile_imp hc2
      refine ⟨by simpa using hp, ?_⟩
      exact (List.dropWhile_sublist isspace).subset
        ((List.takeWhile_sublist _).subset hc2)
    · intro c hc
      rw [← h2] at hc
      exact (List.dropWhile_sublist isspace).subset ((List.drop_sublist _ _).subset hc)

theorem scan_digits_rest : ∀ (l : List Nat) (acc : Nat), ∀ c ∈ (scan_digits l acc).2, c ∈ l := by
  intro l
  induction l with
  | nil => intro acc c hc; simp [scan_digits] at hc
  | cons a l ih =>
    intro acc c hc
    unfold scan_digits at hc
    split at hc
    · exact List.mem_cons_of_mem _ (ih _ c hc)
    · exact hc

theorem scan_sign_rest (s : List Nat) : ∀ c ∈ (scan_sign s).2, c ∈ s := by
  intro c hc
  unfold scan_sign at hc
  split at hc
  · exact List.mem_cons_of_mem _ hc
  · exact List.mem_cons_of_mem _ hc
  · exact hc

theorem scan_d_rest (s : List Nat) (v : Int) (r : List Nat) (h : scan_d s = some (v, r)) :
    ∀ c ∈ r, c ∈ s := by
  unfold scan_d at h
  simp only at h
  split at h
  · simp at h
  · split at h
    · simp only [Option.some.injEq, Prod.mk.injEq] at h
      intro c hc
      rw [← h.2] at hc
      exact (List.dropWhile_sublist isspace).subset
        (scan_sign_rest _ c (scan_digits_rest _ _ c hc))
    · simp at h

/-- The strings that `sscanf` stores from a text without NUL, when it assigns at least two
fields: username and hash are non-empty, within their widths and free of white space; so is
the last login, unless it is left empty. -/
theorem sscanf_user_fields (s : List Nat) (hs : 0 ∉ s) (hi : ¬ (sscanf_user s).items < 2) :
    ((sscanf_user s).user ≠ [] ∧ (sscanf_user s).user.length ≤ 63 ∧
      ∀ c ∈ (sscanf_user s).user, is_field_byte c = true) ∧
    ((sscanf_user s).hash ≠ [] ∧ (sscanf_user s).hash.length ≤ 64 ∧
      ∀ c ∈ (sscanf_user s).hash, is_field_byte c = true) ∧
    ((sscanf_user s).last_login.length ≤ 31 ∧
      ∀ c ∈ (sscanf_user s).last_login, is_field_byte c = true) := by
  have field : ∀ (tok : List Nat), (∀ c ∈ tok, isspace c = false ∧ c ∈ s) →
      ∀ c ∈ tok, is_field_byte c = true := by
    intro tok h c hc
    rw [field_byte_iff]
    exact ⟨fun e => hs (e ▸ (h c hc).2), (h c hc).1⟩
  cases h1 : scan_s 63 s with
  | none => simp [sscanf_user, h1] at hi
  | some p1 =>
    obtain ⟨user, r1⟩ := p1
    obtain ⟨u1, u2, u3, u4⟩ := scan_s_spec _ _ _ _ h1
    cases h2 : scan_s 64 r1 with
    | none => simp [sscanf_user, h1, h2] at hi
    | some p2 =>
      obtain ⟨hash, r2⟩ := p2
      obtain ⟨v1, v2, v3, v4⟩ := scan_s_spec _ _ _ _ h2
      have hu := field user u3
      have hh := field hash (fun c hc => ⟨(v3 c hc).1, u4 c (v3 c hc).2⟩)
      cases h3 : scan_d r2 with
      | none =>
        simp only [sscanf_user, h1, h2, h3]
        exact ⟨⟨u1, u2, hu⟩, ⟨v1, v2, hh⟩, by simp⟩
      | some p3 =>
        obtain ⟨gp, r3⟩ := p3
        have d3 := scan_d_rest _ _ _ h3
        cases h4 : scan_d r3 with
        | none =>
          simp only [sscanf_user, h1, h2, h3, h4]
          exact ⟨⟨u1, u2, hu⟩, ⟨v1, v2, hh⟩, by simp⟩
        | some p4 =>
          obtain ⟨gw, r4⟩ := p4
          have d4 := scan_d_rest _ _ _ h4
          cases h5 : scan_d r4 with
          | none =>
            simp only [sscanf_user, h1, h2, h3, h4, h5]
            exact ⟨⟨u1, u2, hu⟩, ⟨v1, v2, hh⟩, by simp⟩
          | some p5 =>
            obtain ⟨q, r5⟩ := p5
            have d5 := scan_d_rest _ _ _ h5
            cases h6 : scan_s 31 r5 with
            | none =>
              simp only [sscanf_user, h1, h2, h3, h4, h5, h6]
              exact ⟨⟨u1, u2, hu⟩, ⟨v1, v2, hh⟩, by simp⟩
            | some p6 =>
              obtain ⟨ll, r6⟩ := p6
              obtain ⟨w1, w2, w3, _⟩ := scan_s_spec _ _ _ _ h6
              simp only [sscanf_user, h1, h2, h3, h4, h5, h6]
              refine ⟨⟨u1, u2, hu⟩, ⟨v1, v2, hh⟩, w2, ?_⟩
              exact field ll (fun c hc => ⟨(w3 c hc).1,
                u4 c (v4 c (d3 c (d4 c (d5 c (w3 c hc).2))))⟩)

/-- Every record that `load_users` returns is storable: `save_users` writes a line for it
that `load_users` reads back. -/
theorem load_users_storable (fs : FS) (u : User) (h : u ∈ load_users fs) : Storable u := by
  have hr := load_users_range fs u h
  unfold load_users at h
  split at h
  · simp at h
  · rcases mem_load_loop _ _ _ _ h with h1 | ⟨line, h1, hitems⟩
    · simp at h1
    · obtain ⟨⟨a1, a2, a3⟩, ⟨b1, b2, b3⟩, c2, c3⟩ :=
        sscanf_user_fields (cstr line) (cstr_no_nul line) hitems
      subst h1
      refine ⟨?_, ?_, ?_, ?_, ?_, ?_, hr.1, hr.2.1, hr.2.2, ?_, ?_⟩
      · simp only [user_of_scan, List.take_of_length_le a2]; exact a1
      · simp only [user_of_scan, List.length_take]; omega
      · intro c hc
        simp only [user_of_scan] at hc
        exact a3 c (List.mem_of_mem_take hc)
      · simp only [user_of_scan, List.take_of_length_le b2]; exact b1
      · simp only [user_of_scan, List.length_take]; omega
      · intro c hc
        simp only [user_of_scan] at hc
        exact b3 c (List.mem_of_mem_take hc)
      · simp only [user_of_scan]
        split
        · simp only [List.length_take]; omega
        · simp
      · intro c hc
        simp only [user_of_scan] at hc
        split at hc
        · exact c3 c (List.mem_of_mem_take hc)
        · simp at hc

theorem sha256_hex_field_bytes (input : List Nat) :
    ∀ c ∈ sha256_hex input, is_field_byte c = true := by
  have e : ∃ state, sha256_hex input = (hash_bytes state).flatMap hex02 := ⟨_, rfl⟩
  obtain ⟨state, hs⟩ := e
  intro c hc
  rw [hs] at hc
  obtain ⟨b, _, hb⟩ := List.mem_flatMap.mp hc
  simp only [hex02, List.mem_cons, List.mem_singleton, List.not_mem_nil, or_false] at hb
  have hr : (48 ≤ c ∧ c ≤ 57) ∨ (97 ≤ c ∧ c ≤ 102) := by
    rcases hb with h | h <;> subst h <;> exact hex_digit_range _
  apply lower_hex_field
  simp [is_lower_hex]
  omega

/-- The record that `signup_flow` appends is storable when the username holds no white
space. -/
theorem new_user_storable (username password : List Nat) (hne : username ≠ [])
    (hlen : username.length ≤ 63) (hnul : 0 ∉ username)
    (hsp : ∀ c ∈ username, isspace c = false) : Storable (new_user username password) := by
  have hz : (-2147483648 : Int) ≤ 0 ∧ (0 : Int) ≤ 2147483647 := by decide
  have hd1 : (ascii "-").length ≤ 31 := by decide
  have hd2 : ∀ c ∈ ascii "-", is_field_byte c = true := by decide
  refine ⟨hne, hlen, ?_, ?_, ?_, sha256_hex_field_bytes password, hz, hz, hz, hd1, hd2⟩
  · intro c hc
    rw [field_byte_iff]
    exact ⟨fun e => hnul (e ▸ hc), hsp c hc⟩
  · intro h
    have := sha256_hex_length password
    simp only [new_user] at h
    rw [h] at this
    simp at this
  · simp only [new_user]
    rw [sha256_hex_length]

theorem now_iso_field_bytes (tm : Tm) : ∀ c ∈ now_iso tm, is_field_byte c = true := by
  obtain ⟨_, hd, _⟩ := dec_digits_spec (tm.year + 1) tm.year (by omega)
  have two : ∀ (v c : Nat), c ∈ two_digits v → 48 ≤ c ∧ c ≤ 58 := by
    intro v c hc
    simp only [two_digits, List.mem_cons, List.mem_singleton, List.not_mem_nil, or_false] at hc
    rcases hc with h | h <;> omega
  have sep : ∀ c, c ∈ ascii "-" ∨ c ∈ ascii "T" ∨ c ∈ ascii ":" → c = 45 ∨ c = 84 ∨ c = 58 := by
    intro c hc
    have e1 : ascii "-" = [45] := by decide
    have e2 : ascii "T" = [84] := by decide
    have e3 : ascii ":" = [58] := by decide
    rw [e1, e2, e3] at hc
    simpa using hc
  intro c hc
  have hr : (45 ≤ c ∧ c ≤ 58) ∨ c = 84 := by
    simp only [now_iso, List.mem_append] at hc
    rcases hc with ((((((((((h | h) | h) | h) | h) | h) | h) | h) | h) | h) | h)
    · have := hd c h; omega
    · rcases sep c (Or.inl h) with e | e | e <;> omega
    · have := two _ c h; omega
    · rcases sep c (Or.inl h) with e | e | e <;> omega
    · have := two _ c h; omega
    · rcases sep c (Or.inr (Or.inl h)) with e | e | e <;> omega
    · have := two _ c h; omega
    · rcases sep c (Or.inr (Or.inr h)) with e | e | e <;> omega
    · have := two _ c h; omega
    · rcases sep c (Or.inr (Or.inr h)) with e | e | e <;> omega
    · have := two _ c h; omega
  simp [is_field_byte, isspace]
  omega

theorem now_iso_ne_dash (tm : Tm) : (now_iso tm).take 31 ≠ ascii "-" := by
  intro h
  have hl := congrArg List.length h
  have e : (ascii "-").length = 1 ∧ (ascii "T").length = 1 ∧ (ascii ":").length = 1 := by
    decide
  simp only [now_iso, two_digits, List.length_take, List.length_append, List.length_cons,
    List.length_nil] at hl
  omega

/-- Loading what a `save_users` without failure wrote for storable records. -/
theorem load_users_after_save (env : Env) (fs : FS) (arr : List User)
    (hopen : env.tmp_opens = true) (hroom : env.tmp_room = none)
    (hs : ∀ u ∈ arr, Storable u) :
    load_users (save_users env fs arr).1 = arr.map reloaded := by
  rw [save_users_ok env fs arr hopen (fun room h => by rw [hroom] at h; simp at h)]
  exact load_users_lines arr none hs

theorem map_username_reloaded (arr : List User) :
    (arr.map reloaded).map (fun u => u.username) = arr.map (fun u => u.username) := by
  rw [List.map_map]
  rfl

theorem storable_set (arr : List User) (i : Nat) (v : User) (harr : ∀ u ∈ arr, Storable u)
    (hv : Storable v) : ∀ u ∈ arr.set i v, Storable u := by
  intro u hu
  rcases List.mem_or_eq_of_mem_set hu with h | h
  · exact harr u h
  · rw [h]; exact hv

theorem map_username_set (arr : List User) (i : Nat) (u v : User) (hu : arr[i]? = some u)
    (hv : v.username = u.username) :
    (arr.set i v).map (fun x => x.username) = arr.map (fun x => x.username) := by
  rw [List.map_set, hv]
  apply List.ext_getElem?
  intro j
  rw [List.getElem?_set]
  by_cases hij : i = j
  · subst hij
    have hlt : i < (arr.map fun x => x.username).length := by
      rw [List.length_map]
      exact (List.getElem?_eq_some.mp hu).1
    rw [if_pos rfl, if_pos hlt, List.getElem?_map, hu]
    rfl
  · rw [if_neg hij]

/-- A storable record stays storable when its counters are replaced by values of an `int` and
its last login by a text of at most 31 bytes without NUL or white space. -/
theorem storable_update (u v : User) (hu : Storable u) (hname : v.username = u.username)
    (hhash : v.hash = u.hash)
    (h1 : -2147483648 ≤ v.games_played ∧ v.games_played ≤ 2147483647)
    (h2 : -2147483648 ≤ v.games_won ∧ v.games_won ≤ 2147483647)
    (h3 : -2147483648 ≤ v.quizzes ∧ v.quizzes ≤ 2147483647)
    (h4 : v.last_login.length ≤ 31) (h5 : ∀ c ∈ v.last_login, is_field_byte c = true) :
    Storable v :=
  ⟨hname ▸ hu.name_ne, hname ▸ hu.name_len, hname ▸ hu.name_bytes, hhash ▸ hu.hash_ne,
    hhash ▸ hu.hash_len, hhash ▸ hu.hash_bytes, h1, h2, h3, h4, h5⟩

theorem usernames_after_save (env : Env) (fs : FS) (arr : List User)
    (hopen : env.tmp_opens = true) (hroom : env.tmp_room = none)
    (hs : ∀ u ∈ arr, Storable u) :
    (load_users (save_users env fs arr).1).map (fun u => u.username)
      = arr.map (fun u => u.username) := by
  rw [load_users_after_save env fs arr hopen hroom hs, map_username_reloaded]

theorem not_found_iff (arr : List User) (username : List Nat) :
    find_user_index arr username = -1 ↔ ∀ u ∈ arr, u.username ≠ username := by
  rcases find_user_index_cases arr username with ⟨h1, h2⟩ | ⟨i, u, h1, h2, h3, _⟩
  · exact ⟨fun _ => h2, fun _ => h1⟩
  · constructor
    · intro h; rw [h1] at h; omega
    · intro h
      exact absurd h3 (h u (List.mem_iff_getElem?.mpr ⟨i, h2⟩))

/-- In a list that ends with the only record that has the username, `find_user_index`
returns the last index. -/
theorem find_user_index_append (arr : List User) (v : User)
    (harr : ∀ u ∈ arr, u.username ≠ v.username) :
    find_user_index (arr ++ [v]) v.username = (arr.length : Int) ∧
    (arr ++ [v])[arr.length]? = some v := by
  have hget : (arr ++ [v])[arr.length]? = some v := by
    rw [List.getElem?_append_right (Nat.le_refl _)]
    simp
  refine ⟨?_, hget⟩
  rcases find_user_index_cases (arr ++ [v]) v.username with ⟨_, h2⟩ | ⟨i, u, h1, h2, h3, h4⟩
  · exact absurd rfl (h2 v (by simp))
  · rw [h1]
    have hi : i < (arr ++ [v]).length := (List.getElem?_eq_some.mp h2).1
    simp only [List.length_append, List.length_singleton] at hi
    by_cases hlt : i < arr.length
    · rw [List.getElem?_append_left hlt] at h2
      exact absurd h3 (harr u (List.mem_iff_getElem?.mpr ⟨i, h2⟩))
    · have : i = arr.length := by omega
      rw [this]

theorem reloaded_of_login (u : User) (h : u.last_login ≠ []) : reloaded u = u := by
  simp only [reloaded, written_login]
  rw [if_pos h]

theorem now_iso_take_length (tm : Tm) : 16 ≤ ((now_iso tm).take 31).length := by
  have e : (ascii "-").length = 1 ∧ (ascii "T").length = 1 ∧ (ascii ":").length = 1 := by
    decide
  have hy : 1 ≤ (dec_digits (tm.year + 1) tm.year).length := by
    obtain ⟨hne, _, _⟩ := dec_digits_spec (tm.year + 1) tm.year (by omega)
    cases hd : dec_digits (tm.year + 1) tm.year with
    | nil => exact absurd hd hne
    | cons _ _ => simp
  have hl : 16 ≤ (now_iso tm).length := by
    simp only [now_iso, two_digits, List.length_append, List.length_cons, List.length_nil]
    omega
  rw [List.length_take]
  omega

/-- After a signup without failure of a username without white space, the file loads as the
records loaded before followed by the new record. -/
theorem load_users_after_signup (env : Env) (fs : FS) (stdin : List Nat)
    (hu : (read_line 64 stdin).1 ≠ [])
    (hp : (read_line 128 (read_line 64 stdin).2).1 ≠ [])
    (hf : find_user_index (load_users fs) (read_line 64 stdin).1 = -1)
    (hsp : ∀ c ∈ (read_line 64 stdin).1, isspace c = false)
    (hopen : env.tmp_opens = true) (hroom : env.tmp_room = none) :
    (signup_flow env fs stdin).ret = 1 ∧
    load_users (signup_flow env fs stdin).fs = (load_users fs).map reloaded
      ++ [new_user (read_line 64 stdin).1 (read_line 128 (read_line 64 stdin).2).1] := by
  have hnew := new_user_storable (read_line 64 stdin).1
    (read_line 128 (read_line 64 stdin).2).1 hu (read_line_spec 64 stdin).2
    (read_line_spec 64 stdin).1 hsp
  rcases signup_flow_cases env fs stdin with ⟨h1, _⟩ | ⟨_, h2, _⟩ | ⟨_, _, h3, _⟩ |
    ⟨_, _, _, h4, _⟩ | ⟨_, _, _, _, ho⟩
  · exact absurd h1 hu
  · exact absurd h2 hp
  · exact absurd hf h3
  · rw [hopen] at h4; simp at h4
  · rw [ho]
    refine ⟨rfl, ?_⟩
    simp only
    rw [load_users_after_save env fs _ hopen hroom (by
      intro u hmem
      rcases List.mem_append.mp hmem with h | h
      · exact load_users_storable fs u h
      · simp only [List.mem_singleton] at h
        rw [h]; exact hnew), List.map_append, List.map_cons, List.map_nil,
      reloaded_of_login (new_user _ _) (by simp only [new_user]; decide)]

/-- After a signup without failure of a username without white space: the username is found
at the last index of the loaded store, in the record that was appended. -/
theorem find_after_signup (env : Env) (fs : FS) (stdin : List Nat)
    (hu : (read_line 64 stdin).1 ≠ [])
    (hp : (read_line 128 (read_line 64 stdin).2).1 ≠ [])
    (hf : find_user_index (load_users fs) (read_line 64 stdin).1 = -1)
    (hsp : ∀ c ∈ (read_line 64 stdin).1, isspace c = false)
    (hopen : env.tmp_opens = true) (hroom : env.tmp_room = none) :
    find_user_index (load_users (signup_flow env fs stdin).fs) (read_line 64 stdin).1
      = ((load_users fs).length : Int) ∧
    (load_users (signup_flow env fs stdin).fs)[(load_users fs).length]?
      = some (new_user (read_line 64 stdin).1 (read_line 128 (read_line 64 stdin).2).1) := by
  obtain ⟨_, hload⟩ := load_users_after_signup env fs stdin hu hp hf hsp hopen hroom
  have hno : ∀ u ∈ (load_users fs).map reloaded, u.username ≠
      (new_user (read_line 64 stdin).1 (read_line 128 (read_line 64 stdin).2).1).username := by
    intro u hmem
    obtain ⟨w, hw, rfl⟩ := List.mem_map.mp hmem
    exact (not_found_iff _ _).mp hf w hw
  have h := find_user_index_append _ _ hno
  rw [List.length_map] at h
  rw [hload]
  exact h

/-- Saving the loaded store with one record replaced by a storable record of the same
username leaves the usernames of the store loaded afterwards unchanged. -/
theorem usernames_after_update (env : Env) (fs : FS) (i : Nat) (u v : User)
    (hopen : env.tmp_opens = true) (hroom : env.tmp_room = none)
    (hget : (load_users fs)[i]? = some u) (hv : Storable v) (hname : v.username = u.username) :
    (load_users (save_users env fs ((load_users fs).set i v)).1).map (fun x => x.username)
      = (load_users fs).map (fun x => x.username) := by
  rw [usernames_after_save env fs _ hopen hroom
    (storable_set _ i v (fun w hw => load_users_storable fs w hw) hv),
    map_username_set _ i u v hget hname]

/-- When writes succeed, pairwise distinct usernames stay pairwise distinct in the store
loaded after a signup of a username without white space, after a login, and after either
increment. -/
theorem usernames_nodup_preserved (env : Env) (tm : Tm) (fs : FS)
    (hopen : env.tmp_opens = true) (hroom : env.tmp_room = none)
    (hnd : ((load_users fs).map (fun u => u.username)).Nodup) :
    (∀ stdin, (∀ c ∈ (read_line 64 stdin).1, isspace c = false) →
      ((load_users (signup_flow env fs stdin).fs).map (fun u => u.username)).Nodup) ∧
    (∀ stdin,
      ((load_users (login_flow env tm fs stdin).fs).map (fun u => u.username)).Nodup) ∧
    (∀ username won,
      ((load_users (increment_games_played env fs username won).fs).map
        (fun u => u.username)).Nodup) ∧
    (∀ username,
      ((load_users (increment_quiz env fs username).fs).map (fun u => u.username)).Nodup) := by
  refine ⟨?_, ?_, ?_, ?_⟩
  · intro stdin hsp
    rcases signup_flow_cases env fs stdin with ⟨_, ho⟩ | ⟨_, _, ho⟩ | ⟨_, _, _, ho⟩ |
      ⟨_, _, _, _, ho⟩ | ⟨hu, hp, hf, _, _⟩
    · rw [ho]; exact hnd
    · rw [ho]; exact hnd
    · rw [ho]; exact hnd
    · rw [ho]; exact hnd
    · rw [(load_users_after_signup env fs stdin hu hp hf hsp hopen hroom).2, List.map_append,
        map_username_reloaded, List.map_cons, List.map_nil]
      refine List.Nodup.append hnd (List.nodup_singleton _) ?_
      intro x hx hx2
      simp only [List.mem_singleton] at hx2
      obtain ⟨w, hw, hwx⟩ := List.mem_map.mp hx
      exact (not_found_iff _ _).mp hf w hw (by rw [hwx, hx2]; rfl)
  · intro stdin
    rcases login_flow_cases env tm fs stdin with ⟨_, ho⟩ | ⟨_, _, _, ho⟩ |
      ⟨i, u, _, _, _, _, _, _, ho⟩ | ⟨i, u, _, _, h3, _, _, _, ho⟩
    · rw [ho]; exact hnd
    · rw [ho]; exact hnd
    · rw [ho]; exact hnd
    · rw [ho]
      simp only
      have hsu := load_users_storable fs u (List.mem_iff_getElem?.mpr ⟨i, h3⟩)
      have hv : Storable { u with last_login := (now_iso tm).take 31 } :=
        storable_update u _ hsu rfl rfl hsu.gp_range hsu.gw_range hsu.q_range
          (by simp only [List.length_take]; omega)
          (fun c hc => now_iso_field_bytes tm c (List.mem_of_mem_take hc))
      rw [usernames_after_update env fs i u _ hopen hroom h3 hv rfl]
      exact hnd
  · intro username won
    rcases increment_games_played_cases env fs username won with ⟨_, ho⟩ |
      ⟨i, u, _, _, h3, _, _, ho⟩
    · rw [ho]; exact hnd
    · rw [ho]
      simp only
      have hsu := load_users_storable fs u (List.mem_iff_getElem?.mpr ⟨i, h3⟩)
      have hv : Storable { u with
          games_played := to_int (u.games_played + 1),
          games_won := if won ≠ 0 then to_int (u.games_won + 1) else u.games_won } :=
        storable_update u _ hsu rfl rfl (to_int_range _)
          (by
            simp only
            split
            · exact to_int_range _
            · exact hsu.gw_range)
          hsu.q_range hsu.login_len hsu.login_bytes
      rw [usernames_after_update env fs i u _ hopen hroom h3 hv rfl]
      exact hnd
  · intro username
    rcases increment_quiz_cases env fs username with ⟨_, ho⟩ | ⟨i, u, _, _, h3, _, _, ho⟩
    · rw [ho]; exact hnd
    · rw [ho]
      simp only
      have hsu := load_users_storable fs u (List.mem_iff_getElem?.mpr ⟨i, h3⟩)
      have hv : Storable { u with quizzes := to_int (u.quizzes + 1) } :=
        storable_update u _ hsu rfl rfl hsu.gp_range hsu.gw_range (to_int_range _)
          hsu.login_len hsu.login_bytes
      rw [usernames_after_update env fs i u _ hopen hroom h3 hv rfl]
      exact hnd

/-- C15, amended: for every store, every non-empty username without white space that is
absent from it and every non-empty password, when the signup writes without failure: the
signup returns `1`; a second signup with the same username and any non-empty password
returns `0` with `User already exists.`; the login with the same username and password
returns `1` and the store loaded afterwards holds a record of that username whose last login
is the timestamp, which is not `-`; and the login with the same username and a password whose
digest differs returns `0` with `Authentication failed.`. -/
theorem signup_then_login (env : Env) (tm : Tm) (fs : FS) (stdin : List Nat)
    (hu : (read_line 64 stdin).1 ≠ [])
    (hp : (read_line 128 (read_line 64 stdin).2).1 ≠ [])
    (hf : find_user_index (load_users fs) (read_line 64 stdin).1 = -1)
    (hsp : ∀ c ∈ (read_line 64 stdin).1, isspace c = false)
    (hopen : env.tmp_opens = true) (hroom : env.tmp_room = none) :
    (signup_flow env fs stdin).ret = 1 ∧
    (∀ stdin2, (read_line 64 stdin2).1 = (read_line 64 stdin).1 →
      (read_line 128 (read_line 64 stdin2).2).1 ≠ [] →
      (signup_flow env (signup_flow env fs stdin).fs stdin2).ret = 0 ∧
      (signup_flow env (signup_flow env fs stdin).fs stdin2).out
        = ascii "Choose a username: " ++ ascii "Choose a password: "
          ++ ascii "User already exists.\n") ∧
    (∀ stdin2, (read_line 64 stdin2).1 = (read_line 64 stdin).1 →
      (read_line 128 (read_line 64 stdin2).2).1 = (read_line 128 (read_line 64 stdin).2).1 →
      (login_flow env tm (signup_flow env fs stdin).fs stdin2).ret = 1 ∧
      ∃ v ∈ load_users (login_flow env tm (signup_flow env fs stdin).fs stdin2).fs,
        v.username = (read_line 64 stdin).1 ∧ v.last_login = (now_iso tm).take 31 ∧
        v.last_login ≠ ascii "-") ∧
    (∀ stdin2, (read_line 64 stdin2).1 = (read_line 64 stdin).1 →
      sha256_hex (read_line 128 (read_line 64 stdin2).2).1
        ≠ sha256_hex (read_line 128 (read_line 64 stdin).2).1 →
      (login_flow env tm (signup_flow env fs stdin).fs stdin2).ret = 0 ∧
      (login_flow env tm (signup_flow env fs stdin).fs stdin2).out
        = ascii "Enter username: " ++ ascii "Enter password: "
          ++ ascii "Authentication failed.\n") := by
  obtain ⟨hret, hload⟩ := load_users_after_signup env fs stdin hu hp hf hsp hopen hroom
  obtain ⟨hfind, hget⟩ := find_after_signup env fs stdin hu hp hf hsp hopen hroom
  have hne1 : load_users (signup_flow env fs stdin).fs ≠ [] := by
    rw [hload]; simp
  refine ⟨hret, ?_, ?_, ?_⟩
  · intro stdin2 hu2 hp2
    rcases signup_flow_cases env (signup_flow env fs stdin).fs stdin2 with ⟨h1, _⟩ |
      ⟨_, h2, _⟩ | ⟨_, _, _, ho⟩ | ⟨_, _, h3, _, _⟩ | ⟨_, _, h3, _, _⟩
    · rw [hu2] at h1; exact absurd h1 hu
    · exact absurd h2 hp2
    · rw [ho]; exact ⟨rfl, rfl⟩
    · rw [hu2, hfind] at h3; omega
    · rw [hu2, hfind] at h3; omega
  · intro stdin2 hu2 hp2
    rcases login_flow_cases env tm (signup_flow env fs stdin).fs stdin2 with ⟨h1, _⟩ |
      ⟨_, h2, _, _⟩ | ⟨i, u, _, h2, h3, _, _, h4, _⟩ | ⟨i, u, _, h2, h3, h5, _, _, ho⟩
    · exact absurd h1 hne1
    · rw [hu2, hfind] at h2; omega
    · rw [hu2, hfind] at h2
      have hi : i = (load_users fs).length := by omega
      rw [hi, hget] at h3
      simp only [Option.some.injEq] at h3
      rw [← h3, hp2] at h4
      exact absurd rfl h4
    · rw [ho]
      refine ⟨rfl, ?_⟩
      simp only
      have hts : 16 ≤ ((now_iso tm).take 31).length := now_iso_take_length tm
      have hv : Storable { u with last_login := (now_iso tm).take 31 } := by
        have hsu := load_users_storable _ u (List.mem_iff_getElem?.mpr ⟨i, h3⟩)
        exact storable_update u _ hsu rfl rfl hsu.gp_range hsu.gw_range hsu.q_range
          (by simp only [List.length_take]; omega)
          (fun c hc => now_iso_field_bytes tm c (List.mem_of_mem_take hc))
      rw [load_users_after_save env _ _ hopen hroom
        (storable_set _ i _ (fun w hw => load_users_storable _ w hw) hv)]
      refine ⟨{ u with last_login := (now_iso tm).take 31 }, ?_, ?_, rfl, ?_⟩
      · have hmem : { u with last_login := (now_iso tm).take 31 } ∈
            (load_users (signup_flow env fs stdin).fs).set i
              { u with last_login := (now_iso tm).take 31 } :=
          List.mem_set _ i (List.getElem?_eq_some.mp h3).1 _
        have hr : reloaded { u with last_login := (now_iso tm).take 31 }
            = { u with last_login := (now_iso tm).take 31 } := by
          apply reloaded_of_login
          intro hnil
          simp only at hnil
          rw [hnil] at hts
          simp at hts
        have hm := List.mem_map_of_mem reloaded hmem
        rw [hr] at hm
        exact hm
      · simp only
        rw [h5, hu2]
      · exact now_iso_ne_dash tm
  · intro stdin2 hu2 hp2
    rcases login_flow_cases env tm (signup_flow env fs stdin).fs stdin2 with ⟨h1, _⟩ |
      ⟨_, h2, _, _⟩ | ⟨i, u, _, _, _, _, _, _, ho⟩ | ⟨i, u, _, h2, h3, _, _, h4, _⟩
    · exact absurd h1 hne1
    · rw [hu2, hfind] at h2; omega
    · rw [ho]; exact ⟨rfl, rfl⟩
    · rw [hu2, hfind] at h2
      have hi : i = (load_users fs).length := by omega
      rw [hi, hget] at h3
      simp only [Option.some.injEq] at h3
      rw [← h3] at h4
      exact absurd h4.symm hp2

/-- Witness for C15: `alice` signs up on a missing file, signs up again, logs in, and logs
in with a wrong password. -/
theorem signup_then_login_witness :
    (signup_flow ⟨true, none⟩ ⟨none, none⟩ (ascii "alice\nsecret1\n")).ret = 1 ∧
    (signup_flow ⟨true, none⟩
      (signup_flow ⟨true, none⟩ ⟨none, none⟩ (ascii "alice\nsecret1\n")).fs
      (ascii "alice\nother\n")).ret = 0 ∧
    (login_flow ⟨true, none⟩ ⟨2024, 5, 1, 10, 20, 30⟩
      (signup_flow ⟨true, none⟩ ⟨none, none⟩ (ascii "alice\nsecret1\n")).fs
      (ascii "alice\nsecret1\n")).ret = 1 ∧
    (login_flow ⟨true, none⟩ ⟨2024, 5, 1, 10, 20, 30⟩
      (signup_flow ⟨true, none⟩ ⟨none, none⟩ (ascii "alice\nsecret1\n")).fs
      (ascii "alice\nwrong\n")).ret = 0 ∧
    load_users (login_flow ⟨true, none⟩ ⟨2024, 5, 1, 10, 20, 30⟩
      (signup_flow ⟨true, none⟩ ⟨none, none⟩ (ascii "alice\nsecret1\n")).fs
      (ascii "alice\nsecret1\n")).fs
      = [{ username := ascii "alice", hash := sha256_hex (ascii "secret1"),
           games_played := 0, games_won := 0, quizzes := 0,
           last_login := ascii "2024-05-01T10:20:30" }] :=
  ⟨(signup_then_login ⟨true, none⟩ ⟨2024, 5, 1, 10, 20, 30⟩ ⟨none, none⟩
      (ascii "alice\nsecret1\n") (by decide!) (by decide!) (by decide!) (by decide!)
      rfl rfl).1,
   ((signup_then_login ⟨true, none⟩ ⟨2024, 5, 1, 10, 20, 30⟩ ⟨none, none⟩
      (ascii "alice\nsecret1\n") (by decide!) (by decide!) (by decide!) (by decide!)
      rfl rfl).2.1 (ascii "alice\nother\n") (by decide!) (by decide!)).1,
   ((signup_then_login ⟨true, none⟩ ⟨2024, 5, 1, 10, 20, 30⟩ ⟨none, none⟩
      (ascii "alice\nsecret1\n") (by decide!) (by decide!) (by decide!) (by decide!)
      rfl rfl).2.2.1 (ascii "alice\nsecret1\n") (by decide!) (by decide!)).1,
   ((signup_then_login ⟨true, none⟩ ⟨2024, 5, 1, 10, 20, 30⟩ ⟨none, none⟩
      (ascii "alice\nsecret1\n") (by decide!) (by decide!) (by decide!) (by decide!)
      rfl rfl).2.2.2 (ascii "alice\nwrong\n") (by decide!) (by decide!)).1,
   by decide!⟩

/-! ### Chunking of the input -/

/-- One step of the loop of `sha256_update` keeps `datalen` below 64 and the size of the
buffer. -/
theorem sha256_update_byte_inv (ctx : SHA256_CTX) (byte : Nat) (hd : ctx.datalen < 64) :
    (sha256_update_byte ctx byte).datalen < 64 ∧
    (sha256_update_byte ctx byte).data.length = ctx.data.length := by
  unfold sha256_update_byte
  simp only
  split
  · exact ⟨Nat.zero_lt_succ 63, List.length_set _ _ _⟩
  · rename_i hne
    refine ⟨?_, List.length_set _ _ _⟩
    simp only
    omega

/-- The function `sha256_update` keeps `datalen` below 64 and the size of the buffer. -/
theorem sha256_update_inv (data : List Nat) : ∀ (ctx : SHA256_CTX), ctx.datalen < 64 →
    (sha256_update ctx data).datalen < 64 ∧
    (sha256_update ctx data).data.length = ctx.data.length := by
  induction data with
  | nil => intro ctx hd; exact ⟨hd, rfl⟩
  | cons x rest ih =>
    intro ctx hd
    obtain ⟨h1, h2⟩ := sha256_update_byte_inv ctx x hd
    obtain ⟨h3, h4⟩ := ih (sha256_update_byte ctx x) h1
    exact ⟨h3, h4.trans h2⟩

/-- C21: absorbing is independent of chunking. For every context `s` with `datalen < 64` and
all byte sequences `a` and `b`: the context after `sha256_update` with `a` still has
`datalen < 64` and the same buffer size; `sha256_update` with `a` and then with `b` gives the
same context (buffer, `datalen`, `bitlen` and state words) as `sha256_update` with `a ++ b`;
the same holds for any sequence of chunks and their concatenation; and `sha256_final` then
gives the same digest. -/
theorem sha256_update_chunking (s : SHA256_CTX) (hd : s.datalen < 64) (a b : List Nat) :
    (sha256_update s a).datalen < 64 ∧
    (sha256_update s a).data.length = s.data.length ∧
    sha256_update (sha256_update s a) b = sha256_update s (a ++ b) ∧
    (sha256_update (sha256_update s a) b).data = (sha256_update s (a ++ b)).data ∧
    (sha256_update (sha256_update s a) b).datalen = (sha256_update s (a ++ b)).datalen ∧
    (sha256_update (sha256_update s a) b).bitlen = (sha256_update s (a ++ b)).bitlen ∧
    (sha256_update (sha256_update s a) b).state = (sha256_update s (a ++ b)).state ∧
    (sha256_final (sha256_update (sha256_update s a) b)).2
      = (sha256_final (sha256_update s (a ++ b))).2 ∧
    (∀ chunks : List (List Nat),
      chunks.foldl sha256_update s = sha256_update s chunks.flatten ∧
      (chunks.foldl sha256_update s).datalen < 64 ∧
      (sha256_final (chunks.foldl sha256_update s)).2
        = (sha256_final (sha256_update s chunks.flatten)).2) := by
  have h := sha256_update_append s a b
  refine ⟨(sha256_update_inv a s hd).1, (sha256_update_inv a s hd).2, h.symm, ?_, ?_, ?_, ?_,
    ?_, fun chunks => ?_⟩
  · rw [h]
  · rw [h]
  · rw [h]
  · rw [h]
  · rw [h]
  · rw [foldl_sha256_update]
    exact ⟨rfl, (sha256_update_inv _ s hd).1, rfl⟩

/-- Witness for C21: `abc` absorbed as `a` then `bc`, from the initial context, ends in the
digest of `abc`. -/
theorem sha256_update_chunking_witness :
    sha256_update (sha256_update (sha256_init ⟨List.replicate 64 0, 0, 0, []⟩) (ascii "a"))
        (ascii "bc")
      = sha256_update (sha256_init ⟨List.replicate 64 0, 0, 0, []⟩) (ascii "a" ++ ascii "bc") ∧
    (sha256_final (sha256_update (sha256_update
        (sha256_init ⟨List.replicate 64 0, 0, 0, []⟩) (ascii "a")) (ascii "bc"))).2.flatMap hex02
      = ascii "ba7816bf8f01cfea414140de5dae2223b00361a396177a9cb410ff61f20015ad" :=
  ⟨(sha256_update_chunking (sha256_init ⟨List.replicate 64 0, 0, 0, []⟩) (by decide)
      (ascii "a") (ascii "bc")).2.2.1, by decide!⟩

/-! ## Theorems: tic-tac-toe -/

/-- Writing `mark` to an empty cell and then emptying the cell gives the board back. -/
theorem set_restore (board : List Nat) (p mark : Nat) (h : board.getD p 0 = 0) :
    (board.set p mark).set p 0 = board := by
  rw [List.set_set]
  apply List.ext_getElem?
  intro j
  rw [List.getElem?_set]
  by_cases hj : p = j
  · subst hj
    rw [if_pos rfl]
    split
    · rename_i hlt
      rw [List.getD_eq_getElem?_getD, List.getElem?_eq_getElem hlt] at h
      simp only [Option.getD_some] at h
      rw [List.getElem?_eq_getElem hlt, h]
    · rename_i hge
      rw [List.getElem?_eq_none (by omega)]
  · rw [if_neg hj]

/-- A cell of the board after a write to cell `p`. -/
theorem getD_set_cell (board : List Nat) (p mark q : Nat) (hp : p < board.length) :
    (board.set p mark).getD q 0 = if q = p then mark else board.getD q 0 := by
  rw [List.getD_eq_getElem?_getD, List.getElem?_set, List.getD_eq_getElem?_getD]
  by_cases h : p = q
  · subst h
    simp [hp]
  · rw [if_neg h, if_neg (fun e => h e.symm)]

/-- The first loop of `ttt_winner` returns nothing exactly when no row passes the test. -/
theorem ttt_winner_lines_none (board : List Nat) (ls : List (Nat × Nat × Nat)) :
    ttt_winner_lines ls board = none ↔ ∀ l ∈ ls, ttt_line_done board l = false := by
  induction ls with
  | nil => simp [ttt_winner_lines]
  | cons l rest ih =>
    unfold ttt_winner_lines
    by_cases h : ttt_line_done board l = true
    · simp [h]
    · simp only [h, Bool.false_eq_true, if_false, ih, List.mem_cons, forall_eq_or_imp]
      simp only [Bool.not_eq_true] at h
      simp [h]

/-- A value returned by the first loop of `ttt_winner` comes from a row that passes the
test. -/
theorem ttt_winner_lines_some (board : List Nat) (ls : List (Nat × Nat × Nat)) (w : Int)
    (h : ttt_winner_lines ls board = some w) :
    ∃ l ∈ ls, ttt_line_done board l = true ∧
      w = if board.getD l.1 0 = 88 then -1 else 1 := by
  induction ls with
  | nil => simp [ttt_winner_lines] at h
  | cons l rest ih =>
    unfold ttt_winner_lines at h
    by_cases hd : ttt_line_done board l = true
    · rw [if_pos hd] at h
      simp only [Option.some.injEq] at h
      exact ⟨l, List.mem_cons_self _ _, hd, h.symm⟩
    · rw [if_neg hd] at h
      obtain ⟨l2, hm, h1, h2⟩ := ih h
      exact ⟨l2, List.mem_cons_of_mem _ hm, h1, h2⟩

/-- On a board where the row `l` is not complete, writing `mark` to the empty cell `p`
completes the row exactly when `p` is on it and its other cells hold `mark`. -/
theorem ttt_line_done_set (board : List Nat) (p mark : Nat) (l : Nat × Nat × Nat)
    (hp : p < board.length) (hm : mark ≠ 0) (hl : ttt_line_done board l = false) :
    ttt_line_done (board.set p mark) l = line_completes board mark p l := by
  obtain ⟨a, b, c⟩ := l
  have hl2 : ¬ (board.getD a 0 ≠ 0 ∧ board.getD a 0 = board.getD b 0
      ∧ board.getD b 0 = board.getD c 0) := by
    intro h
    rw [ttt_line_done, decide_eq_false_iff_not] at hl
    exact hl h
  rw [Bool.eq_iff_iff]
  simp only [ttt_line_done, line_completes, getD_set_cell board p mark _ hp,
    decide_eq_true_eq, ne_eq]
  by_cases ha : a = p <;> by_cases hb : b = p <;> by_cases hc : c = p <;>
    simp only [ha, hb, hc, if_true, if_false, true_or, or_true, false_or, true_and,
      and_true, not_false_eq_true, hm] <;> first | tauto | omega

/-- On a board with no complete line, after `mark` is written to the empty cell `p` the
function `ttt_winner` returns the value for `mark` (`-1` for `'X'`, `1` otherwise) exactly
when the write completes three in a line. -/
theorem ttt_winner_set (board : List Nat) (p mark : Nat) (hp : p < board.length)
    (hm : mark ≠ 0) (hno : no_completed_line board = true) :
    ttt_winner (board.set p mark) = (if mark = 88 then -1 else 1)
      ↔ spec_completes board mark p = true := by
  have hdone : ∀ l ∈ ttt_lines,
      ttt_line_done (board.set p mark) l = line_completes board mark p l := by
    intro l hl
    apply ttt_line_done_set board p mark l hp hm
    have := List.all_eq_true.mp hno l hl
    simpa using this
  have hcell : ∀ l, line_completes board mark p l = true →
      (board.set p mark).getD l.1 0 = mark := by
    intro l hl
    rw [getD_set_cell board p mark _ hp]
    simp only [line_completes, decide_eq_true_eq] at hl
    split
    · rfl
    · rename_i hne
      rcases hl.2.1 with h | h
      · exact absurd h hne
      · exact h
  unfold ttt_winner
  cases h : ttt_winner_lines ttt_lines (board.set p mark) with
  | none =>
    have hnone := (ttt_winner_lines_none _ _).mp h
    have hsc : spec_completes board mark p = false := by
      unfold spec_completes
      rw [List.any_eq_false]
      intro l hl
      rw [← hdone l hl, hnone l hl]
      exact Bool.false_ne_true
    rw [hsc]
    simp only [Bool.false_eq_true, iff_false]
    split <;> split <;> omega
  | some w =>
    obtain ⟨l, hl, hd, hw⟩ := ttt_winner_lines_some _ _ w h
    rw [hdone l hl] at hd
    rw [hcell l hd] at hw
    have hsc : spec_completes board mark p = true := by
      unfold spec_completes
      exact List.any_eq_true.mpr ⟨l, hl, hd⟩
    simp only [hsc, iff_true]
    exact hw

/-- Either of the first two loops of `ttt_ai_move` leaves the board as it found it, and
returns the lowest of the cells it visits that is empty and makes `ttt_winner` return `want`
once `mark` is written to it, if there is one. -/
theorem ttt_ai_try_spec (mark : Nat) (want : Int) : ∀ (fuel p : Nat) (board : List Nat),
    (ttt_ai_try mark want fuel p board).2 = board ∧
    (((ttt_ai_try mark want fuel p board).1 = none ∧
        ∀ q, p ≤ q → q < p + fuel → board.getD q 0 = 0 →
          ttt_winner (board.set q mark) ≠ want) ∨
      ∃ x, (ttt_ai_try mark want fuel p board).1 = some x ∧ p ≤ x ∧ x < p + fuel ∧
        board.getD x 0 = 0 ∧ ttt_winner (board.set x mark) = want ∧
        ∀ q, p ≤ q → q < x → board.getD q 0 = 0 →
          ttt_winner (board.set q mark) ≠ want) := by
  intro fuel
  induction fuel with
  | zero =>
    intro p board
    refine ⟨rfl, Or.inl ⟨rfl, ?_⟩⟩
    intro q h1 h2
    omega
  | succ fuel ih =>
    intro p board
    unfold ttt_ai_try
    by_cases he : board.getD p 0 = 0
    · simp only [he, if_true, set_restore board p mark he]
      by_cases hw : ttt_winner (board.set p mark) = want
      · simp only [hw, if_true]
        refine ⟨trivial, Or.inr ⟨p, rfl, le_refl _, by omega, he, hw, ?_⟩⟩
        intro q h1 h2
        omega
      · simp only [hw, if_false]
        obtain ⟨h1, h2⟩ := ih (p + 1) board
        refine ⟨h1, ?_⟩
        rcases h2 with ⟨h3, h4⟩ | ⟨x, h3, h4, h5, h6, h7, h8⟩
        · refine Or.inl ⟨h3, ?_⟩
          intro q hq1 hq2 hq3
          by_cases hqp : q = p
          · rw [hqp]; exact hw
          · exact h4 q (by omega) (by omega) hq3
        · refine Or.inr ⟨x, h3, by omega, by omega, h6, h7, ?_⟩
          intro q hq1 hq2 hq3
          by_cases hqp : q = p
          · rw [hqp]; exact hw
          · exact h8 q (by omega) hq2 hq3
    · simp only [he, if_false]
      obtain ⟨h1, h2⟩ := ih (p + 1) board
      refine ⟨h1, ?_⟩
      rcases h2 with ⟨h3, h4⟩ | ⟨x, h3, h4, h5, h6, h7, h8⟩
      · refine Or.inl ⟨h3, ?_⟩
        intro q hq1 hq2 hq3
        by_cases hqp : q = p
        · rw [hqp] at hq3; exact absurd hq3 he
        · exact h4 q (by omega) (by omega) hq3
      · refine Or.inr ⟨x, h3, by omega, by omega, h6, h7, ?_⟩
        intro q hq1 hq2 hq3
        by_cases hqp : q = p
        · rw [hqp] at hq3; exact absurd hq3 he
        · exact h8 q (by omega) hq2 hq3

/-- The third loop of `ttt_ai_move` returns the lowest empty cell among those it visits, if
there is one. -/
theorem ttt_ai_free_spec : ∀ (fuel p : Nat) (board : List Nat),
    (ttt_ai_free fuel p board = none ∧ ∀ q, p ≤ q → q < p + fuel → board.getD q 0 ≠ 0) ∨
    ∃ x, ttt_ai_free fuel p board = some x ∧ p ≤ x ∧ x < p + fuel ∧ board.getD x 0 = 0 ∧
      ∀ q, p ≤ q → q < x → board.getD q 0 ≠ 0 := by
  intro fuel
  induction fuel with
  | zero =>
    intro p board
    refine Or.inl ⟨rfl, ?_⟩
    intro q h1 h2
    omega
  | succ fuel ih =>
    intro p board
    unfold ttt_ai_free
    by_cases he : board.getD p 0 = 0
    · simp only [he, if_true]
      refine Or.inr ⟨p, rfl, le_refl _, by omega, he, ?_⟩
      intro q h1 h2
      omega
    · simp only [he, if_false]
      rcases ih (p + 1) board with ⟨h3, h4⟩ | ⟨x, h3, h4, h5, h6, h8⟩
      · refine Or.inl ⟨h3, ?_⟩
        intro q hq1 hq2
        by_cases hqp : q = p
        · rw [hqp]; exact he
        · exact h4 q (by omega) (by omega)
      · refine Or.inr ⟨x, h3, by omega, by omega, h6, ?_⟩
        intro q hq1 hq2
        by_cases hqp : q = p
        · rw [hqp]; exact he
        · exact h8 q (by omega) hq2

/-! ### Claims about tic-tac-toe -/

/-- C22: for every board of nine cells with no complete line (whatever the cells hold),
`ttt_ai_move` leaves the board as it found it; it returns `-1` exactly when no cell is empty;
and when a cell is empty it returns the index `p` of an empty cell, which is the lowest empty
cell that completes three `'O'` in a line if there is one, else the lowest empty cell that
completes three `'X'` in a line if there is one, else the lowest empty cell. -/
theorem ttt_ai_move_spec (board : List Nat) (hlen : board.length = 9)
    (hno : no_completed_line board = true) :
    (ttt_ai_move board).2 = board ∧
    ((ttt_ai_move board).1 = -1 ↔ ∀ q < 9, board.getD q 0 ≠ 0) ∧
    ((∃ q < 9, board.getD q 0 = 0) →
      ∃ p : Nat, p < 9 ∧ (ttt_ai_move board).1 = (p : Int) ∧ board.getD p 0 = 0 ∧
        ((spec_completes board 79 p = true ∧
            ∀ q < p, board.getD q 0 = 0 → spec_completes board 79 q = false) ∨
          ((∀ q < 9, board.getD q 0 = 0 → spec_completes board 79 q = false) ∧
            spec_completes board 88 p = true ∧
            ∀ q < p, board.getD q 0 = 0 → spec_completes board 88 q = false) ∨
          ((∀ q < 9, board.getD q 0 = 0 → spec_completes board 79 q = false) ∧
            (∀ q < 9, board.getD q 0 = 0 → spec_completes board 88 q = false) ∧
            ∀ q < p, board.getD q 0 ≠ 0))) := by
  have hO : ∀ q < 9, (ttt_winner (board.set q 79) = 1 ↔ spec_completes board 79 q = true) := by
    intro q hq
    have h := ttt_winner_set board q 79 (by omega) (by decide) hno
    rw [if_neg (by decide)] at h
    exact h
  have hX : ∀ q < 9,
      (ttt_winner (board.set q 88) = -1 ↔ spec_completes board 88 q = true) := by
    intro q hq
    have h := ttt_winner_set board q 88 (by omega) (by decide) hno
    rw [if_pos rfl] at h
    exact h
  have hOn : ∀ q < 9, ttt_winner (board.set q 79) ≠ 1 → spec_completes board 79 q = false :=
    fun q hq h => Bool.eq_false_iff.mpr (fun hc => h ((hO q hq).mpr hc))
  have hXn : ∀ q < 9, ttt_winner (board.set q 88) ≠ -1 → spec_completes board 88 q = false :=
    fun q hq h => Bool.eq_false_iff.mpr (fun hc => h ((hX q hq).mpr hc))
  obtain ⟨hb1, hr1⟩ := ttt_ai_try_spec 79 1 9 0 board
  rcases hr1 with ⟨h1, h1n⟩ | ⟨x, h1, _, hx9, hxe, hxw, hxl⟩
  · have e1 : ttt_ai_try 79 1 9 0 board = (none, board) := Prod.ext h1 hb1
    have hnoO : ∀ q < 9, board.getD q 0 = 0 → spec_completes board 79 q = false :=
      fun q hq he => hOn q hq (h1n q (Nat.zero_le _) (by omega) he)
    obtain ⟨hb2, hr2⟩ := ttt_ai_try_spec 88 (-1) 9 0 board
    rcases hr2 with ⟨h2, h2n⟩ | ⟨x, h2, _, hx9, hxe, hxw, hxl⟩
    · have e2 : ttt_ai_try 88 (-1) 9 0 board = (none, board) := Prod.ext h2 hb2
      have hnoX : ∀ q < 9, board.getD q 0 = 0 → spec_completes board 88 q = false :=
        fun q hq he => hXn q hq (h2n q (Nat.zero_le _) (by omega) he)
      rcases ttt_ai_free_spec 9 0 board with ⟨h3, h3n⟩ | ⟨x, h3, _, hx9, hxe, hxl⟩
      · have hr : ttt_ai_move board = (-1, board) := by
          simp only [ttt_ai_move, e1, e2, h3]
        rw [hr]
        refine ⟨rfl, ?_, ?_⟩
        · simp only [true_iff]
          intro q hq
          exact h3n q (Nat.zero_le _) (by omega)
        · rintro ⟨q, hq, he⟩
          exact absurd he (h3n q (Nat.zero_le _) (by omega))
      · have hr : ttt_ai_move board = ((x : Int), board) := by
          simp only [ttt_ai_move, e1, e2, h3]
        rw [hr]
        refine ⟨rfl, ?_, ?_⟩
        · constructor
          · intro h
            simp only at h
            omega
          · intro h
            exact absurd hxe (h x (by omega))
        · intro _
          exact ⟨x, by omega, rfl, hxe, Or.inr (Or.inr ⟨hnoO, hnoX,
            fun q hq => hxl q (Nat.zero_le _) hq⟩)⟩
    · have e2 : ttt_ai_try 88 (-1) 9 0 board = (some x, board) := Prod.ext h2 hb2
      have hr : ttt_ai_move board = ((x : Int), board) := by
        simp only [ttt_ai_move, e1, e2]
      rw [hr]
      refine ⟨rfl, ?_, ?_⟩
      · constructor
        · intro h
          simp only at h
          omega
        · intro h
          exact absurd hxe (h x (by omega))
      · intro _
        exact ⟨x, by omega, rfl, hxe, Or.inr (Or.inl ⟨hnoO, (hX x (by omega)).mp hxw,
          fun q hq he => hXn q (by omega) (hxl q (Nat.zero_le _) hq he)⟩)⟩
  · have e1 : ttt_ai_try 79 1 9 0 board = (some x, board) := Prod.ext h1 hb1
    have hr : ttt_ai_move board = ((x : Int), board) := by
      simp only [ttt_ai_move, e1]
    rw [hr]
    refine ⟨rfl, ?_, ?_⟩
    · constructor
      · intro h
        simp only at h
        omega
      · intro h
        exact absurd hxe (h x (by omega))
    · intro _
      exact ⟨x, by omega, rfl, hxe, Or.inl ⟨(hO x (by omega)).mp hxw,
        fun q hq he => hOn q (by omega) (hxl q (Nat.zero_le _) hq he)⟩⟩

/-- Witness for C22: on the board `X X . / . O . / . . .` no `'O'` can be completed and
`ttt_ai_move` returns cell `2`, which completes three `'X'`; on the board
`X X . / O O . / X . .` it returns cell `5`, which completes three `'O'`; on a full board
with no complete line it returns `-1`. -/
theorem ttt_ai_move_spec_witness :
    (ttt_ai_move [88, 88, 0, 0, 79, 0, 0, 0, 0]).2 = [88, 88, 0, 0, 79, 0, 0, 0, 0] ∧
    ttt_ai_move [88, 88, 0, 0, 79, 0, 0, 0, 0] = (2, [88, 88, 0, 0, 79, 0, 0, 0, 0]) ∧
    ttt_ai_move [88, 88, 0, 79, 79, 0, 88, 0, 0] = (5, [88, 88, 0, 79, 79, 0, 88, 0, 0]) ∧
    ttt_ai_move [0, 88, 0, 0, 79, 0, 0, 0, 0] = (0, [0, 88, 0, 0, 79, 0, 0, 0, 0]) ∧
    ttt_ai_move [88, 79, 88, 88, 79, 79, 79, 88, 88]
      = (-1, [88, 79, 88, 88, 79, 79, 79, 88, 88]) :=
  ⟨(ttt_ai_move_spec [88, 88, 0, 0, 79, 0, 0, 0, 0] rfl (by decide)).1,
    by decide, by decide, by decide, by decide⟩

end CPlayground
